import Mathlib

/-!
# Shallow embedding of the `mm.c` memory allocator

This file embeds the allocator in `src/mm.c` (an explicit-free-list malloc over
a monotonically growing arena) and proves properties of it.

Modelling conventions:

* The heap is addressed by byte offsets from `mem_heap_lo()`; a `Block*`
  pointer is a `Nat` offset and `NULL` is `Option.none`.
* Block headers that have been written into the arena are modelled as an
  association list `mem : List (Nat × Block)` from header offset to the header
  record; a later store shadows an earlier one, matching in-place overwriting.
* On x86-64, `sizeof(void*) = 8`, so `sizeof(BlockInfo)` (a `long int` plus a
  pointer) is 16 and `sizeof(FreeBlockInfo)` (two pointers) is 16.
* Machine `long int` arithmetic on sizes is modelled by `Int` (no overflow for
  realistic heap sizes), `size_t` offsets by `Nat`.
* C reads of uninitialized fields never happen on the paths the code takes
  (`freeNode` fields are always written by `insertFreeBlock` before they are
  read), so freshly carved headers are modelled with `none` link fields.
* Partial operations (reading a header that was never written, a free walk
  running out of fuel) return `Option.none` at the outer level ("stuck");
  on well-formed states they never get stuck.
* `mem_sbrk` failure terminates the process in the reference code
  (`requestMoreSpace` calls `exit`), so the model's arena grows unboundedly.
-/

set_option maxHeartbeats 1600000

namespace MM

/-- `sizeof(void*)` on the target architecture (`WORD_SIZE` in `mm.c`). -/
def WORD_SIZE : Nat := 8

/-- `sizeof(BlockInfo)`: a `long int size` plus a `struct _Block* prev`. -/
def sizeofBlockInfo : Nat := 16

/-- `ALIGNMENT = sizeof(FreeBlockInfo)`: two pointers (`nextFree`, `prevFree`). -/
def ALIGNMENT : Nat := 16

/-- One `Block` header: the `BlockInfo` part (`size`, `prev`) and the
`FreeBlockInfo` part (`nextFree`, `prevFree`) that is only meaningful while
the block is free.  When `size` is negative the block is free. -/
structure Block where
  size : Int
  prev : Option Nat
  nextFree : Option Nat
  prevFree : Option Nat
deriving Repr, DecidableEq

/-- The allocator's global state: the arena's written headers, the static
variables `free_list_head` and `malloc_list_tail`, and `heap_size`. -/
structure AllocState where
  mem : List (Nat × Block)
  free_list_head : Option Nat
  malloc_list_tail : Option Nat
  heap_size : Nat
deriving Repr, DecidableEq

/-- Read the header stored at offset `o` (the most recent store wins). -/
def lookupB : List (Nat × Block) → Nat → Option Block
  | [], _ => none
  | (k, b) :: rest, o => if k = o then some b else lookupB rest o

/-- Overwrite the header at offset `o`. -/
def storeB (m : List (Nat × Block)) (o : Nat) (b : Block) : List (Nat × Block) :=
  (o, b) :: m

/-- `p->info.size = v` (fails if no header was ever written at `o`). -/
def setSize (m : List (Nat × Block)) (o : Nat) (v : Int) :
    Option (List (Nat × Block)) :=
  (lookupB m o).map fun b => storeB m o { b with size := v }

/-- `p->info.prev = v`. -/
def setPrev (m : List (Nat × Block)) (o : Nat) (v : Option Nat) :
    Option (List (Nat × Block)) :=
  (lookupB m o).map fun b => storeB m o { b with prev := v }

/-- `p->freeNode.nextFree = v`. -/
def setNextFree (m : List (Nat × Block)) (o : Nat) (v : Option Nat) :
    Option (List (Nat × Block)) :=
  (lookupB m o).map fun b => storeB m o { b with nextFree := v }

/-- `p->freeNode.prevFree = v`. -/
def setPrevFree (m : List (Nat × Block)) (o : Nat) (v : Option Nat) :
    Option (List (Nat × Block)) :=
  (lookupB m o).map fun b => storeB m o { b with prevFree := v }

/-- `first_block` (mm.c:301-308): the block at `mem_heap_lo()`, or `NULL`
when the heap is empty. -/
def first_block (s : AllocState) : Option Nat :=
  if s.heap_size = 0 then none else some 0

/-- `next_block` (mm.c:311-321): the address-adjacent next block, computed
from the current block's address and `|size|`, clipped against the heap end.
The outer `Option` is "stuck" (header unreadable); the inner one is the
`NULL`-or-pointer result. -/
def next_block (s : AllocState) (block : Nat) : Option (Option Nat) :=
  (lookupB s.mem block).map fun blk =>
    let distance := blk.size.natAbs
    let next := block + sizeofBlockInfo + distance
    if s.heap_size ≤ next then none else some next

/-- The `while (ptrFreeBlock)` loop of `searchFreeList` (mm.c:103-106),
with explicit fuel for the traversal of the `nextFree` links. -/
def searchLoop (m : List (Nat × Block)) (checkSize : Int) :
    Nat → Option Nat → Option (Option Nat)
  | _, none => some none
  | 0, some _ => none
  | fuel + 1, some p =>
      match lookupB m p with
      | none => none
      | some blk =>
          if blk.size ≤ checkSize then some (some p)
          else searchLoop m checkSize fuel blk.nextFree

/-- `searchFreeList` (mm.c:97-108): first the `malloc_list_tail` shortcut,
then a scan of the free list.  `checkSize = -reqSize`. -/
def searchFreeList (s : AllocState) (reqSize : Nat) : Option (Option Nat) :=
  let checkSize : Int := -(reqSize : Int)
  match s.malloc_list_tail with
  | some t =>
      match lookupB s.mem t with
      | none => none
      | some tb =>
          if tb.size ≤ checkSize then some (some t)
          else searchLoop s.mem checkSize s.heap_size s.free_list_head
  | none => searchLoop s.mem checkSize s.heap_size s.free_list_head

/-- `insertFreeBlock` (mm.c:112-124): push a free block on the head of the
free list. -/
def insertFreeBlock (s : AllocState) (freeBlock : Option Nat) :
    Option AllocState :=
  match freeBlock with
  | none => some s
  | some f => do
      let m1 ← setPrevFree s.mem f none
      match s.free_list_head with
      | some h => do
          let m2 ← setNextFree m1 f (some h)
          let m3 ← setPrevFree m2 h (some f)
          some { s with mem := m3, free_list_head := some f }
      | none => do
          let m2 ← setNextFree m1 f none
          some { s with mem := m2, free_list_head := some f }

/-- `removeFreeBlock` (mm.c:126-154): unlink a block from the free list,
with the four structural cases (middle, front, tail, sole element). -/
def removeFreeBlock (s : AllocState) (freeBlock : Option Nat) :
    Option AllocState :=
  match freeBlock with
  | none => some s
  | some f =>
      match s.free_list_head with
      | none => some s
      | some _ => do
          let fb ← lookupB s.mem f
          match fb.prevFree, fb.nextFree with
          | some p, some n => do
              let m1 ← setNextFree s.mem p (some n)
              let m2 ← setPrevFree m1 n (some p)
              some { s with mem := m2 }
          | none, some n => do
              let m1 ← setPrevFree s.mem n none
              some { s with mem := m1, free_list_head := some n }
          | some p, none => do
              let m1 ← setNextFree s.mem p none
              some { s with mem := m1 }
          | none, none => some { s with free_list_head := none }

/-- `requestMoreSpace` (mm.c:278-289): returns the old high-water mark and
grows the heap; `mem_sbrk` failure exits the process, so the model always
succeeds. -/
def requestMoreSpace (s : AllocState) (reqSize : Nat) : AllocState × Nat :=
  ({ s with heap_size := s.heap_size + reqSize }, s.heap_size)

/-- The rounding expression of mm.c:165:
`ALIGNMENT * ((reqSize + ALIGNMENT - 1) / ALIGNMENT)`. -/
def roundUpALIGN (size : Nat) : Nat :=
  ALIGNMENT * ((size + ALIGNMENT - 1) / ALIGNMENT)

/-- `mm_malloc` (mm.c:160-203).  Returns the new state and the payload
pointer (`none` for the `size == 0` case). -/
def mm_malloc (s : AllocState) (size : Nat) : Option (AllocState × Option Nat) :=
  if size = 0 then some (s, none)
  else do
    let reqSize : Nat := roundUpALIGN size
    let found ← searchFreeList s reqSize
    match found with
    | none =>
        -- == No Free Blocks to Use == (mm.c:169-178)
        let (s1, p) := requestMoreSpace s (sizeofBlockInfo + reqSize)
        let s2 := { s1 with
          mem := storeB s1.mem p
            { size := (reqSize : Int), prev := s1.malloc_list_tail,
              nextFree := none, prevFree := none },
          malloc_list_tail := some p }
        some (s2, some (p + sizeofBlockInfo))
    | some b => do
        let bb ← lookupB s.mem b
        if (reqSize : Int) + sizeofBlockInfo < -bb.size then
          -- == Split Existing Block == (mm.c:181-197)
          let nextBlockR ← next_block s b
          let splitBlock := b + reqSize + sizeofBlockInfo
          let s1 ← removeFreeBlock s (some b)
          let bb1 ← lookupB s1.mem b
          let m2 := storeB s1.mem splitBlock
            { size := bb1.size + (reqSize : Int) + sizeofBlockInfo,
              prev := none, nextFree := none, prevFree := none }
          let m3 ← setSize m2 b (reqSize : Int)
          let m4 ← setPrev m3 splitBlock (some b)
          match nextBlockR with
          | some nb => do
              let m5 ← setPrev m4 nb (some splitBlock)
              let s3 ← insertFreeBlock { s1 with mem := m5 } (some splitBlock)
              some (s3, some (b + sizeofBlockInfo))
          | none => do
              let s3 ← insertFreeBlock
                { s1 with mem := m4, malloc_list_tail := some splitBlock }
                (some splitBlock)
              some (s3, some (b + sizeofBlockInfo))
        else do
          -- == Exact Size == (mm.c:200-202)
          let m1 ← setSize s.mem b (-bb.size)
          let s2 ← removeFreeBlock { s with mem := m1 } (some b)
          some (s2, some (b + sizeofBlockInfo))

/-- The "If PREV is free" phase of `coalesce` (mm.c:217-224).  Returns the
updated state and the merged block (`blockInfo` after the possible
`blockInfo = previousBlock` reassignment). -/
def coalescePrevPhase (s : AllocState) (b : Nat) (previousBlock : Option Nat)
    (nextBlockR : Option Nat) : Option (AllocState × Nat) :=
  match previousBlock with
  | none => some (s, b)
  | some p => do
      let pb ← lookupB s.mem p
      if pb.size < 0 then do
        let sA ← removeFreeBlock s (some p)
        let pb1 ← lookupB sA.mem p
        let bb1 ← lookupB sA.mem b
        let mA ← setSize sA.mem p (pb1.size + bb1.size - sizeofBlockInfo)
        match nextBlockR with
        | some nb => do
            let mB ← setPrev mA nb (some p)
            some ({ sA with mem := mB }, p)
        | none => some ({ sA with mem := mA, malloc_list_tail := some p }, p)
      else some (s, b)

/-- The "If NEXT is free" phase of `coalesce` (mm.c:227-235).  `cur` is the
merged block so far, `nextBlockR` the next block of the originally freed
block (computed at mm.c:208, before any merging). -/
def coalesceNextPhase (s : AllocState) (cur : Nat) (nextBlockR : Option Nat) :
    Option AllocState :=
  match nextBlockR with
  | none => some s
  | some nb => do
      let nbB ← lookupB s.mem nb
      if nbB.size < 0 then do
        let sA ← removeFreeBlock s (some nb)
        let curB ← lookupB sA.mem cur
        let nbB1 ← lookupB sA.mem nb
        let mA ← setSize sA.mem cur (curB.size + nbB1.size - sizeofBlockInfo)
        let sB := { sA with mem := mA }
        let nextNextR ← next_block sB nb
        match nextNextR with
        | some nn => do
            let mB ← setPrev sB.mem nn (some cur)
            some { sB with mem := mB }
        | none => some { sB with malloc_list_tail := some cur }
      else some s

/-- `coalesce` (mm.c:205-239). -/
def coalesce (s : AllocState) (blockInfo : Option Nat) : Option AllocState :=
  match blockInfo with
  | none => some s
  | some b => do
      let bb ← lookupB s.mem b
      if 0 ≤ bb.size then some s
      else do
        let nextBlockR ← next_block s b
        let previousBlock := bb.prev
        if nextBlockR = none ∧ previousBlock = none then
          insertFreeBlock s (some b)
        else do
          let (s1, cur) ← coalescePrevPhase s b previousBlock nextBlockR
          let s2 ← coalesceNextPhase s1 cur nextBlockR
          insertFreeBlock s2 (some cur)

/-- `mm_free` (mm.c:242-247): recover the header, flip the size sign, and
coalesce.  Payload pointers handed out by `mm_malloc` are always
`≥ sizeofBlockInfo`; anything smaller is stuck. -/
def mm_free (s : AllocState) (ptr : Option Nat) : Option AllocState :=
  match ptr with
  | none => some s
  | some p =>
      if p < sizeofBlockInfo then none
      else do
        let b := p - sizeofBlockInfo
        let bb ← lookupB s.mem b
        let m ← setSize s.mem b (-bb.size)
        coalesce { s with mem := m } (some b)

/-- `mm_init` (mm.c:292-298). -/
def mm_init (s : AllocState) : AllocState × Int :=
  ({ s with free_list_head := none, malloc_list_tail := none, heap_size := 0 }, 0)

/-- The state of a freshly started process after `mm_init`. -/
def initState : AllocState :=
  { mem := [], free_list_head := none, malloc_list_tail := none, heap_size := 0 }

/-- Executable walk of the block chain from offset `off`, used to express
which payload pointers are currently live. -/
def chainWalk (m : List (Nat × Block)) (hs : Nat) : Nat → Nat → List Nat
  | 0, _ => []
  | fuel + 1, off =>
      if hs ≤ off then []
      else
        match lookupB m off with
        | none => []
        | some blk => off :: chainWalk m hs fuel (off + sizeofBlockInfo + blk.size.natAbs)

/-- The current block chain of a state. -/
def chainOf (s : AllocState) : List Nat :=
  chainWalk s.mem s.heap_size s.heap_size 0

/-- `p` is a payload pointer of a currently allocated block: its header is a
chain block with positive stored size.  This is the caller precondition of
`mm_free` (freeing anything else is undefined behavior, spec §5). -/
def FreeOK (s : AllocState) (p : Nat) : Prop :=
  sizeofBlockInfo ≤ p ∧ (p - sizeofBlockInfo) ∈ chainOf s ∧
    ∃ blk, lookupB s.mem (p - sizeofBlockInfo) = some blk ∧ 0 < blk.size

/-- States reachable from process start by `mm_init`, `mm_malloc`, and
well-formed `mm_free` calls. -/
inductive Reach : AllocState → Prop
  | start : Reach initState
  | reinit (s : AllocState) : Reach s → Reach (mm_init s).1
  | alloc (s s' : AllocState) (n : Nat) (r : Option Nat) :
      Reach s → mm_malloc s n = some (s', r) → Reach s'
  | dealloc (s s' : AllocState) (p : Nat) :
      Reach s → FreeOK s p → mm_free s (some p) = some s' → Reach s'

/-! ## Basic lemmas about the memory model -/

/-- The size/prev projection of a header (the `BlockInfo` part). -/
def psOf (b : Block) : Int × Option Nat := (b.size, b.prev)

/-- The free-link projection of a header (the `FreeBlockInfo` part). -/
def fnOf (b : Block) : Option Nat × Option Nat := (b.nextFree, b.prevFree)

theorem lookupB_storeB (m : List (Nat × Block)) (o o' : Nat) (b : Block) :
    lookupB (storeB m o b) o' = if o = o' then some b else lookupB m o' := by
  simp [storeB, lookupB]

theorem lookupB_storeB_self (m : List (Nat × Block)) (o : Nat) (b : Block) :
    lookupB (storeB m o b) o = some b := by
  simp [lookupB_storeB]

theorem lookupB_storeB_ne (m : List (Nat × Block)) {o o' : Nat} (b : Block)
    (h : o ≠ o') : lookupB (storeB m o b) o' = lookupB m o' := by
  simp [lookupB_storeB, h]

theorem setSize_eq {m : List (Nat × Block)} {o : Nat} {b : Block} (v : Int)
    (h : lookupB m o = some b) :
    setSize m o v = some (storeB m o { b with size := v }) := by
  simp [setSize, h]

theorem setPrev_eq {m : List (Nat × Block)} {o : Nat} {b : Block} (v : Option Nat)
    (h : lookupB m o = some b) :
    setPrev m o v = some (storeB m o { b with prev := v }) := by
  simp [setPrev, h]

theorem setNextFree_eq {m : List (Nat × Block)} {o : Nat} {b : Block} (v : Option Nat)
    (h : lookupB m o = some b) :
    setNextFree m o v = some (storeB m o { b with nextFree := v }) := by
  simp [setNextFree, h]

theorem setPrevFree_eq {m : List (Nat × Block)} {o : Nat} {b : Block} (v : Option Nat)
    (h : lookupB m o = some b) :
    setPrevFree m o v = some (storeB m o { b with prevFree := v }) := by
  simp [setPrevFree, h]

theorem setSize_some {m m' : List (Nat × Block)} {o : Nat} {v : Int}
    (h : setSize m o v = some m') :
    ∃ b, lookupB m o = some b ∧ m' = storeB m o { b with size := v } := by
  cases hl : lookupB m o with
  | none => simp [setSize, hl] at h
  | some b => simp [setSize, hl] at h; exact ⟨b, rfl, h.symm⟩

theorem setPrev_some {m m' : List (Nat × Block)} {o : Nat} {v : Option Nat}
    (h : setPrev m o v = some m') :
    ∃ b, lookupB m o = some b ∧ m' = storeB m o { b with prev := v } := by
  cases hl : lookupB m o with
  | none => simp [setPrev, hl] at h
  | some b => simp [setPrev, hl] at h; exact ⟨b, rfl, h.symm⟩

theorem setNextFree_some {m m' : List (Nat × Block)} {o : Nat} {v : Option Nat}
    (h : setNextFree m o v = some m') :
    ∃ b, lookupB m o = some b ∧ m' = storeB m o { b with nextFree := v } := by
  cases hl : lookupB m o with
  | none => simp [setNextFree, hl] at h
  | some b => simp [setNextFree, hl] at h; exact ⟨b, rfl, h.symm⟩

theorem setPrevFree_some {m m' : List (Nat × Block)} {o : Nat} {v : Option Nat}
    (h : setPrevFree m o v = some m') :
    ∃ b, lookupB m o = some b ∧ m' = storeB m o { b with prevFree := v } := by
  cases hl : lookupB m o with
  | none => simp [setPrevFree, hl] at h
  | some b => simp [setPrevFree, hl] at h; exact ⟨b, rfl, h.symm⟩

/-- Setting a free-link field does not disturb any block's size or chain
link. -/
theorem setNextFree_ps {m m' : List (Nat × Block)} {o : Nat} {v : Option Nat}
    (h : setNextFree m o v = some m') (o' : Nat) :
    (lookupB m' o').map psOf = (lookupB m o').map psOf := by
  obtain ⟨b, hb, rfl⟩ := setNextFree_some h
  rw [lookupB_storeB]
  by_cases he : o = o'
  · subst he; simp [hb, psOf]
  · simp [he]

theorem setPrevFree_ps {m m' : List (Nat × Block)} {o : Nat} {v : Option Nat}
    (h : setPrevFree m o v = some m') (o' : Nat) :
    (lookupB m' o').map psOf = (lookupB m o').map psOf := by
  obtain ⟨b, hb, rfl⟩ := setPrevFree_some h
  rw [lookupB_storeB]
  by_cases he : o = o'
  · subst he; simp [hb, psOf]
  · simp [he]

/-- Setting a size or chain link does not disturb any block's free links. -/
theorem setSize_fn {m m' : List (Nat × Block)} {o : Nat} {v : Int}
    (h : setSize m o v = some m') (o' : Nat) :
    (lookupB m' o').map fnOf = (lookupB m o').map fnOf := by
  obtain ⟨b, hb, rfl⟩ := setSize_some h
  rw [lookupB_storeB]
  by_cases he : o = o'
  · subst he; simp [hb, fnOf]
  · simp [he]

theorem setPrev_fn {m m' : List (Nat × Block)} {o : Nat} {v : Option Nat}
    (h : setPrev m o v = some m') (o' : Nat) :
    (lookupB m' o').map fnOf = (lookupB m o').map fnOf := by
  obtain ⟨b, hb, rfl⟩ := setPrev_some h
  rw [lookupB_storeB]
  by_cases he : o = o'
  · subst he; simp [hb, fnOf]
  · simp [he]

/-- `removeFreeBlock` never touches the heap size, the chain tail, or any
block's `size`/`prev` fields: it only rewires free-list links. -/
theorem removeFreeBlock_frame {s s' : AllocState} {fb : Option Nat}
    (h : removeFreeBlock s fb = some s') :
    s'.heap_size = s.heap_size ∧ s'.malloc_list_tail = s.malloc_list_tail ∧
      ∀ o, (lookupB s'.mem o).map psOf = (lookupB s.mem o).map psOf := by
  match fb with
  | none =>
      simp [removeFreeBlock] at h
      subst h; exact ⟨rfl, rfl, fun _ => rfl⟩
  | some f =>
      match hh : s.free_list_head with
      | none =>
          simp [removeFreeBlock, hh] at h
          subst h; exact ⟨rfl, rfl, fun _ => rfl⟩
      | some h0 =>
          rw [removeFreeBlock] at h
          rw [hh] at h
          cases hf : lookupB s.mem f with
          | none => rw [hf] at h; cases h
          | some blk =>
              rw [hf] at h
              simp only [Option.bind_eq_bind, Option.some_bind] at h
              split at h
              · obtain ⟨m1, h1, h⟩ := Option.bind_eq_some.mp h
                obtain ⟨m2, h2, h⟩ := Option.bind_eq_some.mp h
                simp only [Option.some.injEq] at h
                subst h
                exact ⟨rfl, rfl, fun o =>
                  (setPrevFree_ps h2 o).trans (setNextFree_ps h1 o)⟩
              · obtain ⟨m1, h1, h⟩ := Option.bind_eq_some.mp h
                simp only [Option.some.injEq] at h
                subst h
                exact ⟨rfl, rfl, fun o => setPrevFree_ps h1 o⟩
              · obtain ⟨m1, h1, h⟩ := Option.bind_eq_some.mp h
                simp only [Option.some.injEq] at h
                subst h
                exact ⟨rfl, rfl, fun o => setNextFree_ps h1 o⟩
              · simp only [Option.some.injEq] at h
                subst h
                exact ⟨rfl, rfl, fun _ => rfl⟩

/-- `insertFreeBlock` never touches the heap size, the chain tail, or any
block's `size`/`prev` fields, and it makes the inserted block the free-list
head. -/
theorem insertFreeBlock_frame {s s' : AllocState} {f : Nat}
    (h : insertFreeBlock s (some f) = some s') :
    s'.heap_size = s.heap_size ∧ s'.malloc_list_tail = s.malloc_list_tail ∧
      s'.free_list_head = some f ∧
      ∀ o, (lookupB s'.mem o).map psOf = (lookupB s.mem o).map psOf := by
  rw [insertFreeBlock] at h
  simp only [Option.bind_eq_bind] at h
  obtain ⟨m1, h1, h⟩ := Option.bind_eq_some.mp h
  split at h
  · obtain ⟨m2, h2, h⟩ := Option.bind_eq_some.mp h
    obtain ⟨m3, h3, h⟩ := Option.bind_eq_some.mp h
    simp only [Option.some.injEq] at h
    subst h
    exact ⟨rfl, rfl, rfl, fun o =>
      ((setPrevFree_ps h3 o).trans (setNextFree_ps h2 o)).trans
        (setPrevFree_ps h1 o)⟩
  · obtain ⟨m2, h2, h⟩ := Option.bind_eq_some.mp h
    simp only [Option.some.injEq] at h
    subst h
    exact ⟨rfl, rfl, rfl, fun o =>
      (setNextFree_ps h2 o).trans (setPrevFree_ps h1 o)⟩

/-- Setting a chain link does not disturb any block's size. -/
theorem setPrev_size {m m' : List (Nat × Block)} {o : Nat} {v : Option Nat}
    (h : setPrev m o v = some m') (o' : Nat) :
    (lookupB m' o').map Block.size = (lookupB m o').map Block.size := by
  obtain ⟨b, hb, rfl⟩ := setPrev_some h
  rw [lookupB_storeB]
  by_cases he : o = o'
  · subst he; simp [hb]
  · simp [he]

/-- Transfer a lookup across a memory change that preserves sizes. -/
theorem lookup_size_of_frame {m m' : List (Nat × Block)} {o : Nat} {blk : Block}
    (hmap : (lookupB m' o).map Block.size = (lookupB m o).map Block.size)
    (h : lookupB m o = some blk) :
    ∃ blk', lookupB m' o = some blk' ∧ blk'.size = blk.size := by
  cases h' : lookupB m' o with
  | none => rw [h', h] at hmap; cases hmap
  | some blk' =>
      rw [h', h] at hmap
      simp only [Option.map_some', Option.some.injEq] at hmap
      exact ⟨blk', rfl, hmap⟩

/-- Transfer a lookup across a memory change that preserves size/prev. -/
theorem lookup_ps_of_frame {m m' : List (Nat × Block)} {o : Nat} {blk : Block}
    (hmap : (lookupB m' o).map psOf = (lookupB m o).map psOf)
    (h : lookupB m o = some blk) :
    ∃ blk', lookupB m' o = some blk' ∧ blk'.size = blk.size ∧
      blk'.prev = blk.prev := by
  cases h' : lookupB m' o with
  | none => rw [h', h] at hmap; cases hmap
  | some blk' =>
      rw [h', h] at hmap
      simp only [Option.map_some', Option.some.injEq, psOf, Prod.mk.injEq] at hmap
      exact ⟨blk', rfl, hmap.1, hmap.2⟩

/-- Soundness of the free-list scan loop: if it returns a block, that block's
stored size is at most `checkSize`. -/
theorem searchLoop_sound (m : List (Nat × Block)) (cs : Int) :
    ∀ (fuel : Nat) (cur : Option Nat) (r : Option Nat),
      searchLoop m cs fuel cur = some r →
      r = none ∨ ∃ b blk, r = some b ∧ lookupB m b = some blk ∧ blk.size ≤ cs := by
  intro fuel
  induction fuel with
  | zero =>
      intro cur r h
      cases cur with
      | none =>
          rw [show searchLoop m cs 0 none = some none from rfl] at h
          simp only [Option.some.injEq] at h
          exact Or.inl h.symm
      | some p =>
          rw [show searchLoop m cs 0 (some p) = none from rfl] at h
          cases h
  | succ n ih =>
      intro cur r h
      cases cur with
      | none =>
          rw [show searchLoop m cs (n + 1) none = some none from rfl] at h
          simp only [Option.some.injEq] at h
          exact Or.inl h.symm
      | some p =>
          rw [searchLoop] at h
          split at h
          · cases h
          · rename_i blk hl
            split at h
            · rename_i hle
              simp only [Option.some.injEq] at h
              subst h
              exact Or.inr ⟨p, blk, rfl, hl, hle⟩
            · exact ih _ _ h

/-- C7: for every positive, already-aligned requested payload size, whenever
the fit search (`searchFreeList`) returns a block, that block is free
(negative stored size) with capacity at least the requested size — otherwise
it reports none found; and whenever the chain-tail block is itself free and
large enough for the request, the tail is returned immediately, irrespective
of the free list (the same result for every value of `free_list_head`, i.e.
without scanning). -/
theorem searchFreeList_spec (s : AllocState) (req : Nat) (h0 : 0 < req)
    (ha : ALIGNMENT ∣ req) :
    (∀ r, searchFreeList s req = some r →
        r = none ∨ ∃ b blk, r = some b ∧ lookupB s.mem b = some blk ∧
          blk.size < 0 ∧ (req : Int) ≤ -blk.size) ∧
    (∀ t tb, s.malloc_list_tail = some t → lookupB s.mem t = some tb →
        tb.size ≤ -(req : Int) →
        ∀ fl, searchFreeList { s with free_list_head := fl } req
          = some (some t)) := by
  have hstrength : ∀ blk : Block, blk.size ≤ -(req : Int) →
      blk.size < 0 ∧ (req : Int) ≤ -blk.size := by
    intro blk hle
    constructor <;> omega
  obtain ⟨smem, shead, stail, shs⟩ := s
  constructor
  · intro r h
    rw [searchFreeList] at h
    split at h
    · -- malloc_list_tail = some t
      rename_i t hmt
      split at h
      · cases h
      · rename_i tb htb
        split at h
        · rename_i hle
          simp only [Option.some.injEq] at h
          subst h
          exact Or.inr ⟨t, tb, rfl, htb, hstrength tb hle⟩
        · rcases searchLoop_sound _ _ _ _ _ h with h1 | ⟨b, blk, rfl, hb, hle⟩
          · exact Or.inl h1
          · exact Or.inr ⟨b, blk, rfl, hb, hstrength blk hle⟩
    · rcases searchLoop_sound _ _ _ _ _ h with h1 | ⟨b, blk, rfl, hb, hle⟩
      · exact Or.inl h1
      · exact Or.inr ⟨b, blk, rfl, hb, hstrength blk hle⟩
  · intro t tb hmt htb hle fl
    simp only at hmt
    subst hmt
    simp only [searchFreeList, htb]
    rw [if_pos hle]

/-- C7 witness: in a one-block heap whose chain tail is the free 144-byte
block at offset 0, the search for 128 bytes returns the tail. -/
theorem searchFreeList_spec_witness :
    searchFreeList ⟨[(0, ⟨-144, none, none, none⟩)], some 0, some 0, 160⟩ 128
      = some (some 0) :=
  (searchFreeList_spec ⟨[(0, ⟨-144, none, none, none⟩)], some 0, some 0, 160⟩
      128 (by decide) (by decide)).2 0 ⟨-144, none, none, none⟩ rfl rfl
    (by decide) (some 0)

/-! ## The abstract free list

`FreeSeg m cur prv l endCur endPrv` says: starting at link `cur`, whose
target's `prevFree` back-link must be `prv`, the `nextFree` links thread
exactly through the offsets of `l`, leaving the walk at link `endCur` with
expected back-link `endPrv`.  The realized free list of a state is a
`FreeSeg` from `free_list_head` with back-link `none` that terminates in the
`none` link. -/

inductive FreeSeg (m : List (Nat × Block)) :
    Option Nat → Option Nat → List Nat → Option Nat → Option Nat → Prop
  | nil (cur prv : Option Nat) : FreeSeg m cur prv [] cur prv
  | cons (off : Nat) (prv : Option Nat) (blk : Block) (l : List Nat)
      (endCur endPrv : Option Nat) :
      lookupB m off = some blk →
      blk.prevFree = prv →
      FreeSeg m blk.nextFree (some off) l endCur endPrv →
      FreeSeg m (some off) prv (off :: l) endCur endPrv

/-- `fl` is the complete free list hanging off the link `cur`. -/
def FreeChain (m : List (Nat × Block)) (cur prv : Option Nat)
    (fl : List Nat) : Prop :=
  ∃ endPrv, FreeSeg m cur prv fl none endPrv

theorem FreeSeg.nil_inv_free {m : List (Nat × Block)} {cur prv endCur endPrv :
    Option Nat} (h : FreeSeg m cur prv [] endCur endPrv) :
    endCur = cur ∧ endPrv = prv := by
  cases h; exact ⟨rfl, rfl⟩

theorem FreeSeg.cons_inv_free {m : List (Nat × Block)} {cur prv endCur endPrv :
    Option Nat} {x : Nat} {l : List Nat}
    (h : FreeSeg m cur prv (x :: l) endCur endPrv) :
    cur = some x ∧ ∃ blk, lookupB m x = some blk ∧ blk.prevFree = prv ∧
      FreeSeg m blk.nextFree (some x) l endCur endPrv := by
  cases h with
  | cons _ _ blk _ _ _ hl hp hrest => exact ⟨rfl, blk, hl, hp, hrest⟩

theorem FreeSeg.append_inv_free {m : List (Nat × Block)} {cur prv endCur endPrv :
    Option Nat} {l1 l2 : List Nat}
    (h : FreeSeg m cur prv (l1 ++ l2) endCur endPrv) :
    ∃ mid midPrv, FreeSeg m cur prv l1 mid midPrv ∧
      FreeSeg m mid midPrv l2 endCur endPrv := by
  induction l1 generalizing cur prv with
  | nil => exact ⟨cur, prv, FreeSeg.nil cur prv, h⟩
  | cons x l1 ih =>
      obtain ⟨rfl, blk, hl, hp, hrest⟩ := h.cons_inv_free
      obtain ⟨mid, midPrv, h1, h2⟩ := ih hrest
      exact ⟨mid, midPrv, FreeSeg.cons x prv blk l1 mid midPrv hl hp h1, h2⟩

theorem FreeSeg.append_free {m : List (Nat × Block)} {cur prv mid midPrv endCur
    endPrv : Option Nat} {l1 l2 : List Nat}
    (h1 : FreeSeg m cur prv l1 mid midPrv)
    (h2 : FreeSeg m mid midPrv l2 endCur endPrv) :
    FreeSeg m cur prv (l1 ++ l2) endCur endPrv := by
  induction h1 with
  | nil => exact h2
  | cons off prv blk l endCur' endPrv' hl hp _ ih =>
      exact FreeSeg.cons off prv blk _ _ _ hl hp (ih h2)

theorem FreeSeg.mem_lookup_free {m : List (Nat × Block)} {cur prv endCur endPrv :
    Option Nat} {l : List Nat}
    (h : FreeSeg m cur prv l endCur endPrv) {x : Nat} (hx : x ∈ l) :
    ∃ blk, lookupB m x = some blk := by
  induction h with
  | nil => cases hx
  | cons off prv blk l endCur endPrv hl hp hrest ih =>
      rcases List.mem_cons.mp hx with rfl | hx'
      · exact ⟨blk, hl⟩
      · exact ih hx'

/-- Transfer a lookup across a memory change that preserves free links. -/
theorem lookup_fn_of_frame {m m' : List (Nat × Block)} {o : Nat} {blk : Block}
    (hmap : (lookupB m' o).map fnOf = (lookupB m o).map fnOf)
    (h : lookupB m o = some blk) :
    ∃ blk', lookupB m' o = some blk' ∧ blk'.nextFree = blk.nextFree ∧
      blk'.prevFree = blk.prevFree := by
  cases h' : lookupB m' o with
  | none => rw [h', h] at hmap; cases hmap
  | some blk' =>
      rw [h', h] at hmap
      simp only [Option.map_some', Option.some.injEq, fnOf, Prod.mk.injEq] at hmap
      exact ⟨blk', rfl, hmap.1, hmap.2⟩

/-- A `FreeSeg` survives any memory change that preserves the free links of
its members. -/
theorem FreeSeg.congr_free {m m' : List (Nat × Block)} {cur prv endCur endPrv :
    Option Nat} {l : List Nat}
    (h : FreeSeg m cur prv l endCur endPrv)
    (hfn : ∀ o ∈ l, (lookupB m' o).map fnOf = (lookupB m o).map fnOf) :
    FreeSeg m' cur prv l endCur endPrv := by
  induction h with
  | nil => exact FreeSeg.nil _ _
  | cons off prv blk l endCur endPrv hl hp hrest ih =>
      obtain ⟨blk', hl', hn', hp'⟩ :=
        lookup_fn_of_frame (hfn off (List.mem_cons_self off l)) hl
      refine FreeSeg.cons off prv blk' l endCur endPrv hl' (hp'.trans hp) ?_
      rw [hn']
      exact ih fun o ho => hfn o (List.mem_cons_of_mem _ ho)

/-- A `FreeSeg` survives a store at an offset outside its members. -/
theorem FreeSeg.congr_store_free {m : List (Nat × Block)} {cur prv endCur endPrv :
    Option Nat} {l : List Nat} {o : Nat} {b : Block}
    (h : FreeSeg m cur prv l endCur endPrv) (ho : o ∉ l) :
    FreeSeg (storeB m o b) cur prv l endCur endPrv :=
  h.congr_free fun x hx => by
    have hne : o ≠ x := fun he => ho (by rw [he]; exact hx)
    rw [lookupB_storeB_ne m b hne]

/-- The last element of a nonempty `FreeSeg` carries the segment's end
back-link, and its `nextFree` is the segment's end link. -/
theorem FreeSeg.last_shape_free {m : List (Nat × Block)} {cur prv endCur endPrv :
    Option Nat} {l : List Nat}
    (h : FreeSeg m cur prv l endCur endPrv) :
    (l = [] ∧ endCur = cur ∧ endPrv = prv) ∨
      ∃ l' y blk, l = l' ++ [y] ∧ endPrv = some y ∧
        lookupB m y = some blk ∧ blk.nextFree = endCur := by
  induction h with
  | nil => exact Or.inl ⟨rfl, rfl, rfl⟩
  | cons off prv blk l endCur endPrv hl hp hrest ih =>
      rcases ih with ⟨rfl, hc, hps⟩ | ⟨l', y, yblk, rfl, hps, hly, hny⟩
      · exact Or.inr ⟨[], off, blk, rfl, hps, hl, hc ▸ rfl⟩
      · exact Or.inr ⟨off :: l', y, yblk, rfl, hps, hly, hny⟩

/-- Retarget the `nextFree` of the last element of a `FreeSeg` (the store
model of `p->freeNode.nextFree = v`). -/
theorem FreeSeg.set_last_next {m : List (Nat × Block)} {cur prv endPrv :
    Option Nat} {l' : List Nat} {p : Nat} {endCur : Option Nat} {pblk : Block}
    (h : FreeSeg m cur prv (l' ++ [p]) endCur endPrv)
    (hnd : (l' ++ [p]).Nodup) (hp : lookupB m p = some pblk)
    (v : Option Nat) :
    FreeSeg (storeB m p { pblk with nextFree := v }) cur prv (l' ++ [p]) v
      (some p) := by
  obtain ⟨mid, midPrv, h1, h2⟩ := h.append_inv_free
  obtain ⟨rfl, blk, hl, hbp, hrest⟩ := h2.cons_inv_free
  rw [hp] at hl
  obtain rfl : pblk = blk := by injection hl
  have hpl' : p ∉ l' := by
    have := List.disjoint_of_nodup_append hnd
    intro hmem
    exact this hmem (List.mem_singleton_self p)
  refine FreeSeg.append_free (h1.congr_store_free hpl')
    (FreeSeg.cons p midPrv { pblk with nextFree := v } [] v (some p)
      (lookupB_storeB_self _ _ _) hbp ?_)
  exact FreeSeg.nil v (some p)

theorem FreeSeg.ne_nil_head {m : List (Nat × Block)} {cur prv endCur endPrv :
    Option Nat} {l : List Nat}
    (h : FreeSeg m cur prv l endCur endPrv) (hne : l ≠ []) :
    ∃ hd, cur = some hd := by
  cases l with
  | nil => exact absurd rfl hne
  | cons x xs => exact ⟨x, h.cons_inv_free.1⟩

/-- Removing a member of the realized free list succeeds, realizes exactly
the erased list, and changes no block's size or chain link. -/
theorem removeFreeBlock_spec (s : AllocState) (fl : List Nat) (f : Nat)
    (hfl : FreeChain s.mem s.free_list_head none fl)
    (hnd : fl.Nodup) (hf : f ∈ fl) :
    ∃ s', removeFreeBlock s (some f) = some s' ∧
      FreeChain s'.mem s'.free_list_head none (fl.erase f) ∧
      s'.heap_size = s.heap_size ∧ s'.malloc_list_tail = s.malloc_list_tail ∧
      ∀ o, (lookupB s'.mem o).map psOf = (lookupB s.mem o).map psOf := by
  obtain ⟨l1, l2, rfl⟩ := List.append_of_mem hf
  obtain ⟨endPrv, hseg⟩ := hfl
  obtain ⟨mid, midPrv, hseg1, hseg2⟩ := hseg.append_inv_free
  obtain ⟨hmid, fb, hfb, hfbp, hrest⟩ := hseg2.cons_inv_free
  subst hmid
  obtain ⟨hndl1, hnd2, hdisj⟩ := List.nodup_append.mp hnd
  obtain ⟨hfl2, hndl2⟩ := List.nodup_cons.mp hnd2
  have hfl1 : f ∉ l1 := fun h => hdisj h (List.mem_cons_self f l2)
  have herase : (l1 ++ f :: l2).erase f = l1 ++ l2 := by
    rw [List.erase_append_right _ hfl1, List.erase_cons_head]
  rcases hseg1.last_shape_free with ⟨rfl, hmidc, hmidp⟩ | ⟨l1t, p, pblk, rfl, hmidp, hpl, hpn⟩
  · -- no free-list predecessor: f is the head of the free list
    subst hmidp
    cases l2 with
    | nil =>
        -- sole element: free_list_head := NULL
        obtain ⟨hnc, hnp⟩ := hrest.nil_inv_free
        have hrun : removeFreeBlock s (some f)
            = some { s with free_list_head := none } := by
          rw [removeFreeBlock, ← hmidc]
          simp only [hfb, Option.bind_eq_bind, Option.some_bind, hfbp, ← hnc]
        obtain ⟨h1, h2, h3⟩ := removeFreeBlock_frame hrun
        refine ⟨_, hrun, ?_, h1, h2, h3⟩
        rw [herase]
        exact ⟨none, FreeSeg.nil none none⟩
    | cons n l2t =>
        -- remove at front: free_list_head := next
        obtain ⟨hnc, nb, hnb, hnbp, hnrest⟩ := hrest.cons_inv_free
        obtain ⟨hnl2t, hndl2t⟩ := List.nodup_cons.mp hndl2
        have hrun : removeFreeBlock s (some f)
            = some { s with
                mem := storeB s.mem n { nb with prevFree := none },
                free_list_head := some n } := by
          rw [removeFreeBlock, ← hmidc]
          simp only [hfb, Option.bind_eq_bind, Option.some_bind, hfbp, hnc,
            setPrevFree_eq none hnb]
        obtain ⟨h1, h2, h3⟩ := removeFreeBlock_frame hrun
        refine ⟨_, hrun, ?_, h1, h2, h3⟩
        rw [herase]
        refine ⟨endPrv, FreeSeg.cons n none { nb with prevFree := none } l2t
          none endPrv (lookupB_storeB_self _ _ _) rfl ?_⟩
        exact hnrest.congr_store_free hnl2t
  · -- f has a free-list predecessor p (the last element of l1)
    subst hmidp
    obtain ⟨hd, hhd⟩ := hseg1.ne_nil_head (by simp)
    cases l2 with
    | nil =>
        -- remove at tail: p->nextFree := NULL
        obtain ⟨hnc, hnp⟩ := hrest.nil_inv_free
        have hrun : removeFreeBlock s (some f)
            = some { s with
                mem := storeB s.mem p { pblk with nextFree := none } } := by
          rw [removeFreeBlock, hhd]
          simp only [hfb, Option.bind_eq_bind, Option.some_bind, hfbp, ← hnc,
            setNextFree_eq none hpl]
        obtain ⟨h1, h2, h3⟩ := removeFreeBlock_frame hrun
        refine ⟨_, hrun, ?_, h1, h2, h3⟩
        rw [herase, List.append_nil]
        exact ⟨some p, hseg1.set_last_next hndl1 hpl none⟩
    | cons n l2t =>
        -- remove from the middle: p->nextFree := n; n->prevFree := p
        obtain ⟨hnc, nb, hnb, hnbp, hnrest⟩ := hrest.cons_inv_free
        obtain ⟨hnl2t, hndl2t⟩ := List.nodup_cons.mp hndl2
        have hpmem : p ∈ l1t ++ [p] := by simp
        have hpn2 : p ∉ f :: n :: l2t := fun hmem => hdisj hpmem hmem
        have hpf : p ≠ f := fun he => hpn2 (by rw [he]; exact List.mem_cons_self _ _)
        have hpn : p ≠ n := fun he => hpn2 (by
          rw [he]; exact List.mem_cons_of_mem _ (List.mem_cons_self _ _))
        have hpl2t : p ∉ l2t := fun hmem => hpn2
          (List.mem_cons_of_mem _ (List.mem_cons_of_mem _ hmem))
        have hnmem : n ∉ l1t ++ [p] := fun hmem => hdisj hmem
          (List.mem_cons_of_mem _ (List.mem_cons_self _ _))
        have hlm1n : lookupB (storeB s.mem p { pblk with nextFree := some n }) n
            = some nb := by rw [lookupB_storeB_ne _ _ hpn]; exact hnb
        have hrun : removeFreeBlock s (some f)
            = some { s with
                mem := storeB (storeB s.mem p { pblk with nextFree := some n })
                  n { nb with prevFree := some p } } := by
          rw [removeFreeBlock, hhd]
          simp only [hfb, Option.bind_eq_bind, Option.some_bind, hfbp, hnc,
            setNextFree_eq (some n) hpl, setPrevFree_eq (some p) hlm1n]
        obtain ⟨h1, h2, h3⟩ := removeFreeBlock_frame hrun
        refine ⟨_, hrun, ?_, h1, h2, h3⟩
        rw [herase]
        refine ⟨endPrv, FreeSeg.append_free
          ((hseg1.set_last_next hndl1 hpl (some n)).congr_store_free hnmem) ?_⟩
        refine FreeSeg.cons n (some p) { nb with prevFree := some p } l2t
          none endPrv (lookupB_storeB_self _ _ _) rfl ?_
        exact (hnrest.congr_store_free hpl2t).congr_store_free hnl2t

/-- Inserting a block that is not yet a member of the realized free list
succeeds, pushes it on the head, and changes no block's size or chain
link. -/
theorem insertFreeBlock_spec (s : AllocState) (fl : List Nat) (f : Nat)
    (fb : Block)
    (hfl : FreeChain s.mem s.free_list_head none fl) (hnd : fl.Nodup)
    (hf : f ∉ fl) (hlook : lookupB s.mem f = some fb) :
    ∃ s', insertFreeBlock s (some f) = some s' ∧
      s'.free_list_head = some f ∧
      FreeChain s'.mem (some f) none (f :: fl) ∧
      s'.heap_size = s.heap_size ∧ s'.malloc_list_tail = s.malloc_list_tail ∧
      ∀ o, (lookupB s'.mem o).map psOf = (lookupB s.mem o).map psOf := by
  obtain ⟨endPrv, hseg⟩ := hfl
  cases hh : s.free_list_head with
  | none =>
      have hfl0 : fl = [] := by
        cases fl with
        | nil => rfl
        | cons x xs =>
            have hx := hseg.cons_inv_free.1
            rw [hh] at hx
            cases hx
      subst hfl0
      have hrun : insertFreeBlock s (some f)
          = some { s with
              mem := storeB (storeB s.mem f { fb with prevFree := none }) f
                { { fb with prevFree := none } with nextFree := none },
              free_list_head := some f } := by
        rw [insertFreeBlock]
        simp only [setPrevFree_eq none hlook, Option.bind_eq_bind,
          Option.some_bind, hh, setNextFree_eq none (lookupB_storeB_self _ _ _)]
      obtain ⟨h1, h2, h3, h4⟩ := insertFreeBlock_frame hrun
      refine ⟨_, hrun, h3, ?_, h1, h2, h4⟩
      exact ⟨some f, FreeSeg.cons f none _ [] none (some f)
        (lookupB_storeB_self _ _ _) rfl (FreeSeg.nil none (some f))⟩
  | some hd =>
      cases fl with
      | nil =>
          obtain ⟨hnc, _⟩ := hseg.nil_inv_free
          rw [hh] at hnc
          cases hnc
      | cons hd' fl' =>
          obtain ⟨hx, hb, hhb, hhbp, hhrest⟩ := hseg.cons_inv_free
          rw [hh] at hx
          obtain rfl : hd = hd' := by injection hx
          have hfhd : f ≠ hd := fun he => hf (by
            rw [he]; exact List.mem_cons_self _ _)
          have hffl : f ∉ fl' := fun hmem => hf (List.mem_cons_of_mem _ hmem)
          obtain ⟨hhdfl, hndfl⟩ := List.nodup_cons.mp hnd
          have hl2 : lookupB (storeB (storeB s.mem f { fb with prevFree := none })
              f { { fb with prevFree := none } with nextFree := some hd }) hd
              = some hb := by
            rw [lookupB_storeB_ne _ _ hfhd, lookupB_storeB_ne _ _ hfhd]
            exact hhb
          have hrun : insertFreeBlock s (some f)
              = some { s with
                  mem := storeB (storeB (storeB s.mem f
                      { fb with prevFree := none }) f
                      { { fb with prevFree := none } with nextFree := some hd })
                    hd { hb with prevFree := some f },
                  free_list_head := some f } := by
            rw [insertFreeBlock]
            simp only [setPrevFree_eq none hlook, Option.bind_eq_bind,
              Option.some_bind, hh,
              setNextFree_eq (some hd) (lookupB_storeB_self _ _ _),
              setPrevFree_eq (some f) hl2]
          obtain ⟨h1, h2, h3, h4⟩ := insertFreeBlock_frame hrun
          refine ⟨_, hrun, h3, ?_, h1, h2, h4⟩
          refine ⟨endPrv, FreeSeg.cons f none
            { { fb with prevFree := none } with nextFree := some hd }
            (hd :: fl') none endPrv ?_ rfl ?_⟩
          · rw [lookupB_storeB_ne _ _ (Ne.symm hfhd)]
            exact lookupB_storeB_self _ _ _
          · refine FreeSeg.cons hd (some f) { hb with prevFree := some f } fl'
              none endPrv (lookupB_storeB_self _ _ _) rfl ?_
            exact ((hhrest.congr_store_free hffl).congr_store_free
              hffl).congr_store_free hhdfl

/-! ## The abstract block chain

`ChainSeg m off prv l endOff endPrv` says: starting at header offset `off`,
whose block's `prev` back-link must be `prv`, blocks tile the arena
contiguously (each next offset is the current one plus the header size plus
the payload capacity, exactly as `next_block` computes it) through the
offsets of `l`, ending exactly at offset `endOff`, with `endPrv` the last
offset passed.  The full chain of a state runs from offset 0 with back-link
`none` to `heap_size` with `endPrv = malloc_list_tail`. -/

inductive ChainSeg (m : List (Nat × Block)) :
    Nat → Option Nat → List Nat → Nat → Option Nat → Prop
  | nil (off : Nat) (prv : Option Nat) : ChainSeg m off prv [] off prv
  | cons (off : Nat) (prv : Option Nat) (blk : Block) (l : List Nat)
      (endOff : Nat) (endPrv : Option Nat) :
      lookupB m off = some blk →
      blk.prev = prv →
      blk.size ≠ 0 →
      (ALIGNMENT : Nat) ∣ blk.size.natAbs →
      ChainSeg m (off + sizeofBlockInfo + blk.size.natAbs) (some off) l
        endOff endPrv →
      ChainSeg m off prv (off :: l) endOff endPrv

theorem ChainSeg.nil_inv {m : List (Nat × Block)} {off endOff : Nat}
    {prv endPrv : Option Nat} (h : ChainSeg m off prv [] endOff endPrv) :
    endOff = off ∧ endPrv = prv := by
  cases h; exact ⟨rfl, rfl⟩

theorem ChainSeg.cons_inv {m : List (Nat × Block)} {off endOff : Nat}
    {prv endPrv : Option Nat} {x : Nat} {l : List Nat}
    (h : ChainSeg m off prv (x :: l) endOff endPrv) :
    x = off ∧ ∃ blk, lookupB m off = some blk ∧ blk.prev = prv ∧
      blk.size ≠ 0 ∧ (ALIGNMENT : Nat) ∣ blk.size.natAbs ∧
      ChainSeg m (off + sizeofBlockInfo + blk.size.natAbs) (some off) l
        endOff endPrv := by
  cases h with
  | cons _ _ blk _ _ _ hl hp hnz hdvd hrest =>
      exact ⟨rfl, blk, hl, hp, hnz, hdvd, hrest⟩

theorem ChainSeg.append_inv {m : List (Nat × Block)} {off endOff : Nat}
    {prv endPrv : Option Nat} {l1 l2 : List Nat}
    (h : ChainSeg m off prv (l1 ++ l2) endOff endPrv) :
    ∃ mid midPrv, ChainSeg m off prv l1 mid midPrv ∧
      ChainSeg m mid midPrv l2 endOff endPrv := by
  induction l1 generalizing off prv with
  | nil => exact ⟨off, prv, ChainSeg.nil off prv, h⟩
  | cons x l1 ih =>
      obtain ⟨rfl, blk, hl, hp, hnz, hdvd, hrest⟩ := h.cons_inv
      obtain ⟨mid, midPrv, h1, h2⟩ := ih hrest
      exact ⟨mid, midPrv,
        ChainSeg.cons x prv blk l1 mid midPrv hl hp hnz hdvd h1, h2⟩

theorem ChainSeg.append {m : List (Nat × Block)} {off mid endOff : Nat}
    {prv midPrv endPrv : Option Nat} {l1 l2 : List Nat}
    (h1 : ChainSeg m off prv l1 mid midPrv)
    (h2 : ChainSeg m mid midPrv l2 endOff endPrv) :
    ChainSeg m off prv (l1 ++ l2) endOff endPrv := by
  induction h1 with
  | nil => exact h2
  | cons off prv blk l endOff' endPrv' hl hp hnz hdvd _ ih =>
      exact ChainSeg.cons off prv blk _ _ _ hl hp hnz hdvd (ih h2)

/-- A block of nonzero, ALIGNMENT-divisible capacity occupies at least 32
bytes. -/
theorem capacity_ge {blk : Block} (hnz : blk.size ≠ 0)
    (hdvd : (ALIGNMENT : Nat) ∣ blk.size.natAbs) :
    16 ≤ blk.size.natAbs := by
  have h16 : (ALIGNMENT : Nat) = 16 := rfl
  rw [h16] at hdvd
  rcases hdvd with ⟨c, hc⟩
  have : blk.size.natAbs ≠ 0 := by
    intro h
    exact hnz (Int.natAbs_eq_zero.mp h)
  omega

theorem ChainSeg.mono {m : List (Nat × Block)} {off endOff : Nat}
    {prv endPrv : Option Nat} {l : List Nat}
    (h : ChainSeg m off prv l endOff endPrv) :
    off ≤ endOff ∧ ∀ x ∈ l, off ≤ x ∧ x + 32 ≤ endOff := by
  induction h with
  | nil => exact ⟨le_rfl, by simp⟩
  | cons off prv blk l endOff endPrv hl hp hnz hdvd hrest ih =>
      have h16 := capacity_ge hnz hdvd
      have hKn : sizeofBlockInfo = 16 := rfl
      refine ⟨by omega, ?_⟩
      intro x hx
      rcases List.mem_cons.mp hx with rfl | hx'
      · have := ih.1
        constructor <;> omega
      · have := (ih.2 x hx')
        constructor <;> omega

theorem ChainSeg.align {m : List (Nat × Block)} {off endOff : Nat}
    {prv endPrv : Option Nat} {l : List Nat}
    (h : ChainSeg m off prv l endOff endPrv)
    (ha : (ALIGNMENT : Nat) ∣ off) :
    (∀ x ∈ l, (ALIGNMENT : Nat) ∣ x) ∧ (ALIGNMENT : Nat) ∣ endOff := by
  induction h with
  | nil => exact ⟨by simp, ha⟩
  | cons off prv blk l endOff endPrv hl hp hnz hdvd hrest ih =>
      have hnext : (ALIGNMENT : Nat) ∣ off + sizeofBlockInfo + blk.size.natAbs := by
        have h1 : (ALIGNMENT : Nat) ∣ sizeofBlockInfo := ⟨1, rfl⟩
        exact Nat.dvd_add (Nat.dvd_add ha h1) hdvd
      obtain ⟨ih1, ih2⟩ := ih hnext
      refine ⟨?_, ih2⟩
      intro x hx
      rcases List.mem_cons.mp hx with rfl | hx'
      · exact ha
      · exact ih1 x hx'

theorem ChainSeg.mem_lookup {m : List (Nat × Block)} {off endOff : Nat}
    {prv endPrv : Option Nat} {l : List Nat}
    (h : ChainSeg m off prv l endOff endPrv) {x : Nat} (hx : x ∈ l) :
    ∃ blk, lookupB m x = some blk ∧ blk.size ≠ 0 ∧
      (ALIGNMENT : Nat) ∣ blk.size.natAbs := by
  induction h with
  | nil => cases hx
  | cons off prv blk l endOff endPrv hl hp hnz hdvd hrest ih =>
      rcases List.mem_cons.mp hx with rfl | hx'
      · exact ⟨blk, hl, hnz, hdvd⟩
      · exact ih hx'

theorem ChainSeg.congr {m m' : List (Nat × Block)} {off endOff : Nat}
    {prv endPrv : Option Nat} {l : List Nat}
    (h : ChainSeg m off prv l endOff endPrv)
    (hps : ∀ o ∈ l, (lookupB m' o).map psOf = (lookupB m o).map psOf) :
    ChainSeg m' off prv l endOff endPrv := by
  induction h with
  | nil => exact ChainSeg.nil _ _
  | cons off prv blk l endOff endPrv hl hp hnz hdvd hrest ih =>
      obtain ⟨blk', hl', hs', hp'⟩ :=
        lookup_ps_of_frame (hps off (List.mem_cons_self off l)) hl
      refine ChainSeg.cons off prv blk' l endOff endPrv hl'
        (hp'.trans hp) (by rw [hs']; exact hnz) (by rw [hs']; exact hdvd) ?_
      have hrec := ih fun o ho => hps o (List.mem_cons_of_mem _ ho)
      rw [hs']
      exact hrec

theorem ChainSeg.congr_store {m : List (Nat × Block)} {off endOff : Nat}
    {prv endPrv : Option Nat} {l : List Nat} {o : Nat} {b : Block}
    (h : ChainSeg m off prv l endOff endPrv) (ho : o ∉ l) :
    ChainSeg (storeB m o b) off prv l endOff endPrv :=
  h.congr fun x hx => by
    have hne : o ≠ x := fun he => ho (by rw [he]; exact hx)
    rw [lookupB_storeB_ne m b hne]

theorem ChainSeg.last_shape {m : List (Nat × Block)} {off endOff : Nat}
    {prv endPrv : Option Nat} {l : List Nat}
    (h : ChainSeg m off prv l endOff endPrv) :
    (l = [] ∧ endOff = off ∧ endPrv = prv) ∨
      ∃ l' y, l = l' ++ [y] ∧ endPrv = some y := by
  induction h with
  | nil => exact Or.inl ⟨rfl, rfl, rfl⟩
  | cons off prv blk l endOff endPrv hl hp hnz hdvd hrest ih =>
      rcases ih with ⟨rfl, hc, hps⟩ | ⟨l', y, rfl, hps⟩
      · exact Or.inr ⟨[], off, rfl, hps⟩
      · exact Or.inr ⟨off :: l', y, rfl, hps⟩

theorem ChainSeg.pairwise_lt {m : List (Nat × Block)} {off endOff : Nat}
    {prv endPrv : Option Nat} {l : List Nat}
    (h : ChainSeg m off prv l endOff endPrv) :
    l.Pairwise (· < ·) := by
  induction h with
  | nil => exact List.Pairwise.nil
  | cons off prv blk l endOff endPrv hl hp hnz hdvd hrest ih =>
      refine List.Pairwise.cons ?_ ih
      intro x hx
      have h16 := capacity_ge hnz hdvd
      have := (hrest.mono).2 x hx
      omega

/-- A block of the arena is currently marked free (negative stored size). -/
def freeAt (m : List (Nat × Block)) (o : Nat) : Prop :=
  ∃ blk, lookupB m o = some blk ∧ blk.size < 0

/-- The global well-formedness invariant tying a state to its abstract block
chain and free list: the chain tiles the arena from 0 to `heap_size` and
ends at `malloc_list_tail`; the free list is realized from
`free_list_head`, has no duplicates, and is a set of chain blocks; a chain
block is in the free list iff its stored size is negative (I2); and no two
address-adjacent chain blocks are both free (I3). -/
structure WF (s : AllocState) (chain fl : List Nat) : Prop where
  chainOk : ChainSeg s.mem 0 none chain s.heap_size s.malloc_list_tail
  flOk : FreeChain s.mem s.free_list_head none fl
  flNodup : fl.Nodup
  flSub : ∀ x ∈ fl, x ∈ chain
  signIff : ∀ o ∈ chain, ∀ blk, lookupB s.mem o = some blk →
    (o ∈ fl ↔ blk.size < 0)
  noAdj : chain.Chain' (fun a b => ¬ (freeAt s.mem a ∧ freeAt s.mem b))

/-- The scan loop only ever returns members of the realized free list. -/
theorem searchLoop_mem {m : List (Nat × Block)} {cs : Int} :
    ∀ (fuel : Nat) (cur prv endPrv : Option Nat) (fl : List Nat) (b : Nat),
      FreeSeg m cur prv fl none endPrv →
      searchLoop m cs fuel cur = some (some b) →
      b ∈ fl := by
  intro fuel
  induction fuel with
  | zero =>
      intro cur prv ep fl b hseg h
      cases cur with
      | none =>
          rw [show searchLoop m cs 0 none = some none from rfl] at h
          simp at h
      | some p =>
          rw [show searchLoop m cs 0 (some p) = none from rfl] at h
          cases h
  | succ n ih =>
      intro cur prv ep fl b hseg h
      cases cur with
      | none =>
          rw [show searchLoop m cs (n + 1) none = some none from rfl] at h
          simp at h
      | some p =>
          cases fl with
          | nil =>
              obtain ⟨hc, _⟩ := hseg.nil_inv_free
              cases hc
          | cons x l =>
              obtain ⟨hx, blk, hl, hbp, hrest⟩ := hseg.cons_inv_free
              obtain rfl : p = x := by injection hx
              rw [searchLoop] at h
              split at h
              · cases h
              · rename_i blk2 hl2
                rw [hl] at hl2
                obtain rfl : blk = blk2 := by injection hl2
                split at h
                · simp only [Option.some.injEq] at h
                  subst h
                  exact List.mem_cons_self p l
                · exact List.mem_cons_of_mem _ (ih _ _ _ _ _ hrest h)

/-- On a well-formed state, a successful fit search returns a chain block
whose stored size is at most `-reqSize`. -/
theorem searchFreeList_found {s : AllocState} {chain fl : List Nat}
    {req b : Nat} (hwf : WF s chain fl)
    (hs : searchFreeList s req = some (some b)) :
    b ∈ chain ∧ ∃ blk, lookupB s.mem b = some blk ∧
      blk.size ≤ -(req : Int) := by
  rw [searchFreeList] at hs
  split at hs
  · rename_i t hmt
    split at hs
    · cases hs
    · rename_i tb htb
      split at hs
      · rename_i hle
        obtain rfl : t = b := by
          injection hs with h1
          injection h1
        refine ⟨?_, tb, htb, hle⟩
        rcases hwf.chainOk.last_shape with ⟨_, _, hps⟩ | ⟨l', y, rfl, hps⟩
        · rw [hmt] at hps; cases hps
        · rw [hmt] at hps
          obtain rfl : t = y := by injection hps
          simp
      · obtain ⟨ep, hseg⟩ := hwf.flOk
        have hmem := searchLoop_mem _ _ _ _ _ _ hseg hs
        rcases searchLoop_sound _ _ _ _ _ hs with h1 | ⟨b', blk, hb', hbl, hble⟩
        · cases h1
        · obtain rfl : b = b' := by injection hb'
          exact ⟨hwf.flSub _ hmem, blk, hbl, hble⟩
  · obtain ⟨ep, hseg⟩ := hwf.flOk
    have hmem := searchLoop_mem _ _ _ _ _ _ hseg hs
    rcases searchLoop_sound _ _ _ _ _ hs with h1 | ⟨b', blk, hb', hbl, hble⟩
    · cases h1
    · obtain rfl : b = b' := by injection hb'
      exact ⟨hwf.flSub _ hmem, blk, hbl, hble⟩

theorem ChainSeg.length_le {m : List (Nat × Block)} {off endOff : Nat}
    {prv endPrv : Option Nat} {l : List Nat}
    (h : ChainSeg m off prv l endOff endPrv) :
    off + l.length ≤ endOff := by
  induction h with
  | nil => simp
  | cons off prv blk l endOff endPrv hl hp hnz hdvd hrest ih =>
      have h16 := capacity_ge hnz hdvd
      have hKn : sizeofBlockInfo = 16 := rfl
      simp only [List.length_cons]
      omega

/-- The fueled chain walk recovers the abstract chain whenever the fuel
covers its length. -/
theorem chainWalk_eq {m : List (Nat × Block)} {hs : Nat} :
    ∀ (l : List Nat) (off : Nat) (prv endPrv : Option Nat) (fuel : Nat),
      ChainSeg m off prv l hs endPrv →
      l.length ≤ fuel →
      chainWalk m hs fuel off = l := by
  intro l
  induction l with
  | nil =>
      intro off prv ep fuel hseg _
      obtain ⟨rfl, _⟩ := hseg.nil_inv
      cases fuel with
      | zero => rfl
      | succ k => simp [chainWalk]
  | cons x l ih =>
      intro off prv ep fuel hseg hlen
      obtain ⟨rfl, blk, hl, hp, hnz, hdvd, hrest⟩ := hseg.cons_inv
      cases fuel with
      | zero => simp at hlen
      | succ k =>
          have hlt := (hseg.mono.2 x (List.mem_cons_self x l)).2
          have hlen' : l.length ≤ k := by
            simp only [List.length_cons] at hlen
            omega
          rw [chainWalk, if_neg (by omega : ¬ hs ≤ x), hl]
          show x :: chainWalk m hs k (x + sizeofBlockInfo + blk.size.natAbs)
            = x :: l
          rw [ih _ _ _ k hrest hlen']

/-- On a well-formed state the executable `chainOf` computes the abstract
chain. -/
theorem chainOf_eq {s : AllocState} {chain fl : List Nat} (hwf : WF s chain fl) :
    chainOf s = chain := by
  have hlen := hwf.chainOk.length_le
  exact chainWalk_eq chain 0 none s.malloc_list_tail s.heap_size
    hwf.chainOk (by omega)

/-- C6: when coalescing absorbs a free address-adjacent neighbor, the stored
sizes of the two blocks are combined and one header size is subtracted, in
the signed free-state encoding (mm.c:219 and mm.c:229): absorbing the freed
block into a free predecessor `p` gives `p` the stored size
`p.size + b.size - sizeof(BlockInfo)`, and absorbing a free successor `nb`
into the merged block `cur` gives it `cur.size + nb.size -
sizeof(BlockInfo)` — which is the combined capacity plus the one header that
disappears, negated. -/
theorem coalesce_absorb_combines_sizes :
    (∀ (s : AllocState) (b p : Nat) (bb pb : Block) (nbR : Option Nat)
        (s1 : AllocState) (c : Nat),
        lookupB s.mem b = some bb → lookupB s.mem p = some pb → pb.size < 0 →
        coalescePrevPhase s b (some p) nbR = some (s1, c) →
        c = p ∧ ∃ blk, lookupB s1.mem p = some blk ∧
          blk.size = pb.size + bb.size - sizeofBlockInfo) ∧
    (∀ (s : AllocState) (cur nb : Nat) (curB nbB : Block) (s2 : AllocState),
        lookupB s.mem cur = some curB → lookupB s.mem nb = some nbB →
        nbB.size < 0 →
        coalesceNextPhase s cur (some nb) = some s2 →
        ∃ blk, lookupB s2.mem cur = some blk ∧
          blk.size = curB.size + nbB.size - sizeofBlockInfo) := by
  constructor
  · intro s b p bb pb nbR s1 c hb hp hneg h
    rw [coalescePrevPhase] at h
    simp only [Option.bind_eq_bind] at h
    rw [hp, Option.some_bind] at h
    rw [if_pos hneg] at h
    obtain ⟨sA, hrm, h⟩ := Option.bind_eq_some.mp h
    obtain ⟨hhs, htl, hps⟩ := removeFreeBlock_frame hrm
    obtain ⟨pb1, hpb1, hpb1s, _⟩ := lookup_ps_of_frame (hps p) hp
    obtain ⟨bb1, hbb1, hbb1s, _⟩ := lookup_ps_of_frame (hps b) hb
    rw [hpb1, Option.some_bind] at h
    rw [hbb1, Option.some_bind] at h
    obtain ⟨mA, hset, h⟩ := Option.bind_eq_some.mp h
    obtain ⟨pbx, hpbx, hmAeq⟩ := setSize_some hset
    rw [hpb1] at hpbx
    simp only [Option.some.injEq] at hpbx
    subst hpbx
    subst hmAeq
    split at h
    · -- nextBlockR = some nb: the successor's prev is repointed afterwards
      obtain ⟨mB, hsp, h⟩ := Option.bind_eq_some.mp h
      simp only [Option.some.injEq, Prod.mk.injEq] at h
      obtain ⟨h1, h2⟩ := h
      subst h1
      subst h2
      obtain ⟨blk, hblk, hblks⟩ :=
        lookup_size_of_frame (setPrev_size hsp p) (lookupB_storeB_self _ _ _)
      refine ⟨rfl, blk, hblk, ?_⟩
      rw [hblks]
      show pb1.size + bb1.size - (sizeofBlockInfo : Int) = _
      rw [hpb1s, hbb1s]
    · simp only [Option.some.injEq, Prod.mk.injEq] at h
      obtain ⟨h1, h2⟩ := h
      subst h1
      subst h2
      refine ⟨rfl, _, lookupB_storeB_self _ _ _, ?_⟩
      show pb1.size + bb1.size - (sizeofBlockInfo : Int) = _
      rw [hpb1s, hbb1s]
  · intro s cur nb curB nbB s2 hcur hnb hneg h
    rw [coalesceNextPhase] at h
    simp only [Option.bind_eq_bind] at h
    rw [hnb, Option.some_bind] at h
    rw [if_pos hneg] at h
    obtain ⟨sA, hrm, h⟩ := Option.bind_eq_some.mp h
    obtain ⟨hhs, htl, hps⟩ := removeFreeBlock_frame hrm
    obtain ⟨curB1, hcur1, hcur1s, _⟩ := lookup_ps_of_frame (hps cur) hcur
    obtain ⟨nbB1, hnb1, hnb1s, _⟩ := lookup_ps_of_frame (hps nb) hnb
    rw [hcur1, Option.some_bind] at h
    rw [hnb1, Option.some_bind] at h
    obtain ⟨mA, hset, h⟩ := Option.bind_eq_some.mp h
    obtain ⟨curx, hcurx, hmAeq⟩ := setSize_some hset
    rw [hcur1] at hcurx
    simp only [Option.some.injEq] at hcurx
    subst hcurx
    subst hmAeq
    obtain ⟨nnR, hnn, h⟩ := Option.bind_eq_some.mp h
    split at h
    · obtain ⟨mB, hsp, h⟩ := Option.bind_eq_some.mp h
      simp only [Option.some.injEq] at h
      subst h
      obtain ⟨blk, hblk, hblks⟩ :=
        lookup_size_of_frame (setPrev_size hsp cur) (lookupB_storeB_self _ _ _)
      refine ⟨blk, hblk, ?_⟩
      rw [hblks]
      show curB1.size + nbB1.size - (sizeofBlockInfo : Int) = _
      rw [hcur1s, hnb1s]
    · simp only [Option.some.injEq] at h
      subst h
      refine ⟨_, lookupB_storeB_self _ _ _, ?_⟩
      show curB1.size + nbB1.size - (sizeofBlockInfo : Int) = _
      rw [hcur1s, hnb1s]

/-- C6 witness: two free 64-byte neighbors at offsets 0 and 80 of a 160-byte
heap; absorbing one into the other (in either phase) stores size
`-64 + -64 - 16 = -144`. -/
theorem coalesce_absorb_combines_sizes_witness :
    (0 = 0 ∧ ∃ blk : Block,
      lookupB [(0, ⟨-144, none, none, none⟩), (0, ⟨-64, none, none, none⟩),
        (80, ⟨-64, some 0, none, none⟩)] 0 = some blk ∧
      blk.size = -64 + -64 - sizeofBlockInfo) ∧
    (∃ blk : Block,
      lookupB [(0, ⟨-144, none, none, none⟩), (0, ⟨-64, none, none, none⟩),
        (80, ⟨-64, some 0, none, none⟩)] 0 = some blk ∧
      blk.size = -64 + -64 - sizeofBlockInfo) :=
  ⟨coalesce_absorb_combines_sizes.1
      ⟨[(0, ⟨-64, none, none, none⟩), (80, ⟨-64, some 0, none, none⟩)],
        some 0, some 80, 160⟩
      80 0 ⟨-64, some 0, none, none⟩ ⟨-64, none, none, none⟩ none
      ⟨[(0, ⟨-144, none, none, none⟩), (0, ⟨-64, none, none, none⟩),
        (80, ⟨-64, some 0, none, none⟩)], none, some 0, 160⟩ 0
      rfl rfl (by decide) (by decide),
    coalesce_absorb_combines_sizes.2
      ⟨[(0, ⟨-64, none, none, none⟩), (80, ⟨-64, some 0, none, none⟩)],
        some 80, some 80, 160⟩
      0 80 ⟨-64, none, none, none⟩ ⟨-64, some 0, none, none⟩
      ⟨[(0, ⟨-144, none, none, none⟩), (0, ⟨-64, none, none, none⟩),
        (80, ⟨-64, some 0, none, none⟩)], none, some 0, 160⟩
      rfl rfl (by decide) (by decide)⟩

/-- The rounding of mm.c:165 rounds a positive request up to a positive
multiple of `ALIGNMENT` that dominates the request. -/
theorem roundUpALIGN_spec {n : Nat} (h : 0 < n) :
    16 ≤ roundUpALIGN n ∧ (ALIGNMENT : Nat) ∣ roundUpALIGN n ∧
      n ≤ roundUpALIGN n := by
  have h1 : roundUpALIGN n = 16 * ((n + 16 - 1) / 16) := rfl
  refine ⟨by omega, ?_, by omega⟩
  rw [h1]
  exact Dvd.intro _ rfl

/-- A segment of the block chain survives any memory change that preserves
the chain link and the capacity (absolute size) of its members. -/
theorem ChainSeg.congr_abs {m m' : List (Nat × Block)} {off endOff : Nat}
    {prv endPrv : Option Nat} {l : List Nat}
    (h : ChainSeg m off prv l endOff endPrv)
    (hps : ∀ o ∈ l, ∃ blk blk', lookupB m o = some blk ∧
      lookupB m' o = some blk' ∧ blk'.prev = blk.prev ∧
      blk'.size.natAbs = blk.size.natAbs) :
    ChainSeg m' off prv l endOff endPrv := by
  induction h with
  | nil => exact ChainSeg.nil _ _
  | cons off prv blk l endOff endPrv hl hp hnz hdvd hrest ih =>
      obtain ⟨blk0, blk', hl0, hl', hp', habs⟩ :=
        hps off (List.mem_cons_self off l)
      rw [hl] at hl0
      obtain rfl : blk = blk0 := by injection hl0
      refine ChainSeg.cons off prv blk' l endOff endPrv hl'
        (hp'.trans hp) ?_ (by rw [habs]; exact hdvd) ?_
      · intro h0
        exact hnz (Int.natAbs_eq_zero.mp (by rw [← habs, h0]; rfl))
      · rw [habs]
        exact ih fun o ho => hps o (List.mem_cons_of_mem _ ho)

/-- Freeness only depends on the stored size. -/
theorem freeAt_iff_of_ps {m m' : List (Nat × Block)} {o : Nat}
    (hmap : (lookupB m' o).map psOf = (lookupB m o).map psOf) :
    freeAt m' o ↔ freeAt m o := by
  constructor
  · rintro ⟨blk, hl, hneg⟩
    cases h2 : lookupB m o with
    | none => rw [hl, h2] at hmap; cases hmap
    | some blk2 =>
        rw [hl, h2] at hmap
        simp only [Option.map_some', Option.some.injEq, psOf,
          Prod.mk.injEq] at hmap
        refine ⟨blk2, h2, ?_⟩
        rw [← hmap.1]
        exact hneg
  · rintro ⟨blk, hl, hneg⟩
    cases h2 : lookupB m' o with
    | none => rw [hl, h2] at hmap; cases hmap
    | some blk2 =>
        rw [hl, h2] at hmap
        simp only [Option.map_some', Option.some.injEq, psOf,
          Prod.mk.injEq] at hmap
        refine ⟨blk2, h2, ?_⟩
        rw [hmap.1]
        exact hneg

/-- A store that replaces a record by one with the same free links preserves
every free-link lookup. -/
theorem fn_store_preserved {m : List (Nat × Block)} {o : Nat} {b b' : Block}
    (hb : lookupB m o = some b) (hfn : fnOf b' = fnOf b) (x : Nat) :
    (lookupB (storeB m o b') x).map fnOf = (lookupB m x).map fnOf := by
  rw [lookupB_storeB]
  by_cases he : o = x
  · subst he; rw [hb]; simp [hfn]
  · simp [he]

/-- Complete characterization of the split branch of `mm_malloc`
(mm.c:181-197), including the frame facts (untouched heap size; everything
outside the found block, the fragment, and the chain successor keeps its
size and chain link). -/
theorem mm_malloc_split_run
    (s s' : AllocState) (n b : Nat) (bb : Block) (fl : List Nat)
    (r : Option Nat)
    (h0 : 0 < n)
    (hsearch : searchFreeList s (roundUpALIGN n) = some (some b))
    (hbb : lookupB s.mem b = some bb)
    (hover : (roundUpALIGN n : Int) + (sizeofBlockInfo : Int) < -bb.size)
    (hfl : FreeChain s.mem s.free_list_head none fl)
    (hnd : fl.Nodup) (hbfl : b ∈ fl)
    (hsbfl : b + roundUpALIGN n + sizeofBlockInfo ∉ fl)
    (hrun : mm_malloc s n = some (s', r)) :
    r = some (b + sizeofBlockInfo) ∧
    (∃ blk, lookupB s'.mem b = some blk ∧
       blk.size = (roundUpALIGN n : Int)) ∧
    (∃ blk, lookupB s'.mem (b + roundUpALIGN n + sizeofBlockInfo) = some blk ∧
       blk.size = bb.size + (roundUpALIGN n : Int) + (sizeofBlockInfo : Int) ∧
       blk.prev = some b) ∧
    s'.free_list_head = some (b + roundUpALIGN n + sizeofBlockInfo) ∧
    FreeChain s'.mem s'.free_list_head none
      ((b + roundUpALIGN n + sizeofBlockInfo) :: fl.erase b) ∧
    (∀ nb, next_block s b = some (some nb) →
       ∃ blk, lookupB s'.mem nb = some blk ∧
         blk.prev = some (b + roundUpALIGN n + sizeofBlockInfo)) ∧
    (next_block s b = some none →
       s'.malloc_list_tail = some (b + roundUpALIGN n + sizeofBlockInfo)) ∧
    s'.heap_size = s.heap_size ∧
    (∀ nb, next_block s b = some (some nb) →
       s'.malloc_list_tail = s.malloc_list_tail) ∧
    (∀ o, o ≠ b → o ≠ b + roundUpALIGN n + sizeofBlockInfo →
       (∀ nb, next_block s b = some (some nb) → o ≠ nb) →
       (lookupB s'.mem o).map psOf = (lookupB s.mem o).map psOf) ∧
    (∃ blk, lookupB s'.mem b = some blk ∧
       blk.size = (roundUpALIGN n : Int) ∧ blk.prev = bb.prev) ∧
    (∀ nb nbblk, next_block s b = some (some nb) →
       lookupB s.mem nb = some nbblk →
       ∃ blk, lookupB s'.mem nb = some blk ∧ blk.size = nbblk.size ∧
         blk.prev = some (b + roundUpALIGN n + sizeofBlockInfo)) := by
  have hK : (sizeofBlockInfo : Int) = 16 := rfl
  have hKn : sizeofBlockInfo = 16 := rfl
  have hsb_ne_b : b + roundUpALIGN n + sizeofBlockInfo ≠ b := by omega
  have hnegbb : bb.size < 0 := by omega
  have habs : roundUpALIGN n + 16 < bb.size.natAbs := by omega
  -- nodup facts about the erased free list
  have hndE : (fl.erase b).Nodup := hnd.erase b
  have hbE : b ∉ fl.erase b := fun hmem =>
    ((List.Nodup.mem_erase_iff hnd).mp hmem).1 rfl
  have hsbE : b + roundUpALIGN n + sizeofBlockInfo ∉ fl.erase b := fun hmem =>
    hsbfl ((List.Nodup.mem_erase_iff hnd).mp hmem).2
  -- unfold the run of mm_malloc down to the split branch
  rw [mm_malloc] at hrun
  rw [if_neg (Nat.pos_iff_ne_zero.mp h0)] at hrun
  simp only [Option.bind_eq_bind, hsearch, Option.some_bind] at hrun
  rw [hbb, Option.some_bind] at hrun
  rw [if_pos hover] at hrun
  obtain ⟨nbR, hnbR, hrun1⟩ := Option.bind_eq_some.mp hrun
  clear hrun
  obtain ⟨s1x, hrmx, hrun2⟩ := Option.bind_eq_some.mp hrun1
  clear hrun1
  obtain ⟨s1, hrm, hflE, hhs1, htl1, hps1⟩ :=
    removeFreeBlock_spec s fl b hfl hnd hbfl
  rw [hrm] at hrmx
  obtain rfl : s1 = s1x := by injection hrmx
  obtain ⟨bb1, hbb1, hbb1s, hbb1p⟩ := lookup_ps_of_frame (hps1 b) hbb
  obtain ⟨bbx, hbbx, hrun3⟩ := Option.bind_eq_some.mp hrun2
  clear hrun2
  rw [hbb1] at hbbx
  obtain rfl : bb1 = bbx := by injection hbbx
  obtain ⟨m3, hm3, hrun4⟩ := Option.bind_eq_some.mp hrun3
  clear hrun3
  obtain ⟨bby, hbby, hm3eq⟩ := setSize_some hm3
  rw [lookupB_storeB_ne _ _ hsb_ne_b, hbb1] at hbby
  obtain rfl : bb1 = bby := by injection hbby
  obtain ⟨m4, hm4, hrun5⟩ := Option.bind_eq_some.mp hrun4
  clear hrun4
  obtain ⟨fragx, hfragx, hm4eq⟩ := setPrev_some hm4
  rw [hm3eq, lookupB_storeB_ne _ _ (Ne.symm hsb_ne_b),
    lookupB_storeB_self] at hfragx
  have hfrag_eq : fragx
      = { size := bb1.size + (roundUpALIGN n : Int) + (sizeofBlockInfo : Int),
          prev := none, nextFree := none, prevFree := none } := by
    injection hfragx with h
    exact h.symm
  -- lookups below the fragment and the block survive all later stores
  have hm4_b : lookupB m4 b = some { bb1 with size := (roundUpALIGN n : Int) } := by
    rw [hm4eq, lookupB_storeB_ne _ _ hsb_ne_b, hm3eq]
    exact lookupB_storeB_self _ _ _
  have hm4_sb : lookupB m4 (b + roundUpALIGN n + sizeofBlockInfo)
      = some { fragx with prev := some b } := by
    rw [hm4eq]
    exact lookupB_storeB_self _ _ _
  have hflM4 : FreeChain m4 s1.free_list_head none (fl.erase b) := by
    obtain ⟨ep, hsegE⟩ := hflE
    refine ⟨ep, hsegE.congr_free fun o ho => ?_⟩
    have ho_b : b ≠ o := fun he => hbE (he ▸ ho)
    have ho_sb : b + roundUpALIGN n + sizeofBlockInfo ≠ o := fun he =>
      hsbE (he ▸ ho)
    rw [hm4eq, lookupB_storeB_ne _ _ ho_sb, hm3eq, lookupB_storeB_ne _ _ ho_b,
      lookupB_storeB_ne _ _ ho_sb]
  -- size of the fragment record, for the final conclusions
  have hfrag_size : ({ fragx with prev := some b } : Block).size
      = bb.size + (roundUpALIGN n : Int) + (sizeofBlockInfo : Int) := by
    show fragx.size = _
    rw [hfrag_eq]
    show bb1.size + _ + _ = _
    rw [hbb1s]
  split at hrun5
  · -- the found block has a chain successor nb: nb->info.prev := splitBlock
    rename_i nb
    have hnbR' := hnbR
    simp only [next_block, hbb, Option.map_some', Option.some.injEq] at hnbR'
    have hnbX : nb = b + sizeofBlockInfo + bb.size.natAbs := by
      by_cases hcl : s.heap_size ≤ b + sizeofBlockInfo + bb.size.natAbs
      · rw [if_pos hcl] at hnbR'; cases hnbR'
      · rw [if_neg hcl] at hnbR'
        injection hnbR' with h
        exact h.symm
    have hnb_ne_sb : nb ≠ b + roundUpALIGN n + sizeofBlockInfo := by omega
    have hnb_ne_b : nb ≠ b := by omega
    obtain ⟨m5, hm5, hrun6⟩ := Option.bind_eq_some.mp hrun5
    clear hrun5
    obtain ⟨nb1, hnb1, hm5eq⟩ := setPrev_some hm5
    obtain ⟨s3, hins, hrun7⟩ := Option.bind_eq_some.mp hrun6
    clear hrun6
    simp only [Option.some.injEq, Prod.mk.injEq] at hrun7
    obtain ⟨hs3, hr⟩ := hrun7
    subst hs3
    subst hr
    -- the free list of the intermediate state is still fl.erase b
    have hflM : FreeChain m5 s1.free_list_head none (fl.erase b) := by
      obtain ⟨ep, hsegE⟩ := hflM4
      refine ⟨ep, hsegE.congr_free fun o ho => ?_⟩
      rw [hm5eq]
      exact fn_store_preserved hnb1 (show fnOf { nb1 with
        prev := some (b + roundUpALIGN n + sizeofBlockInfo) } = fnOf nb1
        from rfl) o
    have hm5_sb : lookupB m5 (b + roundUpALIGN n + sizeofBlockInfo)
        = some { fragx with prev := some b } := by
      rw [hm5eq, lookupB_storeB_ne _ _ hnb_ne_sb]
      exact hm4_sb
    have hm5_b : lookupB m5 b
        = some { bb1 with size := (roundUpALIGN n : Int) } := by
      rw [hm5eq, lookupB_storeB_ne _ _ hnb_ne_b]
      exact hm4_b
    have hm5_nb : lookupB m5 nb
        = some { nb1 with prev := some (b + roundUpALIGN n + sizeofBlockInfo) } := by
      rw [hm5eq]
      exact lookupB_storeB_self _ _ _
    obtain ⟨s3', hins', hhead3, hflN, hhs3, htl3, hps3⟩ :=
      insertFreeBlock_spec
        ⟨m5, s1.free_list_head, s1.malloc_list_tail, s1.heap_size⟩
        (fl.erase b) (b + roundUpALIGN n + sizeofBlockInfo)
        { fragx with prev := some b } hflM hndE hsbE hm5_sb
    rw [hins] at hins'
    obtain rfl : s3 = s3' := by injection hins'
    have hs1nb : lookupB s1.mem nb = some nb1 := by
      have hnb1c := hnb1
      rw [hm4eq, lookupB_storeB_ne _ _ (Ne.symm hnb_ne_sb), hm3eq,
        lookupB_storeB_ne _ _ (Ne.symm hnb_ne_b),
        lookupB_storeB_ne _ _ (Ne.symm hnb_ne_sb)] at hnb1c
      exact hnb1c
    refine ⟨rfl, ?_, ?_, hhead3, ?_, ?_, ?_, ?_, ?_, ?_, ?_, ?_⟩
    · obtain ⟨blk, hblk, hblks, _⟩ := lookup_ps_of_frame (hps3 b) hm5_b
      exact ⟨blk, hblk, hblks⟩
    · obtain ⟨blk, hblk, hblks, hblkp⟩ := lookup_ps_of_frame (hps3 _) hm5_sb
      exact ⟨blk, hblk, hblks.trans hfrag_size, hblkp⟩
    · rw [hhead3]
      exact hflN
    · intro nb' hnb2
      rw [hnbR] at hnb2
      obtain rfl : nb = nb' := by
        injection hnb2 with h2
        injection h2
      obtain ⟨blk, hblk, _, hblkp⟩ := lookup_ps_of_frame (hps3 nb) hm5_nb
      exact ⟨blk, hblk, hblkp⟩
    · intro hnone
      rw [hnbR] at hnone
      injection hnone with h2
      cases h2
    · exact hhs3.trans hhs1
    · intro _ _
      exact htl3.trans htl1
    · intro o hob hosb honb
      have hnbo : nb ≠ o := Ne.symm (honb nb hnbR)
      refine ((hps3 o).trans ?_).trans (hps1 o)
      rw [hm5eq, lookupB_storeB_ne _ _ hnbo, hm4eq,
        lookupB_storeB_ne _ _ (Ne.symm hosb), hm3eq,
        lookupB_storeB_ne _ _ (Ne.symm hob),
        lookupB_storeB_ne _ _ (Ne.symm hosb)]
    · obtain ⟨blk, hblk, hblks, hblkp⟩ := lookup_ps_of_frame (hps3 b) hm5_b
      exact ⟨blk, hblk, hblks, hblkp.trans hbb1p⟩
    · intro nb' nbblk hnb2 hnbblk
      rw [hnbR] at hnb2
      obtain rfl : nb = nb' := by
        injection hnb2 with h2
        injection h2
      obtain ⟨nbx, hnbx, hnbxs, _⟩ := lookup_ps_of_frame (hps1 nb) hnbblk
      rw [hs1nb] at hnbx
      obtain rfl : nb1 = nbx := by injection hnbx
      obtain ⟨blk, hblk, hblks, hblkp⟩ := lookup_ps_of_frame (hps3 nb) hm5_nb
      exact ⟨blk, hblk, hblks.trans hnbxs, hblkp⟩
  · -- the found block was the chain tail: malloc_list_tail := splitBlock
    obtain ⟨s3, hins, hrun8⟩ := Option.bind_eq_some.mp hrun5
    clear hrun5
    simp only [Option.some.injEq, Prod.mk.injEq] at hrun8
    obtain ⟨hs3, hr⟩ := hrun8
    subst hs3
    subst hr
    obtain ⟨s3', hins', hhead3, hflN, hhs3, htl3, hps3⟩ :=
      insertFreeBlock_spec
        ⟨m4, s1.free_list_head,
          some (b + roundUpALIGN n + sizeofBlockInfo), s1.heap_size⟩
        (fl.erase b) (b + roundUpALIGN n + sizeofBlockInfo)
        { fragx with prev := some b } hflM4 hndE hsbE hm4_sb
    rw [hins] at hins'
    obtain rfl : s3 = s3' := by injection hins'
    refine ⟨rfl, ?_, ?_, hhead3, ?_, ?_, ?_, ?_, ?_, ?_, ?_, ?_⟩
    · obtain ⟨blk, hblk, hblks, _⟩ := lookup_ps_of_frame (hps3 b) hm4_b
      exact ⟨blk, hblk, hblks⟩
    · obtain ⟨blk, hblk, hblks, hblkp⟩ := lookup_ps_of_frame (hps3 _) hm4_sb
      exact ⟨blk, hblk, hblks.trans hfrag_size, hblkp⟩
    · rw [hhead3]
      exact hflN
    · intro nb' hnb2
      rw [hnbR] at hnb2
      injection hnb2 with h2
      cases h2
    · intro _
      exact htl3
    · exact hhs3.trans hhs1
    · intro nb hnb2
      rw [hnbR] at hnb2
      injection hnb2 with h2
      cases h2
    · intro o hob hosb _
      refine ((hps3 o).trans ?_).trans (hps1 o)
      rw [hm4eq, lookupB_storeB_ne _ _ (Ne.symm hosb), hm3eq,
        lookupB_storeB_ne _ _ (Ne.symm hob),
        lookupB_storeB_ne _ _ (Ne.symm hosb)]
    · obtain ⟨blk, hblk, hblks, hblkp⟩ := lookup_ps_of_frame (hps3 b) hm4_b
      exact ⟨blk, hblk, hblks, hblkp.trans hbb1p⟩
    · intro nb nbblk hnb2 _
      rw [hnbR] at hnb2
      injection hnb2 with h2
      cases h2

/-- C4: when the fit search finds a free block `b` whose capacity strictly
exceeds the rounded request plus one header (mm.c:181), `mm_malloc` splits:
`b`'s stored size becomes exactly the rounded size (positive, allocated) and
its payload pointer is returned; a new free fragment carved at
`rounded size + header` bytes past `b` holds the remainder in the signed
encoding (`b.size + rounded + header`) and its chain-prev points at `b`;
`b`'s free-list entry is removed and the new fragment is inserted as the
free-list head, so the realized free list becomes the fragment consed onto
`fl.erase b`; and the chain successor of `b` (if any) has its `prev`
repointed to the fragment, while if there is none the chain tail is
repointed to the fragment. -/
theorem mm_malloc_split_spec
    (s s' : AllocState) (n b : Nat) (bb : Block) (fl : List Nat)
    (r : Option Nat)
    (h0 : 0 < n)
    (hsearch : searchFreeList s (roundUpALIGN n) = some (some b))
    (hbb : lookupB s.mem b = some bb)
    (hover : (roundUpALIGN n : Int) + (sizeofBlockInfo : Int) < -bb.size)
    (hfl : FreeChain s.mem s.free_list_head none fl)
    (hnd : fl.Nodup) (hbfl : b ∈ fl)
    (hsbfl : b + roundUpALIGN n + sizeofBlockInfo ∉ fl)
    (hrun : mm_malloc s n = some (s', r)) :
    r = some (b + sizeofBlockInfo) ∧
    (∃ blk, lookupB s'.mem b = some blk ∧
       blk.size = (roundUpALIGN n : Int)) ∧
    (∃ blk, lookupB s'.mem (b + roundUpALIGN n + sizeofBlockInfo) = some blk ∧
       blk.size = bb.size + (roundUpALIGN n : Int) + (sizeofBlockInfo : Int) ∧
       blk.prev = some b) ∧
    s'.free_list_head = some (b + roundUpALIGN n + sizeofBlockInfo) ∧
    FreeChain s'.mem s'.free_list_head none
      ((b + roundUpALIGN n + sizeofBlockInfo) :: fl.erase b) ∧
    (∀ nb, next_block s b = some (some nb) →
       ∃ blk, lookupB s'.mem nb = some blk ∧
         blk.prev = some (b + roundUpALIGN n + sizeofBlockInfo)) ∧
    (next_block s b = some none →
       s'.malloc_list_tail = some (b + roundUpALIGN n + sizeofBlockInfo)) := by
  obtain ⟨h1, h2, h3, h4, h5, h6, h7, _⟩ :=
    mm_malloc_split_run s s' n b bb fl r h0 hsearch hbb hover hfl hnd hbfl
      hsbfl hrun
  exact ⟨h1, h2, h3, h4, h5, h6, h7⟩

/-- The miss branch of `mm_malloc` (mm.c:169-178) preserves well-formedness:
the fresh allocated block is appended to the chain and the free list is
untouched. -/
theorem mm_malloc_miss_preserves {s s' : AllocState} {chain fl : List Nat}
    {n : Nat} {r : Option Nat}
    (hwf : WF s chain fl) (h0 : 0 < n)
    (hsearch : searchFreeList s (roundUpALIGN n) = some none)
    (hrun : mm_malloc s n = some (s', r)) :
    ∃ chain' fl', WF s' chain' fl' ∧
      ∀ p, r = some p → (ALIGNMENT : Nat) ∣ p := by
  obtain ⟨hreq16, hreqdvd, hreqle⟩ := roundUpALIGN_spec h0
  have hKn : sizeofBlockInfo = 16 := rfl
  have hAn : (ALIGNMENT : Nat) = 16 := rfl
  rw [mm_malloc, if_neg (Nat.pos_iff_ne_zero.mp h0)] at hrun
  simp only [Option.bind_eq_bind, hsearch, Option.some_bind,
    requestMoreSpace, Option.some.injEq, Prod.mk.injEq] at hrun
  obtain ⟨hs2, hr⟩ := hrun
  subst hs2
  subst hr
  have hmono := hwf.chainOk.mono
  have hhs_notin : s.heap_size ∉ chain := fun hmem => by
    have := (hmono.2 _ hmem).2
    omega
  have hhs_notin_fl : s.heap_size ∉ fl := fun hmem =>
    hhs_notin (hwf.flSub _ hmem)
  have hnat : ((roundUpALIGN n : Int)).natAbs = roundUpALIGN n :=
    Int.natAbs_ofNat _
  have hszne : ((roundUpALIGN n : Int)) ≠ 0 := by
    intro h
    have := Int.natAbs_eq_zero.mpr h
    omega
  refine ⟨chain ++ [s.heap_size], fl, ⟨?_, ?_, hwf.flNodup, ?_, ?_, ?_⟩, ?_⟩
  · -- chain
    show ChainSeg _ 0 none _ (s.heap_size + (sizeofBlockInfo + roundUpALIGN n))
      (some s.heap_size)
    have harith : s.heap_size + (sizeofBlockInfo + roundUpALIGN n)
        = s.heap_size + sizeofBlockInfo + ((roundUpALIGN n : Int)).natAbs := by
      rw [hnat]; omega
    rw [harith]
    refine ChainSeg.append (hwf.chainOk.congr_store hhs_notin) ?_
    refine ChainSeg.cons s.heap_size s.malloc_list_tail _ [] _ _
      (lookupB_storeB_self _ _ _) rfl hszne (by rw [hnat]; exact hreqdvd) ?_
    exact ChainSeg.nil _ _
  · -- free list
    obtain ⟨ep, hseg⟩ := hwf.flOk
    exact ⟨ep, hseg.congr_store_free hhs_notin_fl⟩
  · exact fun x hx => List.mem_append_left _ (hwf.flSub x hx)
  · -- sign iff
    intro o ho blk hblk
    rcases List.mem_append.mp ho with ho1 | ho2
    · have hne : s.heap_size ≠ o := fun he => hhs_notin (he ▸ ho1)
      rw [lookupB_storeB_ne _ _ hne] at hblk
      exact hwf.signIff o ho1 blk hblk
    · obtain rfl : o = s.heap_size := by simpa using ho2
      rw [lookupB_storeB_self] at hblk
      obtain rfl : blk = _ := by injection hblk.symm
      constructor
      · intro hmem
        exact absurd hmem hhs_notin_fl
      · intro hneg
        exfalso
        have : ¬ ((roundUpALIGN n : Int) < 0) := by
          have : (0 : Int) ≤ roundUpALIGN n := Int.ofNat_nonneg _
          omega
        exact this hneg
  · -- no adjacent free blocks
    rw [List.chain'_append]
    have hfree_pres : ∀ o, o ≠ s.heap_size →
        (freeAt (storeB s.mem s.heap_size
          { size := (roundUpALIGN n : Int), prev := s.malloc_list_tail,
            nextFree := none, prevFree := none }) o ↔ freeAt s.mem o) := by
      intro o hne
      refine freeAt_iff_of_ps ?_
      rw [lookupB_storeB_ne _ _ (Ne.symm hne)]
    have hnotfree_hs : ¬ freeAt (storeB s.mem s.heap_size
        { size := (roundUpALIGN n : Int), prev := s.malloc_list_tail,
          nextFree := none, prevFree := none }) s.heap_size := by
      rintro ⟨blk, hblk, hneg⟩
      rw [lookupB_storeB_self] at hblk
      obtain rfl : blk = _ := by injection hblk.symm
      have : (0 : Int) ≤ roundUpALIGN n := Int.ofNat_nonneg _
      simp at hneg
      omega
    refine ⟨?_, List.chain'_singleton _, ?_⟩
    · refine hwf.noAdj.imp ?_
      intro a c hac
      by_cases ha : a = s.heap_size
      · subst ha
        intro ⟨h1, _⟩
        exact hnotfree_hs h1
      · by_cases hc : c = s.heap_size
        · subst hc
          intro ⟨_, h2⟩
          exact hnotfree_hs h2
        · intro ⟨h1, h2⟩
          exact hac ⟨(hfree_pres a ha).mp h1, (hfree_pres c hc).mp h2⟩
    · intro x _ y hy
      obtain rfl : s.heap_size = y := by simpa using hy
      intro ⟨_, h2⟩
      exact hnotfree_hs h2
  · -- alignment of the returned payload pointer
    intro p hp
    obtain rfl : s.heap_size + sizeofBlockInfo = p := by injection hp
    have hdvd_hs := (hwf.chainOk.align ⟨0, rfl⟩).2
    rw [hAn] at hdvd_hs ⊢
    rcases hdvd_hs with ⟨c, hc⟩
    exact ⟨c + 1, by omega⟩

/-- The exact-fit branch of `mm_malloc` (mm.c:200-202) preserves
well-formedness: the found block's sign is flipped and it leaves the free
list; the chain is unchanged. -/
theorem mm_malloc_exact_preserves {s s' : AllocState} {chain fl : List Nat}
    {n b : Nat} {bb : Block} {r : Option Nat}
    (hwf : WF s chain fl) (h0 : 0 < n)
    (hsearch : searchFreeList s (roundUpALIGN n) = some (some b))
    (hbb : lookupB s.mem b = some bb)
    (hnotover : ¬ ((roundUpALIGN n : Int) + (sizeofBlockInfo : Int)
      < -bb.size))
    (hrun : mm_malloc s n = some (s', r)) :
    ∃ chain' fl', WF s' chain' fl' ∧
      ∀ p, r = some p → (ALIGNMENT : Nat) ∣ p := by
  obtain ⟨hreq16, hreqdvd, hreqle⟩ := roundUpALIGN_spec h0
  have hKn : sizeofBlockInfo = 16 := rfl
  have hAn : (ALIGNMENT : Nat) = 16 := rfl
  obtain ⟨hbchain, bb2, hbb2, hble⟩ := searchFreeList_found hwf hsearch
  rw [hbb] at hbb2
  obtain rfl : bb = bb2 := by injection hbb2
  have hbneg : bb.size < 0 := by omega
  have hbfl : b ∈ fl := (hwf.signIff b hbchain bb hbb).mpr hbneg
  rw [mm_malloc, if_neg (Nat.pos_iff_ne_zero.mp h0)] at hrun
  simp only [Option.bind_eq_bind, hsearch, Option.some_bind] at hrun
  rw [hbb, Option.some_bind, if_neg hnotover] at hrun
  obtain ⟨m1, hm1, hrun1⟩ := Option.bind_eq_some.mp hrun
  clear hrun
  obtain ⟨bbz, hbbz, hm1eq⟩ := setSize_some hm1
  rw [hbb] at hbbz
  obtain rfl : bb = bbz := by injection hbbz
  have hflMid : FreeChain m1 s.free_list_head none fl := by
    obtain ⟨ep, hseg⟩ := hwf.flOk
    refine ⟨ep, hseg.congr_free fun o ho => ?_⟩
    rw [hm1eq]
    exact fn_store_preserved hbb
      (show fnOf { bb with size := -bb.size } = fnOf bb from rfl) o
  obtain ⟨s1, hrme, hflE, hhs1, htl1, hps1⟩ :=
    removeFreeBlock_spec ⟨m1, s.free_list_head, s.malloc_list_tail,
      s.heap_size⟩ fl b hflMid hwf.flNodup hbfl
  obtain ⟨s2v, hrmx, hrun2⟩ := Option.bind_eq_some.mp hrun1
  clear hrun1
  rw [hrme] at hrmx
  obtain rfl : s1 = s2v := by injection hrmx
  simp only [Option.some.injEq, Prod.mk.injEq] at hrun2
  obtain ⟨hsx, hr⟩ := hrun2
  subst hsx
  subst hr
  have hhs : s1.heap_size = s.heap_size := hhs1
  have htl : s1.malloc_list_tail = s.malloc_list_tail := htl1
  have hps_b : ∀ o, o ≠ b →
      (lookupB s1.mem o).map psOf = (lookupB s.mem o).map psOf := by
    intro o hne
    refine (hps1 o).trans ?_
    show (lookupB m1 o).map psOf = _
    rw [hm1eq, lookupB_storeB_ne _ _ (Ne.symm hne)]
  have hm1_b : lookupB m1 b = some { bb with size := -bb.size } := by
    rw [hm1eq]
    exact lookupB_storeB_self _ _ _
  obtain ⟨bbF, hbbF, hbbFs, hbbFp⟩ := lookup_ps_of_frame (hps1 b) hm1_b
  have hbbFs' : bbF.size = -bb.size := hbbFs
  have hbbFp' : bbF.prev = bb.prev := hbbFp
  have hnotfree_b : ¬ freeAt s1.mem b := by
    rintro ⟨blk, hblk, hneg⟩
    rw [hbbF] at hblk
    obtain rfl : bbF = blk := by injection hblk
    omega
  have hfree_pres : ∀ o, o ≠ b → (freeAt s1.mem o ↔ freeAt s.mem o) :=
    fun o hne => freeAt_iff_of_ps (hps_b o hne)
  refine ⟨chain, fl.erase b, ⟨?_, hflE, hwf.flNodup.erase b, ?_, ?_, ?_⟩, ?_⟩
  · -- chain: same offsets, the found block keeps its capacity
    rw [hhs, htl]
    refine hwf.chainOk.congr_abs fun o ho => ?_
    by_cases he : o = b
    · subst he
      refine ⟨bb, bbF, hbb, hbbF, hbbFp', ?_⟩
      rw [hbbFs']
      exact Int.natAbs_neg _
    · obtain ⟨bo, hbo, _, _⟩ := hwf.chainOk.mem_lookup ho
      obtain ⟨bo', hbo', hs', hp'⟩ := lookup_ps_of_frame (hps_b o he) hbo
      exact ⟨bo, bo', hbo, hbo', hp', by rw [hs']⟩
  · exact fun x hx =>
      hwf.flSub x ((List.Nodup.mem_erase_iff hwf.flNodup).mp hx).2
  · -- sign iff
    intro o ho blk hblk
    by_cases he : o = b
    · subst he
      rw [hbbF] at hblk
      obtain rfl : bbF = blk := by injection hblk
      constructor
      · intro hmem
        exact absurd rfl ((List.Nodup.mem_erase_iff hwf.flNodup).mp hmem).1
      · intro hneg
        exfalso
        omega
    · obtain ⟨bo, hbo, _, _⟩ := hwf.chainOk.mem_lookup ho
      obtain ⟨bo', hbo', hs', _⟩ := lookup_ps_of_frame (hps_b o he) hbo
      rw [hblk] at hbo'
      obtain rfl : blk = bo' := by injection hbo'
      rw [List.Nodup.mem_erase_iff hwf.flNodup]
      rw [hs']
      have := hwf.signIff o ho bo hbo
      constructor
      · intro ⟨_, hmem⟩
        exact this.mp hmem
      · intro hneg
        exact ⟨he, this.mpr hneg⟩
  · -- no adjacent free blocks: the found block became allocated
    refine hwf.noAdj.imp ?_
    intro a c hac
    by_cases ha : a = b
    · subst ha
      intro ⟨h1, _⟩
      exact hnotfree_b h1
    · by_cases hc : c = b
      · subst hc
        intro ⟨_, h2⟩
        exact hnotfree_b h2
      · intro ⟨h1, h2⟩
        exact hac ⟨(hfree_pres a ha).mp h1, (hfree_pres c hc).mp h2⟩
  · -- alignment
    intro p hp
    obtain rfl : b + sizeofBlockInfo = p := by injection hp
    have hdvd_b := (hwf.chainOk.align ⟨0, rfl⟩).1 b hbchain
    rw [hAn] at hdvd_b ⊢
    rcases hdvd_b with ⟨c, hc⟩
    exact ⟨c + 1, by omega⟩

/-- Dividing the alignment into an integer is the same as dividing it into
the absolute value. -/
theorem alignment_dvd_natAbs_iff (x : Int) :
    (ALIGNMENT : Nat) ∣ x.natAbs ↔ ((ALIGNMENT : Nat) : Int) ∣ x := by
  rw [← Int.natCast_dvd_natCast, Int.dvd_natAbs]

/-- `Chain'` can be transported along an implication that only needs to hold
on members of the list. -/
theorem chain'_imp_mem {α : Type} {R S : α → α → Prop} :
    ∀ {l : List α}, (∀ a ∈ l, ∀ b ∈ l, R a b → S a b) → l.Chain' R →
      l.Chain' S := by
  intro l
  induction l with
  | nil => intro _ _; simp
  | cons a t ih =>
      intro h hc
      cases t with
      | nil => simp
      | cons b t' =>
          rw [List.chain'_cons] at hc ⊢
          refine ⟨h a (List.mem_cons_self _ _)
            b (List.mem_cons_of_mem _ (List.mem_cons_self _ _)) hc.1, ?_⟩
          exact ih (fun x hx y hy => h x (List.mem_cons_of_mem _ hx)
            y (List.mem_cons_of_mem _ hy)) hc.2

/-- The split branch of `mm_malloc` (mm.c:181-197) preserves
well-formedness: the found block shrinks in place and the free fragment is
spliced into the chain right after it. -/
theorem mm_malloc_splitcase_preserves {s s' : AllocState}
    {chain fl : List Nat} {n b : Nat} {bb : Block} {r : Option Nat}
    (hwf : WF s chain fl) (h0 : 0 < n)
    (hsearch : searchFreeList s (roundUpALIGN n) = some (some b))
    (hbb : lookupB s.mem b = some bb)
    (hover : (roundUpALIGN n : Int) + (sizeofBlockInfo : Int) < -bb.size)
    (hrun : mm_malloc s n = some (s', r)) :
    ∃ chain' fl', WF s' chain' fl' ∧
      ∀ p, r = some p → (ALIGNMENT : Nat) ∣ p := by
  obtain ⟨hreq16, hreqdvd, hreqle⟩ := roundUpALIGN_spec h0
  have hKn : sizeofBlockInfo = 16 := rfl
  have hAn : (ALIGNMENT : Nat) = 16 := rfl
  have hK : ((sizeofBlockInfo : Nat) : Int) = 16 := rfl
  obtain ⟨hbchain, bb2, hbb2, hble⟩ := searchFreeList_found hwf hsearch
  rw [hbb] at hbb2
  obtain rfl : bb = bb2 := by injection hbb2
  have hbneg : bb.size < 0 := by omega
  have hbfl : b ∈ fl := (hwf.signIff b hbchain bb hbb).mpr hbneg
  obtain ⟨c1, c2, hchain⟩ := List.append_of_mem hbchain
  subst hchain
  obtain ⟨mid, midPrv, hseg1, hseg2⟩ := hwf.chainOk.append_inv
  obtain ⟨hmid, bb', hbb', hbprev, hbnz, hbdvd, hseg3⟩ := hseg2.cons_inv
  subst hmid
  rw [hbb] at hbb'
  obtain rfl : bb = bb' := by injection hbb'
  have habs_gt : roundUpALIGN n + 16 < bb.size.natAbs := by omega
  have hc1lt : ∀ x ∈ c1, x < b := by
    intro x hx
    have := (hseg1.mono.2 x hx).2
    omega
  have hc2ge : ∀ x ∈ c2, b + sizeofBlockInfo + bb.size.natAbs ≤ x := by
    intro x hx
    exact (hseg3.mono.2 x hx).1
  have hsb_notchain : b + roundUpALIGN n + sizeofBlockInfo ∉ c1 ++ b :: c2 := by
    intro hmem
    rcases List.mem_append.mp hmem with h1 | h2
    · have := hc1lt _ h1
      omega
    · rcases List.mem_cons.mp h2 with he | h3
      · omega
      · have := hc2ge _ h3
        omega
  have hsbfl : b + roundUpALIGN n + sizeofBlockInfo ∉ fl := fun h =>
    hsb_notchain (hwf.flSub _ h)
  obtain ⟨hr_eq, hcb, hcsb, hhead, hflN, hnbsome, hnbnone, hhs, htlsome,
      hframe, hcb2, hcnb⟩ :=
    mm_malloc_split_run s s' n b bb fl r h0 hsearch hbb hover hwf.flOk
      hwf.flNodup hbfl hsbfl hrun
  obtain ⟨blkb, hblkb, hbsz, hbpv⟩ := hcb2
  obtain ⟨blkf, hblkf, hfsz, hfpv⟩ := hcsb
  have hfneg : blkf.size < 0 := by omega
  have hfabs : blkf.size.natAbs
      = bb.size.natAbs - roundUpALIGN n - 16 := by omega
  have hfdvd : (ALIGNMENT : Nat) ∣ blkf.size.natAbs := by
    rw [alignment_dvd_natAbs_iff, hfsz]
    have h1 := (alignment_dvd_natAbs_iff bb.size).mp hbdvd
    have h2 : ((ALIGNMENT : Nat) : Int) ∣ (roundUpALIGN n : Int) := by
      rw [Int.natCast_dvd_natCast]
      exact hreqdvd
    have h3 : ((ALIGNMENT : Nat) : Int) ∣ (sizeofBlockInfo : Int) := ⟨1, rfl⟩
    exact dvd_add (dvd_add h1 h2) h3
  have hbabs : blkb.size.natAbs = roundUpALIGN n := by
    rw [hbsz]
    exact Int.natAbs_ofNat _
  have hndE : (fl.erase b).Nodup := hwf.flNodup.erase b
  have hbE : b ∉ fl.erase b := fun hmem =>
    ((List.Nodup.mem_erase_iff hwf.flNodup).mp hmem).1 rfl
  have hsbE : b + roundUpALIGN n + sizeofBlockInfo ∉ fl.erase b := fun hmem =>
    hsbfl ((List.Nodup.mem_erase_iff hwf.flNodup).mp hmem).2
  have hflN' : FreeChain s'.mem s'.free_list_head none
      ((b + roundUpALIGN n + sizeofBlockInfo) :: fl.erase b) := hflN
  have hnbeq : next_block s b
      = some (if s.heap_size ≤ b + sizeofBlockInfo + bb.size.natAbs then none
          else some (b + sizeofBlockInfo + bb.size.natAbs)) := by
    simp only [next_block, hbb, Option.map_some']
  have halign_concl : ∀ p, r = some p → (ALIGNMENT : Nat) ∣ p := by
    intro p hp
    rw [hr_eq] at hp
    obtain rfl : b + sizeofBlockInfo = p := by injection hp
    have hdvd_b := (hwf.chainOk.align ⟨0, rfl⟩).1 b hbchain
    rw [hAn] at hdvd_b ⊢
    rcases hdvd_b with ⟨c, hc⟩
    exact ⟨c + 1, by omega⟩
  cases c2 with
  | nil =>
      obtain ⟨hhs_eq, htl_eq⟩ := hseg3.nil_inv
      have hnb_none : next_block s b = some none := by
        rw [hnbeq, if_pos (le_of_eq hhs_eq)]
      have hcond : ∀ o : Nat, ∀ nb, next_block s b = some (some nb) →
          o ≠ nb := by
        intro o nb hx
        rw [hnb_none] at hx
        injection hx with h2
        cases h2
      have htl' : s'.malloc_list_tail
          = some (b + roundUpALIGN n + sizeofBlockInfo) := hnbnone hnb_none
      have hps_pres : ∀ o, o ≠ b →
          o ≠ b + roundUpALIGN n + sizeofBlockInfo →
          (lookupB s'.mem o).map psOf = (lookupB s.mem o).map psOf :=
        fun o h1 h2 => hframe o h1 h2 (hcond o)
      refine ⟨c1 ++ b :: [b + roundUpALIGN n + sizeofBlockInfo],
        (b + roundUpALIGN n + sizeofBlockInfo) :: fl.erase b,
        ⟨?_, hflN', ?_, ?_, ?_, ?_⟩, halign_concl⟩
      · -- chain
        rw [hhs, htl', hhs_eq]
        refine ChainSeg.append (hseg1.congr fun o ho => hps_pres o
          (by have := hc1lt o ho; omega) (by have := hc1lt o ho; omega)) ?_
        refine ChainSeg.cons b midPrv blkb _ _ _ hblkb (hbpv.trans hbprev)
          (by omega) (by rw [hbabs]; exact hreqdvd) ?_
        rw [show b + sizeofBlockInfo + blkb.size.natAbs
          = b + roundUpALIGN n + sizeofBlockInfo by rw [hbabs]; omega]
        refine ChainSeg.cons _ (some b) blkf [] _ _ hblkf hfpv
          (by omega) hfdvd ?_
        rw [show b + roundUpALIGN n + sizeofBlockInfo + sizeofBlockInfo
            + blkf.size.natAbs = b + sizeofBlockInfo + bb.size.natAbs by
          rw [hfabs]; omega]
        exact ChainSeg.nil _ _
      · exact List.Nodup.cons hsbE hndE
      · -- flSub
        intro x hx
        rcases List.mem_cons.mp hx with rfl | hx'
        · simp
        · obtain ⟨hxb, hxfl⟩ := (List.Nodup.mem_erase_iff hwf.flNodup).mp hx'
          have := hwf.flSub x hxfl
          rcases List.mem_append.mp this with h1 | h2
          · exact List.mem_append_left _ h1
          · rcases List.mem_cons.mp h2 with he | h3
            · exact absurd he hxb
            · cases h3
      · -- sign iff
        intro o ho blk hblk
        rcases List.mem_append.mp ho with ho1 | ho2
        · have hne_b : o ≠ b := by have := hc1lt o ho1; omega
          have hne_sb : o ≠ b + roundUpALIGN n + sizeofBlockInfo := by
            have := hc1lt o ho1; omega
          obtain ⟨bo, hbo, _, _⟩ := hseg1.mem_lookup ho1
          obtain ⟨bo', hbo', hs2, _⟩ :=
            lookup_ps_of_frame (hps_pres o hne_b hne_sb) hbo
          rw [hblk] at hbo'
          obtain rfl : blk = bo' := by injection hbo'
          rw [hs2]
          have hold := hwf.signIff o (List.mem_append_left _ ho1) bo hbo
          constructor
          · intro hmem
            rcases List.mem_cons.mp hmem with he | hmem'
            · exact absurd he hne_sb
            · exact hold.mp ((List.Nodup.mem_erase_iff hwf.flNodup).mp hmem').2
          · intro hneg
            exact List.mem_cons_of_mem _
              ((List.Nodup.mem_erase_iff hwf.flNodup).mpr ⟨hne_b, hold.mpr hneg⟩)
        · rcases List.mem_cons.mp ho2 with rfl | ho3
          · rw [hblkb] at hblk
            obtain rfl : blkb = blk := by injection hblk
            constructor
            · intro hmem
              rcases List.mem_cons.mp hmem with he | hmem'
              · exfalso; omega
              · exact absurd hmem' hbE
            · intro hneg
              exfalso
              omega
          · obtain rfl : o = b + roundUpALIGN n + sizeofBlockInfo := by
              simpa using ho3
            rw [hblkf] at hblk
            obtain rfl : blkf = blk := by injection hblk
            constructor
            · intro _
              exact hfneg
            · intro _
              exact List.mem_cons_self _ _
      · -- no adjacent free blocks
        rw [List.chain'_append]
        have hnotfree_b : ¬ freeAt s'.mem b := by
          rintro ⟨blk, hblk, hneg⟩
          rw [hblkb] at hblk
          obtain rfl : blkb = blk := by injection hblk
          omega
        refine ⟨?_, ?_, ?_⟩
        · refine chain'_imp_mem ?_ (List.chain'_append.mp hwf.noAdj).1
          intro x hx y hy hR hxy
          refine hR ⟨?_, ?_⟩
          · exact (freeAt_iff_of_ps (hps_pres x
              (by have := hc1lt x hx; omega)
              (by have := hc1lt x hx; omega))).mp hxy.1
          · exact (freeAt_iff_of_ps (hps_pres y
              (by have := hc1lt y hy; omega)
              (by have := hc1lt y hy; omega))).mp hxy.2
        · exact List.chain'_cons.mpr ⟨fun h => hnotfree_b h.1, by simp⟩
        · intro x hx y hy
          obtain rfl : b = y := by simpa using hy
          exact fun h => hnotfree_b h.2
  | cons nx c2' =>
      obtain ⟨hnx, bnx, hbnx, hbnxprev, hbnxnz, hbnxdvd, hseg4⟩ :=
        hseg3.cons_inv
      rw [← hnx] at hbnx hseg4
      have hmono4 := hseg3.mono.2 nx (List.mem_cons_self _ _)
      have hnb_some : next_block s b = some (some nx) := by
        rw [hnbeq, if_neg (by omega), hnx]
      have hcond2 : ∀ o : Nat, o ≠ nx → ∀ nb,
          next_block s b = some (some nb) → o ≠ nb := by
        intro o ho nb hx
        have h3 : nx = nb :=
          Option.some.inj (Option.some.inj (hnb_some.symm.trans hx))
        exact fun he => ho (he.trans h3.symm)
      have htl' : s'.malloc_list_tail = s.malloc_list_tail := htlsome nx hnb_some
      obtain ⟨blknx, hblknx, hnxsz, hnxpv⟩ := hcnb nx bnx hnb_some hbnx
      have hps_pres : ∀ o, o ≠ b →
          o ≠ b + roundUpALIGN n + sizeofBlockInfo → o ≠ nx →
          (lookupB s'.mem o).map psOf = (lookupB s.mem o).map psOf :=
        fun o h1 h2 h3 => hframe o h1 h2 (hcond2 o h3)
      have hbnxR := (List.chain'_cons.mp
        (List.chain'_append.mp hwf.noAdj).2.1).1
      have hnotfree_nx_old : ¬ freeAt s.mem nx :=
        fun h => hbnxR ⟨⟨bb, hbb, hbneg⟩, h⟩
      have hnx_nonneg : 0 ≤ bnx.size := by
        by_contra hlt
        exact hnotfree_nx_old ⟨bnx, hbnx, by omega⟩
      have hfree_nx_iff : freeAt s'.mem nx ↔ freeAt s.mem nx := by
        constructor
        · rintro ⟨blk, hblk, hneg⟩
          rw [hblknx] at hblk
          obtain rfl : blknx = blk := by injection hblk
          exact ⟨bnx, hbnx, by omega⟩
        · rintro ⟨blk, hblk, hneg⟩
          rw [hbnx] at hblk
          obtain rfl : bnx = blk := by injection hblk
          exact ⟨blknx, hblknx, by omega⟩
      have hnotfree_b : ¬ freeAt s'.mem b := by
        rintro ⟨blk, hblk, hneg⟩
        rw [hblkb] at hblk
        obtain rfl : blkb = blk := by injection hblk
        omega
      have hnotfree_nx' : ¬ freeAt s'.mem nx :=
        fun h => hnotfree_nx_old (hfree_nx_iff.mp h)
      have hc2'gt : ∀ x ∈ c2', nx + sizeofBlockInfo + bnx.size.natAbs ≤ x :=
        fun x hx => (hseg4.mono.2 x hx).1
      have hps_pres' : ∀ o, o ≠ b →
          o ≠ b + roundUpALIGN n + sizeofBlockInfo → o ≠ nx →
          (lookupB s'.mem o).map psOf = (lookupB s.mem o).map psOf :=
        hps_pres
      have hfree_iff_tail : ∀ o ∈ nx :: c2',
          (freeAt s'.mem o ↔ freeAt s.mem o) := by
        intro o ho
        rcases List.mem_cons.mp ho with rfl | ho'
        · exact hfree_nx_iff
        · have hgt := hc2'gt o ho'
          exact freeAt_iff_of_ps (hps_pres o (by omega) (by omega) (by omega))
      refine ⟨c1 ++ b :: (b + roundUpALIGN n + sizeofBlockInfo) :: nx :: c2',
        (b + roundUpALIGN n + sizeofBlockInfo) :: fl.erase b,
        ⟨?_, hflN', ?_, ?_, ?_, ?_⟩, halign_concl⟩
      · -- chain
        rw [hhs, htl']
        refine ChainSeg.append (hseg1.congr fun o ho => hps_pres o
          (by have := hc1lt o ho; omega) (by have := hc1lt o ho; omega)
          (by have := hc1lt o ho; omega)) ?_
        refine ChainSeg.cons b midPrv blkb _ _ _ hblkb (hbpv.trans hbprev)
          (by omega) (by rw [hbabs]; exact hreqdvd) ?_
        rw [show b + sizeofBlockInfo + blkb.size.natAbs
          = b + roundUpALIGN n + sizeofBlockInfo by rw [hbabs]; omega]
        refine ChainSeg.cons _ (some b) blkf _ _ _ hblkf hfpv
          (by omega) hfdvd ?_
        rw [show b + roundUpALIGN n + sizeofBlockInfo + sizeofBlockInfo
            + blkf.size.natAbs = nx by rw [hfabs]; omega]
        refine ChainSeg.cons nx
          (some (b + roundUpALIGN n + sizeofBlockInfo)) blknx _ _ _
          hblknx hnxpv (by omega)
          (by rw [show blknx.size = bnx.size from hnxsz]; exact hbnxdvd) ?_
        rw [show nx + sizeofBlockInfo + blknx.size.natAbs
          = nx + sizeofBlockInfo + bnx.size.natAbs by rw [hnxsz]]
        exact hseg4.congr fun o ho => hps_pres o
          (by have := hc2'gt o ho; omega) (by have := hc2'gt o ho; omega)
          (by have := hc2'gt o ho; omega)
      · exact List.Nodup.cons hsbE hndE
      · -- flSub
        intro x hx
        rcases List.mem_cons.mp hx with rfl | hx'
        · exact List.mem_append_right _
            (List.mem_cons_of_mem _ (List.mem_cons_self _ _))
        · obtain ⟨hxb, hxfl⟩ := (List.Nodup.mem_erase_iff hwf.flNodup).mp hx'
          have hold := hwf.flSub x hxfl
          rcases List.mem_append.mp hold with h1 | h2
          · exact List.mem_append_left _ h1
          · rcases List.mem_cons.mp h2 with he | h3
            · exact absurd he hxb
            · exact List.mem_append_right _ (List.mem_cons_of_mem _
                (List.mem_cons_of_mem _ h3))
      · -- sign iff
        intro o ho blk hblk
        rcases List.mem_append.mp ho with ho1 | ho2
        · have hne_b : o ≠ b := by have := hc1lt o ho1; omega
          have hne_sb : o ≠ b + roundUpALIGN n + sizeofBlockInfo := by
            have := hc1lt o ho1; omega
          have hne_nx : o ≠ nx := by have := hc1lt o ho1; omega
          obtain ⟨bo, hbo, _, _⟩ := hseg1.mem_lookup ho1
          obtain ⟨bo', hbo', hs2, _⟩ :=
            lookup_ps_of_frame (hps_pres o hne_b hne_sb hne_nx) hbo
          rw [hblk] at hbo'
          obtain rfl : blk = bo' := by injection hbo'
          rw [hs2]
          have hold := hwf.signIff o (List.mem_append_left _ ho1) bo hbo
          constructor
          · intro hmem
            rcases List.mem_cons.mp hmem with he | hmem'
            · exact absurd he hne_sb
            · exact hold.mp ((List.Nodup.mem_erase_iff hwf.flNodup).mp hmem').2
          · intro hneg
            exact List.mem_cons_of_mem _
              ((List.Nodup.mem_erase_iff hwf.flNodup).mpr
                ⟨hne_b, hold.mpr hneg⟩)
        · rcases List.mem_cons.mp ho2 with rfl | ho3
          · rw [hblkb] at hblk
            obtain rfl : blkb = blk := by injection hblk
            constructor
            · intro hmem
              rcases List.mem_cons.mp hmem with he | hmem'
              · exfalso; omega
              · exact absurd hmem' hbE
            · intro hneg
              exfalso
              omega
          · rcases List.mem_cons.mp ho3 with rfl | ho4
            · rw [hblkf] at hblk
              obtain rfl : blkf = blk := by injection hblk
              exact ⟨fun _ => hfneg, fun _ => List.mem_cons_self _ _⟩
            · rcases List.mem_cons.mp ho4 with rfl | ho5
              · rw [hblknx] at hblk
                obtain rfl : blknx = blk := by injection hblk
                have hnxfl : o ∉ fl := fun hmem => absurd
                  ((hwf.signIff o (by simp) bnx hbnx).mp hmem) (by omega)
                constructor
                · intro hmem
                  rcases List.mem_cons.mp hmem with he | hmem'
                  · exfalso; omega
                  · exact absurd
                      ((List.Nodup.mem_erase_iff hwf.flNodup).mp hmem').2 hnxfl
                · intro hneg
                  exfalso
                  omega
              · have hgt := hc2'gt o ho5
                have hne_b : o ≠ b := by omega
                have hne_sb : o ≠ b + roundUpALIGN n + sizeofBlockInfo := by
                  omega
                have hne_nx : o ≠ nx := by omega
                obtain ⟨bo, hbo, _, _⟩ := hseg4.mem_lookup ho5
                obtain ⟨bo', hbo', hs2, _⟩ :=
                  lookup_ps_of_frame (hps_pres o hne_b hne_sb hne_nx) hbo
                rw [hblk] at hbo'
                obtain rfl : blk = bo' := by injection hbo'
                rw [hs2]
                have hold := hwf.signIff o (List.mem_append_right _
                  (List.mem_cons_of_mem _ (List.mem_cons_of_mem _ ho5))) bo hbo
                constructor
                · intro hmem
                  rcases List.mem_cons.mp hmem with he | hmem'
                  · exact absurd he hne_sb
                  · exact hold.mp
                      ((List.Nodup.mem_erase_iff hwf.flNodup).mp hmem').2
                · intro hneg
                  exact List.mem_cons_of_mem _
                    ((List.Nodup.mem_erase_iff hwf.flNodup).mpr
                      ⟨hne_b, hold.mpr hneg⟩)
      · -- no adjacent free blocks
        rw [List.chain'_append]
        refine ⟨?_, ?_, ?_⟩
        · refine chain'_imp_mem ?_ (List.chain'_append.mp hwf.noAdj).1
          intro x hx y hy hR hxy
          refine hR ⟨?_, ?_⟩
          · exact (freeAt_iff_of_ps (hps_pres x
              (by have := hc1lt x hx; omega)
              (by have := hc1lt x hx; omega)
              (by have := hc1lt x hx; omega))).mp hxy.1
          · exact (freeAt_iff_of_ps (hps_pres y
              (by have := hc1lt y hy; omega)
              (by have := hc1lt y hy; omega)
              (by have := hc1lt y hy; omega))).mp hxy.2
        · refine List.chain'_cons.mpr ⟨fun h => hnotfree_b h.1, ?_⟩
          refine List.chain'_cons.mpr ⟨fun h => hnotfree_nx' h.2, ?_⟩
          have hold2 := (List.chain'_cons.mp
            (List.chain'_append.mp hwf.noAdj).2.1).2
          refine chain'_imp_mem ?_ hold2
          intro x hx y hy hR hxy
          exact hR ⟨(hfree_iff_tail x hx).mp hxy.1,
            (hfree_iff_tail y hy).mp hxy.2⟩
        · intro x hx y hy
          obtain rfl : b = y := by simpa using hy
          exact fun h => hnotfree_b h.2

/-- `mm_malloc` preserves well-formedness in every branch (zero request,
arena growth, split, exact fit), and any returned payload pointer is
16-byte aligned. -/
theorem mm_malloc_preserves {s s' : AllocState} {chain fl : List Nat}
    {n : Nat} {r : Option Nat}
    (hwf : WF s chain fl) (hrun : mm_malloc s n = some (s', r)) :
    ∃ chain' fl', WF s' chain' fl' ∧
      ∀ p, r = some p → (ALIGNMENT : Nat) ∣ p := by
  by_cases h0 : n = 0
  · subst h0
    simp only [mm_malloc, if_true, eq_self_iff_true, Option.some.injEq,
      Prod.mk.injEq] at hrun
    obtain ⟨rfl, rfl⟩ := hrun
    exact ⟨chain, fl, hwf, fun p hp => by cases hp⟩
  · have h0' : 0 < n := Nat.pos_of_ne_zero h0
    cases hsearch : searchFreeList s (roundUpALIGN n) with
    | none =>
        exfalso
        rw [mm_malloc, if_neg h0] at hrun
        simp only [Option.bind_eq_bind, hsearch, Option.none_bind] at hrun
        exact Option.noConfusion hrun
    | some found =>
        cases found with
        | none => exact mm_malloc_miss_preserves hwf h0' hsearch hrun
        | some b =>
            cases hbb : lookupB s.mem b with
            | none =>
                exfalso
                rw [mm_malloc, if_neg h0] at hrun
                simp only [Option.bind_eq_bind, hsearch, Option.some_bind,
                  hbb, Option.none_bind] at hrun
                exact Option.noConfusion hrun
            | some bb =>
                by_cases hover : (roundUpALIGN n : Int)
                    + (sizeofBlockInfo : Int) < -bb.size
                · exact mm_malloc_splitcase_preserves hwf h0' hsearch hbb
                    hover hrun
                · exact mm_malloc_exact_preserves hwf h0' hsearch hbb
                    hover hrun

/-- Inversion of the predecessor-merge phase of `coalesce` (mm.c:217-224)
when the freed block has a chain successor `nb`: the predecessor absorbs the
freed block, keeps its own back-link, and `nb` is repointed to it. -/
theorem coalescePrevPhase_free_some_inv
    (t s1 : AllocState) (flt : List Nat) (b p nb c : Nat)
    (pbB bbB nbB : Block)
    (hfl : FreeChain t.mem t.free_list_head none flt) (hnd : flt.Nodup)
    (hp : p ∈ flt)
    (hlookp : lookupB t.mem p = some pbB) (hpneg : pbB.size < 0)
    (hlookb : lookupB t.mem b = some bbB)
    (hlooknb : lookupB t.mem nb = some nbB) (hnbp : nb ≠ p)
    (hrun : coalescePrevPhase t b (some p) (some nb) = some (s1, c)) :
    c = p ∧
    (∃ blk, lookupB s1.mem p = some blk ∧
      blk.size = pbB.size + bbB.size - (sizeofBlockInfo : Int) ∧
      blk.prev = pbB.prev) ∧
    (∃ blk, lookupB s1.mem nb = some blk ∧ blk.size = nbB.size ∧
      blk.prev = some p) ∧
    (∀ o, o ≠ p → o ≠ nb →
      (lookupB s1.mem o).map psOf = (lookupB t.mem o).map psOf) ∧
    FreeChain s1.mem s1.free_list_head none (flt.erase p) ∧
    s1.heap_size = t.heap_size ∧ s1.malloc_list_tail = t.malloc_list_tail := by
  obtain ⟨sA, hremS, hflA, hhsA, htlA, hpsA⟩ :=
    removeFreeBlock_spec t flt p hfl hnd hp
  obtain ⟨pb1, hpb1, hpb1s, hpb1p⟩ := lookup_ps_of_frame (hpsA p) hlookp
  obtain ⟨bb1, hbb1, hbb1s, _⟩ := lookup_ps_of_frame (hpsA b) hlookb
  obtain ⟨nb1, hnb1, hnb1s, _⟩ := lookup_ps_of_frame (hpsA nb) hlooknb
  have hlooknb_mA : lookupB (storeB sA.mem p
      { pb1 with size := pb1.size + bb1.size - (sizeofBlockInfo : Int) }) nb
      = some nb1 := by
    rw [lookupB_storeB_ne _ _ (Ne.symm hnbp)]; exact hnb1
  rw [coalescePrevPhase] at hrun
  simp only [Option.bind_eq_bind] at hrun
  rw [hlookp, Option.some_bind, if_pos hpneg, hremS, Option.some_bind,
    hpb1, Option.some_bind, hbb1, Option.some_bind,
    setSize_eq (pb1.size + bb1.size - (sizeofBlockInfo : Int)) hpb1,
    Option.some_bind, setPrev_eq (some p) hlooknb_mA,
    Option.some_bind] at hrun
  simp only [Option.some.injEq, Prod.mk.injEq] at hrun
  obtain ⟨hs1, hc⟩ := hrun
  subst hs1
  subst hc
  refine ⟨rfl, ?_, ?_, ?_, ?_, hhsA, htlA⟩
  · refine ⟨{ pb1 with size := pb1.size + bb1.size - (sizeofBlockInfo : Int) },
      ?_, ?_, hpb1p⟩
    · show lookupB (storeB _ nb _) p = _
      rw [lookupB_storeB_ne _ _ hnbp]
      exact lookupB_storeB_self _ _ _
    · show pb1.size + bb1.size - (sizeofBlockInfo : Int) = _
      rw [hpb1s, hbb1s]
  · exact ⟨{ nb1 with prev := some p }, lookupB_storeB_self _ _ _, hnb1s, rfl⟩
  · intro o hop honb
    show (lookupB (storeB _ nb _) o).map psOf = _
    rw [lookupB_storeB_ne _ _ (Ne.symm honb),
      lookupB_storeB_ne _ _ (Ne.symm hop)]
    exact hpsA o
  · obtain ⟨ep, hsegA⟩ := hflA
    refine ⟨ep, hsegA.congr_free ?_⟩
    intro x _
    show (lookupB (storeB _ nb _) x).map fnOf = _
    rw [fn_store_preserved hlooknb_mA
      (show fnOf { nb1 with prev := some p } = fnOf nb1 from rfl) x]
    exact fn_store_preserved hpb1 (show fnOf { pb1 with
      size := pb1.size + bb1.size - (sizeofBlockInfo : Int) } = fnOf pb1
      from rfl) x

/-- Inversion of the predecessor-merge phase of `coalesce` (mm.c:217-224)
when the freed block is the last chain block: the predecessor absorbs it and
becomes the chain tail. -/
theorem coalescePrevPhase_free_none_inv
    (t s1 : AllocState) (flt : List Nat) (b p c : Nat) (pbB bbB : Block)
    (hfl : FreeChain t.mem t.free_list_head none flt) (hnd : flt.Nodup)
    (hp : p ∈ flt)
    (hlookp : lookupB t.mem p = some pbB) (hpneg : pbB.size < 0)
    (hlookb : lookupB t.mem b = some bbB)
    (hrun : coalescePrevPhase t b (some p) none = some (s1, c)) :
    c = p ∧
    (∃ blk, lookupB s1.mem p = some blk ∧
      blk.size = pbB.size + bbB.size - (sizeofBlockInfo : Int) ∧
      blk.prev = pbB.prev) ∧
    (∀ o, o ≠ p →
      (lookupB s1.mem o).map psOf = (lookupB t.mem o).map psOf) ∧
    FreeChain s1.mem s1.free_list_head none (flt.erase p) ∧
    s1.heap_size = t.heap_size ∧ s1.malloc_list_tail = some p := by
  obtain ⟨sA, hremS, hflA, hhsA, htlA, hpsA⟩ :=
    removeFreeBlock_spec t flt p hfl hnd hp
  obtain ⟨pb1, hpb1, hpb1s, hpb1p⟩ := lookup_ps_of_frame (hpsA p) hlookp
  obtain ⟨bb1, hbb1, hbb1s, _⟩ := lookup_ps_of_frame (hpsA b) hlookb
  rw [coalescePrevPhase] at hrun
  simp only [Option.bind_eq_bind] at hrun
  rw [hlookp, Option.some_bind, if_pos hpneg, hremS, Option.some_bind,
    hpb1, Option.some_bind, hbb1, Option.some_bind,
    setSize_eq (pb1.size + bb1.size - (sizeofBlockInfo : Int)) hpb1,
    Option.some_bind] at hrun
  simp only [Option.some.injEq, Prod.mk.injEq] at hrun
  obtain ⟨hs1, hc⟩ := hrun
  subst hs1
  subst hc
  refine ⟨rfl, ?_, ?_, ?_, hhsA, rfl⟩
  · exact ⟨{ pb1 with size := pb1.size + bb1.size - (sizeofBlockInfo : Int) },
      lookupB_storeB_self _ _ _, by rw [show ({ pb1 with
        size := pb1.size + bb1.size - (sizeofBlockInfo : Int) } :
        Block).size = pb1.size + bb1.size - (sizeofBlockInfo : Int) from rfl,
        hpb1s, hbb1s], hpb1p⟩
  · intro o hop
    show (lookupB (storeB _ p _) o).map psOf = _
    rw [lookupB_storeB_ne _ _ (Ne.symm hop)]
    exact hpsA o
  · obtain ⟨ep, hsegA⟩ := hflA
    refine ⟨ep, hsegA.congr_free ?_⟩
    intro x _
    exact fn_store_preserved hpb1 (show fnOf { pb1 with
      size := pb1.size + bb1.size - (sizeofBlockInfo : Int) } = fnOf pb1
      from rfl) x

/-- Inversion of the successor-merge phase of `coalesce` (mm.c:227-235)
when the successor `nb` is the last chain block: `cur` absorbs it and
becomes the chain tail. -/
theorem coalesceNextPhase_free_none_inv
    (u u' : AllocState) (flu : List Nat) (cur nb : Nat) (curB nbB : Block)
    (hfl : FreeChain u.mem u.free_list_head none flu) (hnd : flu.Nodup)
    (hnb : nb ∈ flu)
    (hlookc : lookupB u.mem cur = some curB)
    (hlooknb : lookupB u.mem nb = some nbB) (hneg : nbB.size < 0)
    (hcurnb : cur ≠ nb)
    (hhs : u.heap_size ≤ nb + sizeofBlockInfo + nbB.size.natAbs)
    (hrun : coalesceNextPhase u cur (some nb) = some u') :
    (∃ blk, lookupB u'.mem cur = some blk ∧
      blk.size = curB.size + nbB.size - (sizeofBlockInfo : Int) ∧
      blk.prev = curB.prev) ∧
    (∀ o, o ≠ cur →
      (lookupB u'.mem o).map psOf = (lookupB u.mem o).map psOf) ∧
    FreeChain u'.mem u'.free_list_head none (flu.erase nb) ∧
    u'.heap_size = u.heap_size ∧ u'.malloc_list_tail = some cur := by
  obtain ⟨sA, hremS, hflA, hhsA, htlA, hpsA⟩ :=
    removeFreeBlock_spec u flu nb hfl hnd hnb
  obtain ⟨cur1, hcur1, hcur1s, hcur1p⟩ := lookup_ps_of_frame (hpsA cur) hlookc
  obtain ⟨nb1, hnb1, hnb1s, _⟩ := lookup_ps_of_frame (hpsA nb) hlooknb
  have hlooknb_mA : lookupB (storeB sA.mem cur
      { cur1 with size := cur1.size + nb1.size - (sizeofBlockInfo : Int) }) nb
      = some nb1 := by
    rw [lookupB_storeB_ne _ _ hcurnb]; exact hnb1
  have hnatabs : nb1.size.natAbs = nbB.size.natAbs := by rw [hnb1s]
  have hnx : next_block (⟨storeB sA.mem cur { cur1 with
      size := cur1.size + nb1.size - (sizeofBlockInfo : Int) },
      sA.free_list_head, sA.malloc_list_tail, sA.heap_size⟩ : AllocState)
      nb = some none := by
    simp only [next_block, hlooknb_mA, Option.map_some']
    rw [if_pos (show sA.heap_size ≤ nb + sizeofBlockInfo + nb1.size.natAbs by
      rw [hhsA, hnatabs]; exact hhs)]
  rw [coalesceNextPhase] at hrun
  simp only [Option.bind_eq_bind] at hrun
  rw [hlooknb, Option.some_bind, if_pos hneg, hremS, Option.some_bind,
    hcur1, Option.some_bind, hnb1, Option.some_bind,
    setSize_eq (cur1.size + nb1.size - (sizeofBlockInfo : Int)) hcur1,
    Option.some_bind, hnx, Option.some_bind] at hrun
  simp only [Option.some.injEq] at hrun
  subst hrun
  refine ⟨?_, ?_, ?_, hhsA, rfl⟩
  · exact ⟨{ cur1 with
      size := cur1.size + nb1.size - (sizeofBlockInfo : Int) },
      lookupB_storeB_self _ _ _, by rw [show ({ cur1 with
        size := cur1.size + nb1.size - (sizeofBlockInfo : Int) } :
        Block).size = cur1.size + nb1.size - (sizeofBlockInfo : Int) from rfl,
        hcur1s, hnb1s], hcur1p⟩
  · intro o hoc
    show (lookupB (storeB _ cur _) o).map psOf = _
    rw [lookupB_storeB_ne _ _ (Ne.symm hoc)]
    exact hpsA o
  · obtain ⟨ep, hsegA⟩ := hflA
    refine ⟨ep, hsegA.congr_free ?_⟩
    intro x _
    exact fn_store_preserved hcur1 (show fnOf { cur1 with
      size := cur1.size + nb1.size - (sizeofBlockInfo : Int) } = fnOf cur1
      from rfl) x

/-- Inversion of the successor-merge phase of `coalesce` (mm.c:227-235)
when the successor `nb` has its own chain successor `nn`: `cur` absorbs
`nb` and `nn` is repointed to `cur`. -/
theorem coalesceNextPhase_free_some_inv
    (u u' : AllocState) (flu : List Nat) (cur nb nn : Nat)
    (curB nbB nnB : Block)
    (hfl : FreeChain u.mem u.free_list_head none flu) (hnd : flu.Nodup)
    (hnb : nb ∈ flu)
    (hlookc : lookupB u.mem cur = some curB)
    (hlooknb : lookupB u.mem nb = some nbB) (hneg : nbB.size < 0)
    (hcurnb : cur ≠ nb)
    (hnn_eq : nn = nb + sizeofBlockInfo + nbB.size.natAbs)
    (hlooknn : lookupB u.mem nn = some nnB)
    (hnncur : nn ≠ cur) (hnnnb : nn ≠ nb)
    (hlt : ¬ u.heap_size ≤ nb + sizeofBlockInfo + nbB.size.natAbs)
    (hrun : coalesceNextPhase u cur (some nb) = some u') :
    (∃ blk, lookupB u'.mem cur = some blk ∧
      blk.size = curB.size + nbB.size - (sizeofBlockInfo : Int) ∧
      blk.prev = curB.prev) ∧
    (∃ blk, lookupB u'.mem nn = some blk ∧ blk.size = nnB.size ∧
      blk.prev = some cur) ∧
    (∀ o, o ≠ cur → o ≠ nn →
      (lookupB u'.mem o).map psOf = (lookupB u.mem o).map psOf) ∧
    FreeChain u'.mem u'.free_list_head none (flu.erase nb) ∧
    u'.heap_size = u.heap_size ∧ u'.malloc_list_tail = u.malloc_list_tail := by
  obtain ⟨sA, hremS, hflA, hhsA, htlA, hpsA⟩ :=
    removeFreeBlock_spec u flu nb hfl hnd hnb
  obtain ⟨cur1, hcur1, hcur1s, hcur1p⟩ := lookup_ps_of_frame (hpsA cur) hlookc
  obtain ⟨nb1, hnb1, hnb1s, _⟩ := lookup_ps_of_frame (hpsA nb) hlooknb
  obtain ⟨nn1, hnn1, hnn1s, _⟩ := lookup_ps_of_frame (hpsA nn) hlooknn
  have hlooknb_mA : lookupB (storeB sA.mem cur
      { cur1 with size := cur1.size + nb1.size - (sizeofBlockInfo : Int) }) nb
      = some nb1 := by
    rw [lookupB_storeB_ne _ _ hcurnb]; exact hnb1
  have hlooknn_mA : lookupB (storeB sA.mem cur
      { cur1 with size := cur1.size + nb1.size - (sizeofBlockInfo : Int) }) nn
      = some nn1 := by
    rw [lookupB_storeB_ne _ _ (Ne.symm hnncur)]; exact hnn1
  have hnatabs : nb1.size.natAbs = nbB.size.natAbs := by rw [hnb1s]
  have hnx : next_block (⟨storeB sA.mem cur { cur1 with
      size := cur1.size + nb1.size - (sizeofBlockInfo : Int) },
      sA.free_list_head, sA.malloc_list_tail, sA.heap_size⟩ : AllocState)
      nb = some (some nn) := by
    simp only [next_block, hlooknb_mA, Option.map_some']
    rw [if_neg (show ¬ sA.heap_size ≤ nb + sizeofBlockInfo
        + nb1.size.natAbs by rw [hhsA, hnatabs]; exact hlt),
      hnatabs, ← hnn_eq]
  rw [coalesceNextPhase] at hrun
  simp only [Option.bind_eq_bind] at hrun
  rw [hlooknb, Option.some_bind, if_pos hneg, hremS, Option.some_bind,
    hcur1, Option.some_bind, hnb1, Option.some_bind,
    setSize_eq (cur1.size + nb1.size - (sizeofBlockInfo : Int)) hcur1,
    Option.some_bind, hnx, Option.some_bind] at hrun
  simp only [] at hrun
  rw [setPrev_eq (some cur) hlooknn_mA, Option.some_bind] at hrun
  simp only [Option.some.injEq] at hrun
  subst hrun
  refine ⟨?_, ?_, ?_, ?_, hhsA, htlA⟩
  · refine ⟨{ cur1 with
      size := cur1.size + nb1.size - (sizeofBlockInfo : Int) }, ?_, ?_,
      hcur1p⟩
    · show lookupB (storeB _ nn _) cur = _
      rw [lookupB_storeB_ne _ _ hnncur]
      exact lookupB_storeB_self _ _ _
    · show cur1.size + nb1.size - (sizeofBlockInfo : Int) = _
      rw [hcur1s, hnb1s]
  · exact ⟨{ nn1 with prev := some cur }, lookupB_storeB_self _ _ _,
      hnn1s, rfl⟩
  · intro o hoc honn
    show (lookupB (storeB _ nn _) o).map psOf = _
    rw [lookupB_storeB_ne _ _ (Ne.symm honn),
      lookupB_storeB_ne _ _ (Ne.symm hoc)]
    exact hpsA o
  · obtain ⟨ep, hsegA⟩ := hflA
    refine ⟨ep, hsegA.congr_free ?_⟩
    intro x _
    show (lookupB (storeB _ nn _) x).map fnOf = _
    rw [fn_store_preserved hlooknn_mA
      (show fnOf { nn1 with prev := some cur } = fnOf nn1 from rfl) x]
    exact fn_store_preserved hcur1 (show fnOf { cur1 with
      size := cur1.size + nb1.size - (sizeofBlockInfo : Int) } = fnOf cur1
      from rfl) x

/-- `freeAt` only depends on the stored size. -/
theorem freeAt_iff_of_size {m m' : List (Nat × Block)} {y : Nat}
    {blk blk0 : Block} (h' : lookupB m' y = some blk)
    (h : lookupB m y = some blk0) (hsz : blk.size = blk0.size) :
    freeAt m' y ↔ freeAt m y := by
  constructor
  · rintro ⟨bk, hbk, hneg⟩
    rw [h'] at hbk
    obtain rfl : blk = bk := by injection hbk
    exact ⟨blk0, h, by omega⟩
  · rintro ⟨bk, hbk, hneg⟩
    rw [h] at hbk
    obtain rfl : blk0 = bk := by injection hbk
    exact ⟨blk, h', by omega⟩

/-- The last element reported by `getLast?` is a member. -/
theorem mem_of_getLast? {α : Type} {l : List α} {a : α}
    (h : l.getLast? = some a) : a ∈ l := by
  rcases l.eq_nil_or_concat with rfl | ⟨l', b, rfl⟩
  · cases h
  · rw [List.concat_eq_append] at h ⊢
    rw [List.getLast?_concat] at h
    obtain rfl : b = a := by injection h
    exact List.mem_append_right _ (List.mem_cons_self _ _)

/-- Rebuilding the well-formedness invariant after a `free`: the freed (and
possibly merged) block `cur` replaces a stretch of the old chain, every
other block keeps its header, the head of the surviving suffix is repointed
to `cur`, and `cur` is pushed onto the free list.  This covers all merge
shapes of `coalesce`. -/
theorem WF_after_free
    (s s' : AllocState) (C1 rest fl flE : List Nat) (cur : Nat)
    (prvC : Option Nat) (curB' : Block)
    (hseg1 : ChainSeg s.mem 0 none C1 cur prvC)
    (hrestseg : ∃ oldPrv, ChainSeg s.mem
      (cur + sizeofBlockInfo + curB'.size.natAbs) oldPrv rest
      s.heap_size s.malloc_list_tail)
    (hps1 : ∀ o ∈ C1,
      (lookupB s'.mem o).map psOf = (lookupB s.mem o).map psOf)
    (hcur : lookupB s'.mem cur = some curB')
    (hcurprev : curB'.prev = prvC)
    (hcurneg : curB'.size < 0)
    (hcurdvd : (ALIGNMENT : Nat) ∣ curB'.size.natAbs)
    (hhs' : s'.heap_size = s.heap_size)
    (htl_nil : rest = [] → s'.malloc_list_tail = some cur)
    (htl_cons : rest ≠ [] → s'.malloc_list_tail = s.malloc_list_tail)
    (hhead : ∀ y ys, rest = y :: ys → ∃ blk blk0,
      lookupB s'.mem y = some blk ∧ lookupB s.mem y = some blk0 ∧
      blk.size = blk0.size ∧ blk.prev = some cur)
    (hps2 : ∀ o ∈ rest.tail,
      (lookupB s'.mem o).map psOf = (lookupB s.mem o).map psOf)
    (hflok : FreeChain s'.mem s'.free_list_head none (cur :: flE))
    (hndE : flE.Nodup) (hcurE : cur ∉ flE)
    (hflE_chain : ∀ x ∈ flE, x ∈ C1 ++ rest)
    (hmemiff : ∀ o ∈ C1 ++ rest, (o ∈ flE ↔ o ∈ fl))
    (hsign : ∀ o ∈ C1 ++ rest, ∀ blk, lookupB s.mem o = some blk →
      (o ∈ fl ↔ blk.size < 0))
    (hnoAdj1 : C1.Chain' (fun a b => ¬ (freeAt s.mem a ∧ freeAt s.mem b)))
    (hnoAdj2 : rest.Chain' (fun a b => ¬ (freeAt s.mem a ∧ freeAt s.mem b)))
    (hlast : ∀ x, C1.getLast? = some x → ¬ freeAt s.mem x)
    (hheadfree : ∀ y, rest.head? = some y → ¬ freeAt s.mem y)
    (hcurC1 : cur ∉ C1) (hcurrest : cur ∉ rest) :
    WF s' (C1 ++ cur :: rest) (cur :: flE) := by
  obtain ⟨oldPrv, hrseg⟩ := hrestseg
  have hfree1 : ∀ o ∈ C1, (freeAt s'.mem o ↔ freeAt s.mem o) :=
    fun o ho => freeAt_iff_of_ps (hps1 o ho)
  have hfree2 : ∀ o ∈ rest, (freeAt s'.mem o ↔ freeAt s.mem o) := by
    intro o ho
    cases rest with
    | nil => cases ho
    | cons y ys =>
        rcases List.mem_cons.mp ho with rfl | ho'
        · obtain ⟨blk, blk0, hblk, hblk0, hsz, _⟩ := hhead o ys rfl
          exact freeAt_iff_of_size hblk hblk0 hsz
        · exact freeAt_iff_of_ps (hps2 o ho')
  refine ⟨?_, hflok, List.Nodup.cons hcurE hndE, ?_, ?_, ?_⟩
  · -- block chain
    rw [hhs']
    refine ChainSeg.append (hseg1.congr hps1) ?_
    refine ChainSeg.cons cur prvC curB' rest _ _ hcur hcurprev
      (by omega) hcurdvd ?_
    cases rest with
    | nil =>
        obtain ⟨he1, he2⟩ := hrseg.nil_inv
        rw [htl_nil rfl, he1]
        exact ChainSeg.nil _ _
    | cons y ys =>
        obtain ⟨hy, blky0, hblky0, _, hynz0, hydvd0, hrseg2⟩ := hrseg.cons_inv
        rw [← hy] at hblky0 hrseg2
        obtain ⟨blk, blk0, hblk, hblk0, hsz, hprev⟩ := hhead y ys rfl
        rw [hblky0] at hblk0
        obtain rfl : blky0 = blk0 := by injection hblk0
        rw [← hy]
        refine ChainSeg.cons y (some cur) blk ys _ _ hblk hprev
          (by omega) (by rw [hsz]; exact hydvd0) ?_
        rw [show blk.size.natAbs = blky0.size.natAbs from by rw [hsz],
          htl_cons (by simp)]
        exact hrseg2.congr fun o ho => hps2 o ho
  · -- free-list members are chain blocks
    intro x hx
    rcases List.mem_cons.mp hx with rfl | hx'
    · exact List.mem_append_right _ (List.mem_cons_self _ _)
    · rcases List.mem_append.mp (hflE_chain x hx') with h1 | h2
      · exact List.mem_append_left _ h1
      · exact List.mem_append_right _ (List.mem_cons_of_mem _ h2)
  · -- sign iff
    intro o ho blk hblk
    rcases List.mem_append.mp ho with ho1 | ho2
    · have hne : o ≠ cur := fun he => hcurC1 (he ▸ ho1)
      obtain ⟨blk0, hblk0, hsz0, _⟩ :=
        lookup_ps_of_frame (hps1 o ho1).symm hblk
      have hiff := hsign o (List.mem_append_left _ ho1) blk0 hblk0
      have hmem := hmemiff o (List.mem_append_left _ ho1)
      constructor
      · intro hm
        rcases List.mem_cons.mp hm with he | hm'
        · exact absurd he hne
        · have := hiff.mp (hmem.mp hm')
          omega
      · intro hneg
        exact List.mem_cons_of_mem _ (hmem.mpr (hiff.mpr (by omega)))
    · rcases List.mem_cons.mp ho2 with rfl | ho3
      · rw [hcur] at hblk
        obtain rfl : curB' = blk := by injection hblk
        exact ⟨fun _ => hcurneg, fun _ => List.mem_cons_self _ _⟩
      · have hne : o ≠ cur := fun he => hcurrest (he ▸ ho3)
        cases rest with
        | nil => cases ho3
        | cons y ys =>
            rcases List.mem_cons.mp ho3 with rfl | ho4
            · obtain ⟨blky, blk0, hblky, hblk0, hsz, _⟩ := hhead o ys rfl
              rw [hblky] at hblk
              obtain rfl : blky = blk := by injection hblk
              have hin : o ∈ C1 ++ o :: ys :=
                List.mem_append_right _ (List.mem_cons_self _ _)
              have hiff := hsign o hin blk0 hblk0
              have hmem := hmemiff o hin
              constructor
              · intro hm
                rcases List.mem_cons.mp hm with he | hm'
                · exact absurd he hne
                · have := hiff.mp (hmem.mp hm')
                  omega
              · intro hneg
                exact List.mem_cons_of_mem _ (hmem.mpr (hiff.mpr (by omega)))
            · obtain ⟨blk0, hblk0, hsz0, _⟩ :=
                lookup_ps_of_frame (hps2 o ho4).symm hblk
              have hin : o ∈ C1 ++ y :: ys :=
                List.mem_append_right _ (List.mem_cons_of_mem _ ho4)
              have hiff := hsign o hin blk0 hblk0
              have hmem := hmemiff o hin
              constructor
              · intro hm
                rcases List.mem_cons.mp hm with he | hm'
                · exact absurd he hne
                · have := hiff.mp (hmem.mp hm')
                  omega
              · intro hneg
                exact List.mem_cons_of_mem _ (hmem.mpr (hiff.mpr (by omega)))
  · -- no adjacent free blocks
    rw [List.chain'_append]
    refine ⟨?_, ?_, ?_⟩
    · exact chain'_imp_mem (fun a ha bb hb hR hxy => hR
        ⟨(hfree1 a ha).mp hxy.1, (hfree1 bb hb).mp hxy.2⟩) hnoAdj1
    · cases rest with
      | nil => simp
      | cons y ys =>
          refine List.chain'_cons.mpr ⟨?_, ?_⟩
          · rintro ⟨_, hfy⟩
            exact hheadfree y rfl
              ((hfree2 y (List.mem_cons_self _ _)).mp hfy)
          · exact chain'_imp_mem (fun a ha bb hb hR hxy => hR
              ⟨(hfree2 a ha).mp hxy.1, (hfree2 bb hb).mp hxy.2⟩) hnoAdj2
    · intro x hx yy hy
      obtain rfl : cur = yy := by simpa using hy
      rintro ⟨hfx, _⟩
      have hxC1 : x ∈ C1 := mem_of_getLast? (Option.mem_def.mp hx)
      exact hlast x (Option.mem_def.mp hx) ((hfree1 x hxC1).mp hfx)

/-- `coalesce` on a freshly freed block restores well-formedness: the freed
block is merged with a free chain predecessor and/or successor and the
merged block is pushed onto the free list, becoming its head.  `t` is the
post-sign-flip state, `c1 ++ b :: c2` its chain, `fl` its free list (which
does not contain `b` yet). -/
theorem coalesce_preserves
    (t s' : AllocState) (c1 c2 fl : List Nat) (b : Nat) (bb1 : Block)
    (midPrv : Option Nat)
    (hseg1 : ChainSeg t.mem 0 none c1 b midPrv)
    (hlookb : lookupB t.mem b = some bb1)
    (hbprev : bb1.prev = midPrv)
    (hbneg : bb1.size < 0)
    (hbdvd : (ALIGNMENT : Nat) ∣ bb1.size.natAbs)
    (hseg3 : ChainSeg t.mem (b + sizeofBlockInfo + bb1.size.natAbs) (some b)
      c2 t.heap_size t.malloc_list_tail)
    (hfl : FreeChain t.mem t.free_list_head none fl)
    (hnd : fl.Nodup) (hbfl : b ∉ fl)
    (hsub : ∀ x ∈ fl, x ∈ c1 ++ c2)
    (hsign : ∀ o ∈ c1 ++ c2, ∀ blk, lookupB t.mem o = some blk →
      (o ∈ fl ↔ blk.size < 0))
    (hnoAdj1 : c1.Chain' (fun a b' => ¬ (freeAt t.mem a ∧ freeAt t.mem b')))
    (hnoAdj2 : c2.Chain' (fun a b' => ¬ (freeAt t.mem a ∧ freeAt t.mem b')))
    (hrun : coalesce t (some b) = some s') :
    ∃ chain' flE cur, WF s' chain' (cur :: flE) ∧
      s'.free_list_head = some cur := by
  have hKn : sizeofBlockInfo = 16 := rfl
  have hAn : (ALIGNMENT : Nat) = 16 := rfl
  have hK : ((sizeofBlockInfo : Nat) : Int) = 16 := rfl
  have hc1lt : ∀ x ∈ c1, x < b := fun x hx => by
    have := (hseg1.mono.2 x hx).2
    omega
  have hA1 : 0 < bb1.size.natAbs := by omega
  rw [coalesce] at hrun
  simp only [Option.bind_eq_bind] at hrun
  rw [hlookb, Option.some_bind,
    if_neg (by omega : ¬ (0 : Int) ≤ bb1.size)] at hrun
  cases c2 with
  | nil =>
      obtain ⟨hhseq, htleq⟩ := hseg3.nil_inv
      have hnbR : next_block t b = some none := by
        simp only [next_block, hlookb, Option.map_some']
        rw [if_pos (le_of_eq hhseq)]
      rw [hnbR, Option.some_bind] at hrun
      rcases hseg1.last_shape with ⟨hc1nil, hmb, hmpnone⟩ |
        ⟨c1t, pb, hc1eq, hmp⟩
      · -- sole block in the arena: direct insertion
        subst hc1nil
        rw [if_pos ⟨rfl, hbprev.trans hmpnone⟩] at hrun
        obtain ⟨s'', hins, hhead', hflok', hhs', htl', hps'⟩ :=
          insertFreeBlock_spec t fl b bb1 hfl hnd hbfl hlookb
        rw [hins] at hrun
        obtain rfl : s' = s'' := (Option.some.inj hrun).symm
        obtain ⟨bb2, hbb2, hsz2, hpv2⟩ := lookup_ps_of_frame (hps' b) hlookb
        refine ⟨[] ++ b :: [], fl, b, ?_, hhead'⟩
        refine WF_after_free t s' [] [] fl fl b none bb2
          (by rw [hmb]; exact ChainSeg.nil 0 none) ?_
          (fun o ho => absurd ho (List.not_mem_nil o))
          hbb2 (hpv2.trans (hbprev.trans hmpnone)) (by omega)
          (by rw [show bb2.size.natAbs = bb1.size.natAbs from by rw [hsz2]]
              exact hbdvd)
          hhs' (fun _ => htl'.trans htleq) (fun hne => absurd rfl hne)
          (fun y ys h => by cases h)
          (fun o ho => absurd ho (List.not_mem_nil o))
          (by rw [hhead']; exact hflok') hnd hbfl
          (fun x hx => hsub x hx)
          (fun o ho => absurd ho (List.not_mem_nil o))
          (fun o ho => absurd ho (List.not_mem_nil o))
          (by simp) (by simp)
          (fun x hx => by simp at hx)
          (fun y hy => by simp at hy)
          (List.not_mem_nil b) (List.not_mem_nil b)
        refine ⟨t.malloc_list_tail, ?_⟩
        rw [show b + sizeofBlockInfo + bb2.size.natAbs = t.heap_size from by
          rw [show bb2.size.natAbs = bb1.size.natAbs from by rw [hsz2]]
          omega]
        exact ChainSeg.nil _ _
      · -- there is a chain predecessor pb
        subst hc1eq
        subst hmp
        rw [if_neg (by simp [hbprev])] at hrun
        rw [hbprev] at hrun
        obtain ⟨mid2, mp2, hseg1a, hseg1b⟩ := hseg1.append_inv
        obtain ⟨hpbmid, pbB, hlookpb, hpbprev, hpbnz, hpbdvd, hseg1c⟩ :=
          hseg1b.cons_inv
        subst hpbmid
        obtain ⟨hbeq, hmid2⟩ := hseg1c.nil_inv
        have hc1tlt : ∀ x ∈ c1t, x < pb := fun x hx => by
          have := (hseg1a.mono.2 x hx).2
          omega
        obtain ⟨⟨s1, cur⟩, hph1, hrun2⟩ := Option.bind_eq_some.mp hrun
        simp only [] at hrun2
        by_cases hpbfree : pbB.size < 0
        · -- predecessor is free: merge into it
          have hpbfl : pb ∈ fl := (hsign pb (by simp) pbB hlookpb).mpr hpbfree
          obtain ⟨hceq, ⟨pbM, hpbM, hpbMs, hpbMp⟩, hpsm, hflm, hhsm, htlm⟩ :=
            coalescePrevPhase_free_none_inv t s1 fl b pb cur pbB bb1
              hfl hnd hpbfl hlookpb hpbfree hlookb hph1
          obtain rfl : pb = cur := hceq.symm
          rw [show coalesceNextPhase s1 pb none = some s1 from rfl,
            Option.some_bind] at hrun2
          have hpbE : pb ∉ fl.erase pb := fun h =>
            ((List.Nodup.mem_erase_iff hnd).mp h).1 rfl
          obtain ⟨s'', hins, hhead', hflok', hhs'', htl'', hps''⟩ :=
            insertFreeBlock_spec s1 (fl.erase pb) pb pbM hflm (hnd.erase pb)
              hpbE hpbM
          rw [hins] at hrun2
          obtain rfl : s' = s'' := (Option.some.inj hrun2).symm
          obtain ⟨pbF, hpbF, hpbFs, hpbFp⟩ :=
            lookup_ps_of_frame (hps'' pb) hpbM
          have hszF : pbF.size = pbB.size + bb1.size - (sizeofBlockInfo : Int)
            := by rw [hpbFs, hpbMs]
          have habsF : pbF.size.natAbs
              = pbB.size.natAbs + bb1.size.natAbs + 16 := by omega
          refine ⟨c1t ++ pb :: [], fl.erase pb, pb, ?_, hhead'⟩
          refine WF_after_free t s' c1t [] fl (fl.erase pb) pb mp2 pbF
            hseg1a ?_
            (fun o ho => (hps'' o).trans (hpsm o (by
              have := hc1tlt o ho; omega)))
            hpbF (hpbFp.trans (hpbMp.trans hpbprev)) (by omega)
            (by have h1 := hpbdvd
                have h2 := hbdvd
                rw [hAn] at h1 h2 ⊢
                omega)
            (hhs''.trans hhsm) (fun _ => htl''.trans htlm)
            (fun hne => absurd rfl hne)
            (fun y ys h => by cases h)
            (fun o ho => absurd ho (List.not_mem_nil o))
            (by rw [hhead']; exact hflok') (hnd.erase pb) hpbE
            ?_ ?_ ?_
            ((List.chain'_append.mp hnoAdj1).1) (by simp)
            ?_ (fun y hy => by simp at hy)
            (fun h => by have := hc1tlt pb h; omega)
            (List.not_mem_nil pb)
          · refine ⟨t.malloc_list_tail, ?_⟩
            rw [show pb + sizeofBlockInfo + pbF.size.natAbs = t.heap_size
              from by omega]
            exact ChainSeg.nil _ _
          · intro x hx
            obtain ⟨hxne, hxfl⟩ := (List.Nodup.mem_erase_iff hnd).mp hx
            rcases List.mem_append.mp (hsub x hxfl) with h1 | h2
            · rcases List.mem_append.mp h1 with h1a | h1b
              · exact List.mem_append_left _ h1a
              · obtain rfl : x = pb := by simpa using h1b
                exact absurd rfl hxne
            · cases h2
          · intro o ho
            rcases List.mem_append.mp ho with h1 | h2
            · exact List.mem_erase_of_ne (by have := hc1tlt o h1; omega)
            · cases h2
          · intro o ho blk hblk
            rcases List.mem_append.mp ho with h1 | h2
            · exact hsign o (List.mem_append_left _
                (List.mem_append_left _ h1)) blk hblk
            · simp at h2
          · intro x hx
            rintro ⟨blkx, hblkx, hnegx⟩
            exact ((List.chain'_append.mp hnoAdj1).2.2 x hx pb (by simp))
              ⟨⟨blkx, hblkx, hnegx⟩, ⟨pbB, hlookpb, hpbfree⟩⟩
        · -- predecessor allocated: no merge, direct insertion of b
          have hph1v : coalescePrevPhase t b (some pb) none = some (t, b) := by
            rw [coalescePrevPhase]
            simp only [Option.bind_eq_bind]
            rw [hlookpb, Option.some_bind, if_neg hpbfree]
          obtain ⟨heq1, heq2⟩ : t = s1 ∧ b = cur := by
            have h2 := hph1v.symm.trans hph1
            simp only [Option.some.injEq, Prod.mk.injEq] at h2
            exact h2
          subst heq1
          subst heq2
          rw [show coalesceNextPhase t b none = some t from rfl,
            Option.some_bind] at hrun2
          obtain ⟨s'', hins, hhead', hflok', hhs', htl', hps'⟩ :=
            insertFreeBlock_spec t fl b bb1 hfl hnd hbfl hlookb
          rw [hins] at hrun2
          obtain rfl : s' = s'' := (Option.some.inj hrun2).symm
          obtain ⟨bb2, hbb2, hsz2, hpv2⟩ := lookup_ps_of_frame (hps' b) hlookb
          refine ⟨(c1t ++ [pb]) ++ b :: [], fl, b, ?_, hhead'⟩
          refine WF_after_free t s' (c1t ++ [pb]) [] fl fl b (some pb) bb2
            hseg1 ?_ (fun o _ => hps' o)
            hbb2 (hpv2.trans hbprev) (by omega)
            (by rw [show bb2.size.natAbs = bb1.size.natAbs from by rw [hsz2]]
                exact hbdvd)
            hhs' (fun _ => htl'.trans htleq) (fun hne => absurd rfl hne)
            (fun y ys h => by cases h)
            (fun o ho => absurd ho (List.not_mem_nil o))
            (by rw [hhead']; exact hflok') hnd hbfl
            (fun x hx => hsub x hx)
            (fun o _ => Iff.rfl)
            (fun o ho blk hblk => hsign o ho blk hblk)
            hnoAdj1 (by simp)
            ?_ (fun y hy => by simp at hy)
            (fun h => by have := hc1lt b h; omega)
            (List.not_mem_nil b)
          · refine ⟨t.malloc_list_tail, ?_⟩
            rw [show b + sizeofBlockInfo + bb2.size.natAbs = t.heap_size
              from by
                rw [show bb2.size.natAbs = bb1.size.natAbs from by rw [hsz2]]
                omega, htleq]
            exact ChainSeg.nil _ _
          · intro x hx
            rw [List.getLast?_concat] at hx
            obtain rfl : pb = x := by injection hx
            rintro ⟨blk, hblk, hneg⟩
            rw [hlookpb] at hblk
            obtain rfl : pbB = blk := by injection hblk
            omega
  | cons nx c2r =>
      obtain ⟨hnxeq, nxB, hlooknx, hnxprev, hnxnz, hnxdvd, hseg4⟩ :=
        hseg3.cons_inv
      rw [← hnxeq] at hlooknx hseg4
      have hmono4 := hseg3.mono.2 nx (List.mem_cons_self _ _)
      have hnbR : next_block t b = some (some nx) := by
        simp only [next_block, hlookb, Option.map_some']
        rw [if_neg (by omega), hnxeq]
      rw [hnbR, Option.some_bind] at hrun
      rw [if_neg (by simp)] at hrun
      have hbnx : b < nx := by omega
      have hc2rge : ∀ x ∈ c2r, nx + sizeofBlockInfo + nxB.size.natAbs ≤ x :=
        fun x hx => (hseg4.mono.2 x hx).1
      obtain ⟨⟨s1, cur⟩, hph1, hrun2⟩ := Option.bind_eq_some.mp hrun
      simp only [] at hrun2
      -- summary of the predecessor phase, uniform over its three cases
      have hsummary : ∃ C1 flm curB1 prvC,
          ChainSeg t.mem 0 none C1 cur prvC ∧
          lookupB s1.mem cur = some curB1 ∧
          curB1.prev = prvC ∧
          curB1.size < 0 ∧
          (ALIGNMENT : Nat) ∣ curB1.size.natAbs ∧
          cur + sizeofBlockInfo + curB1.size.natAbs
            = b + sizeofBlockInfo + bb1.size.natAbs ∧
          (∀ o, o ≠ cur → o ≠ nx →
            (lookupB s1.mem o).map psOf = (lookupB t.mem o).map psOf) ∧
          (∃ nxM, lookupB s1.mem nx = some nxM ∧ nxM.size = nxB.size ∧
            nxM.prev = some cur) ∧
          FreeChain s1.mem s1.free_list_head none flm ∧
          flm.Nodup ∧ cur ∉ flm ∧
          (∀ o ∈ C1 ++ nx :: c2r, (o ∈ flm ↔ o ∈ fl)) ∧
          (∀ o ∈ C1, o ∈ c1) ∧
          (∀ x, C1.getLast? = some x → ¬ freeAt t.mem x) ∧
          C1.Chain' (fun a b' => ¬ (freeAt t.mem a ∧ freeAt t.mem b')) ∧
          cur ∉ C1 ∧ cur ≤ b ∧
          s1.heap_size = t.heap_size ∧
          s1.malloc_list_tail = t.malloc_list_tail ∧
          (∀ x ∈ flm, x ∈ C1 ++ nx :: c2r) := by
        rcases hseg1.last_shape with ⟨hc1nil, hmb, hmpnone⟩ |
          ⟨c1t, pb, hc1eq, hmp⟩
        · -- no predecessor
          subst hc1nil
          rw [hbprev, hmpnone] at hph1
          obtain ⟨heq1, heq2⟩ : t = s1 ∧ b = cur := by
            have h2 := (show coalescePrevPhase t b none (some nx)
              = some (t, b) from rfl).symm.trans hph1
            simp only [Option.some.injEq, Prod.mk.injEq] at h2
            exact h2
          subst heq1
          subst heq2
          refine ⟨[], fl, bb1, none, ?_, hlookb, hbprev.trans hmpnone,
            hbneg, hbdvd, rfl, fun o _ _ => rfl,
            ⟨nxB, hlooknx, rfl, hnxprev⟩, hfl, hnd, hbfl,
            fun o _ => Iff.rfl, fun o ho => absurd ho (List.not_mem_nil o),
            fun x hx => absurd hx (by simp),
            by simp, List.not_mem_nil b, le_rfl, rfl, rfl, ?_⟩
          · rw [hmb]
            exact ChainSeg.nil 0 none
          · intro x hx
            rcases List.mem_append.mp (hsub x hx) with h1 | h2
            · cases h1
            · exact List.mem_append_right _ h2
        · -- predecessor pb exists
          subst hc1eq
          subst hmp
          rw [hbprev] at hph1
          obtain ⟨mid2, mp2, hseg1a, hseg1b⟩ := hseg1.append_inv
          obtain ⟨hpbmid, pbB, hlookpb, hpbprev, hpbnz, hpbdvd, hseg1c⟩ :=
            hseg1b.cons_inv
          subst hpbmid
          obtain ⟨hbeq, hmid2⟩ := hseg1c.nil_inv
          have hc1tlt : ∀ x ∈ c1t, x < pb := fun x hx => by
            have := (hseg1a.mono.2 x hx).2
            omega
          by_cases hpbfree : pbB.size < 0
          · -- free predecessor: merge
            have hpbfl : pb ∈ fl :=
              (hsign pb (List.mem_append_left _ (by simp)) pbB hlookpb).mpr
                hpbfree
            obtain ⟨hceq, ⟨pbM, hpbM, hpbMs, hpbMp⟩,
                ⟨nxM, hnxM, hnxMs, hnxMp⟩, hpsm, hflm, hhsm, htlm⟩ :=
              coalescePrevPhase_free_some_inv t s1 fl b pb nx cur pbB bb1 nxB
                hfl hnd hpbfl hlookpb hpbfree hlookb hlooknx
                (by omega) hph1
            obtain rfl : pb = cur := hceq.symm
            have hpbE : pb ∉ fl.erase pb := fun h =>
              ((List.Nodup.mem_erase_iff hnd).mp h).1 rfl
            refine ⟨c1t, fl.erase pb, pbM, mp2, hseg1a, hpbM,
              hpbMp.trans hpbprev, by omega, ?_, by omega, hpsm,
              ⟨nxM, hnxM, hnxMs, hnxMp⟩, hflm, hnd.erase pb, hpbE,
              ?_, fun o ho => List.mem_append_left _ ho,
              ?_, (List.chain'_append.mp hnoAdj1).1,
              fun h => by have := hc1tlt pb h; omega, by omega,
              hhsm, htlm, ?_⟩
            · have h1 := hpbdvd
              have h2 := hbdvd
              rw [hAn] at h1 h2 ⊢
              have h3 : pbM.size = pbB.size + bb1.size
                - (sizeofBlockInfo : Int) := hpbMs
              omega
            · intro o ho
              refine List.mem_erase_of_ne ?_
              rcases List.mem_append.mp ho with h1 | h2
              · have := hc1tlt o h1
                omega
              · rcases List.mem_cons.mp h2 with rfl | h3
                · omega
                · have := hc2rge o h3
                  omega
            · intro x hx
              rintro ⟨blkx, hblkx, hnegx⟩
              exact ((List.chain'_append.mp hnoAdj1).2.2 x hx pb (by simp))
                ⟨⟨blkx, hblkx, hnegx⟩, ⟨pbB, hlookpb, hpbfree⟩⟩
            · intro x hx
              obtain ⟨hxne, hxfl⟩ := (List.Nodup.mem_erase_iff hnd).mp hx
              rcases List.mem_append.mp (hsub x hxfl) with h1 | h2
              · rcases List.mem_append.mp h1 with h1a | h1b
                · exact List.mem_append_left _ h1a
                · obtain rfl : x = pb := by simpa using h1b
                  exact absurd rfl hxne
              · exact List.mem_append_right _ h2
          · -- allocated predecessor: no merge
            have hph1v : coalescePrevPhase t b (some pb) (some nx)
                = some (t, b) := by
              rw [coalescePrevPhase]
              simp only [Option.bind_eq_bind]
              rw [hlookpb, Option.some_bind, if_neg hpbfree]
            obtain ⟨heq1, heq2⟩ : t = s1 ∧ b = cur := by
              have h2 := hph1v.symm.trans hph1
              simp only [Option.some.injEq, Prod.mk.injEq] at h2
              exact h2
            subst heq1
            subst heq2
            refine ⟨c1t ++ [pb], fl, bb1, some pb, hseg1, hlookb, hbprev,
              hbneg, hbdvd, rfl, fun o _ _ => rfl,
              ⟨nxB, hlooknx, rfl, hnxprev⟩, hfl, hnd, hbfl,
              fun o _ => Iff.rfl, fun o ho => ho,
              ?_, hnoAdj1,
              fun h => by have := hc1lt b h; omega, le_rfl, rfl, rfl,
              fun x hx => hsub x hx⟩
            intro x hx
            rw [List.getLast?_concat] at hx
            obtain rfl : pb = x := by injection hx
            rintro ⟨blk, hblk, hneg⟩
            rw [hlookpb] at hblk
            obtain rfl : pbB = blk := by injection hblk
            omega
      obtain ⟨C1, flm, curB1, prvC, hsegC, hlookcur, hcurprev, hcurneg,
        hcurdvd, hidx, hfr1, ⟨nxM, hnxM, hnxMs, hnxMp⟩, hflm, hndm, hcurm,
        hmemiffm, hC1sub, hlastm, hadjm, hcurC1m, hcurleb, hhs1, htl1,
        hflmsub⟩ := hsummary
      have hnxflm_iff : nx ∈ flm ↔ nx ∈ fl :=
        hmemiffm nx (List.mem_append_right _ (List.mem_cons_self _ _))
      have hcurnx : cur ≠ nx := by omega
      obtain ⟨s2, hph2, hrun3⟩ := Option.bind_eq_some.mp hrun2
      by_cases hnxfree : nxB.size < 0
      · -- free successor: merge it into cur
        have hnxfl : nx ∈ fl :=
          (hsign nx (List.mem_append_right _ (List.mem_cons_self _ _)) nxB
            hlooknx).mpr hnxfree
        have hnxflm : nx ∈ flm := hnxflm_iff.mpr hnxfl
        have hnxMneg : nxM.size < 0 := by omega
        have hcurE2 : cur ∉ flm.erase nx := fun h =>
          hcurm ((List.Nodup.mem_erase_iff hndm).mp h).2
        cases c2r with
        | nil =>
            obtain ⟨hhseq4, htleq4⟩ := hseg4.nil_inv
            obtain ⟨⟨curM, hcurM, hcurMs, hcurMp⟩, hps2f, hflm2, hhs2,
                htl2⟩ :=
              coalesceNextPhase_free_none_inv s1 s2 flm cur nx curB1 nxM
                hflm hndm hnxflm hlookcur hnxM hnxMneg hcurnx
                (by rw [hhs1, show nxM.size.natAbs = nxB.size.natAbs from
                  by rw [hnxMs]]
                    omega) hph2
            obtain ⟨s'', hins, hhead', hflok', hhs3, htl3, hps3⟩ :=
              insertFreeBlock_spec s2 (flm.erase nx) cur curM hflm2
                (hndm.erase nx) hcurE2 hcurM
            rw [hins] at hrun3
            obtain rfl : s' = s'' := (Option.some.inj hrun3).symm
            obtain ⟨curF, hcurF, hcurFs, hcurFp⟩ :=
              lookup_ps_of_frame (hps3 cur) hcurM
            have hszF : curF.size
                = curB1.size + nxB.size - (sizeofBlockInfo : Int) := by
              rw [hcurFs, hcurMs, hnxMs]
            have habsF : curF.size.natAbs
                = curB1.size.natAbs + nxB.size.natAbs + 16 := by omega
            refine ⟨C1 ++ cur :: [], flm.erase nx, cur, ?_, hhead'⟩
            refine WF_after_free t s' C1 [] fl (flm.erase nx) cur prvC curF
              hsegC ?_ ?_ hcurF (hcurFp.trans (hcurMp.trans hcurprev))
              (by omega) ?_ (hhs3.trans (hhs2.trans hhs1))
              (fun _ => htl3.trans htl2) (fun hne => absurd rfl hne)
              (fun y ys h => by cases h)
              (fun o ho => absurd ho (List.not_mem_nil o))
              (by rw [hhead']; exact hflok') (hndm.erase nx) hcurE2
              ?_ ?_ ?_ hadjm (by simp) hlastm
              (fun y hy => by simp at hy) hcurC1m (List.not_mem_nil cur)
            · refine ⟨t.malloc_list_tail, ?_⟩
              rw [show cur + sizeofBlockInfo + curF.size.natAbs
                = t.heap_size from by omega]
              exact ChainSeg.nil _ _
            · intro o ho
              have hone : o ≠ cur := fun he => hcurC1m (he ▸ ho)
              have hob := hc1lt o (hC1sub o ho)
              exact (hps3 o).trans ((hps2f o hone).trans
                (hfr1 o hone (by omega)))
            · have h1 := hcurdvd
              have h2 := hnxdvd
              rw [hAn] at h1 h2 ⊢
              omega
            · intro x hx
              obtain ⟨hxne, hxflm⟩ := (List.Nodup.mem_erase_iff hndm).mp hx
              rcases List.mem_append.mp (hflmsub x hxflm) with h1 | h2
              · exact List.mem_append_left _ h1
              · rcases List.mem_cons.mp h2 with rfl | h3
                · exact absurd rfl hxne
                · cases h3
            · intro o ho
              have ho1 : o ∈ C1 := by
                rcases List.mem_append.mp ho with h1 | h2
                · exact h1
                · cases h2
              have honx : o ≠ nx := by
                have := hc1lt o (hC1sub o ho1)
                omega
              rw [List.mem_erase_of_ne honx]
              exact hmemiffm o (List.mem_append_left _ ho1)
            · intro o ho blk hblk
              have ho1 : o ∈ C1 := by
                rcases List.mem_append.mp ho with h1 | h2
                · exact h1
                · cases h2
              exact hsign o (List.mem_append_left _ (hC1sub o ho1)) blk hblk
        | cons nn c2rr =>
            obtain ⟨hnneq, nnB, hlooknn, hnnprev, hnnnz, hnndvd, hseg5⟩ :=
              hseg4.cons_inv
            rw [← hnneq] at hlooknn hseg5
            have hmono5 := hseg4.mono.2 nn (List.mem_cons_self _ _)
            have hnngt : nx < nn := by omega
            have hc2rrge : ∀ x ∈ c2rr,
                nn + sizeofBlockInfo + nnB.size.natAbs ≤ x :=
              fun x hx => (hseg5.mono.2 x hx).1
            obtain ⟨nnM, hnnM, hnnMs, hnnMp⟩ :=
              lookup_ps_of_frame (hfr1 nn (by omega) (by omega)) hlooknn
            obtain ⟨⟨curM, hcurM, hcurMs, hcurMp⟩,
                ⟨nnF2, hnnF2, hnnF2s, hnnF2p⟩, hps2f, hflm2, hhs2, htl2⟩ :=
              coalesceNextPhase_free_some_inv s1 s2 flm cur nx nn curB1 nxM
                nnM hflm hndm hnxflm hlookcur hnxM hnxMneg hcurnx
                (by rw [show nxM.size.natAbs = nxB.size.natAbs from by
                  rw [hnxMs]]
                    exact hnneq)
                hnnM (by omega) (by omega)
                (by rw [hhs1, show nxM.size.natAbs = nxB.size.natAbs from by
                  rw [hnxMs]]
                    omega)
                hph2
            obtain ⟨s'', hins, hhead', hflok', hhs3, htl3, hps3⟩ :=
              insertFreeBlock_spec s2 (flm.erase nx) cur curM hflm2
                (hndm.erase nx) hcurE2 hcurM
            rw [hins] at hrun3
            obtain rfl : s' = s'' := (Option.some.inj hrun3).symm
            obtain ⟨curF, hcurF, hcurFs, hcurFp⟩ :=
              lookup_ps_of_frame (hps3 cur) hcurM
            have hszF : curF.size
                = curB1.size + nxB.size - (sizeofBlockInfo : Int) := by
              rw [hcurFs, hcurMs, hnxMs]
            have habsF : curF.size.natAbs
                = curB1.size.natAbs + nxB.size.natAbs + 16 := by omega
            obtain ⟨nnF, hnnF, hnnFs, hnnFp⟩ :=
              lookup_ps_of_frame (hps3 nn) hnnF2
            refine ⟨C1 ++ cur :: nn :: c2rr, flm.erase nx, cur, ?_, hhead'⟩
            refine WF_after_free t s' C1 (nn :: c2rr) fl (flm.erase nx) cur
              prvC curF hsegC ?_ ?_ hcurF
              (hcurFp.trans (hcurMp.trans hcurprev)) (by omega) ?_
              (hhs3.trans (hhs2.trans hhs1))
              (fun h => by cases h)
              (fun _ => htl3.trans (htl2.trans htl1))
              ?_ ?_ (by rw [hhead']; exact hflok') (hndm.erase nx) hcurE2
              ?_ ?_ ?_ hadjm ((List.chain'_cons.mp hnoAdj2).2) hlastm
              ?_ hcurC1m ?_
            · refine ⟨some nx, ?_⟩
              rw [show cur + sizeofBlockInfo + curF.size.natAbs
                = nx + sizeofBlockInfo + nxB.size.natAbs from by omega]
              exact hseg4
            · intro o ho
              have hone : o ≠ cur := fun he => hcurC1m (he ▸ ho)
              have hob := hc1lt o (hC1sub o ho)
              exact (hps3 o).trans ((hps2f o hone (by omega)).trans
                (hfr1 o hone (by omega)))
            · have h1 := hcurdvd
              have h2 := hnxdvd
              rw [hAn] at h1 h2 ⊢
              omega
            · intro y ys h
              injection h with h1 h2
              subst h1
              subst h2
              exact ⟨nnF, nnB, hnnF, hlooknn,
                by rw [hnnFs, hnnF2s, hnnMs], hnnFp.trans hnnF2p⟩
            · intro o ho
              have hoge := hc2rrge o ho
              exact (hps3 o).trans ((hps2f o (by omega) (by omega)).trans
                (hfr1 o (by omega) (by omega)))
            · intro x hx
              obtain ⟨hxne, hxflm⟩ := (List.Nodup.mem_erase_iff hndm).mp hx
              rcases List.mem_append.mp (hflmsub x hxflm) with h1 | h2
              · exact List.mem_append_left _ h1
              · rcases List.mem_cons.mp h2 with rfl | h3
                · exact absurd rfl hxne
                · exact List.mem_append_right _ h3
            · intro o ho
              have honx : o ≠ nx := by
                rcases List.mem_append.mp ho with h1 | h2
                · have := hc1lt o (hC1sub o h1)
                  omega
                · rcases List.mem_cons.mp h2 with rfl | h3
                  · omega
                  · have := hc2rrge o h3
                    omega
              rw [List.mem_erase_of_ne honx]
              refine hmemiffm o ?_
              rcases List.mem_append.mp ho with h1 | h2
              · exact List.mem_append_left _ h1
              · exact List.mem_append_right _ (List.mem_cons_of_mem _ h2)
            · intro o ho blk hblk
              refine hsign o ?_ blk hblk
              rcases List.mem_append.mp ho with h1 | h2
              · exact List.mem_append_left _ (hC1sub o h1)
              · exact List.mem_append_right _ (List.mem_cons_of_mem _ h2)
            · intro y hy
              obtain rfl : nn = y := by simpa using hy
              exact fun hfr => (List.chain'_cons.mp hnoAdj2).1
                ⟨⟨nxB, hlooknx, hnxfree⟩, hfr⟩
            · intro h
              rcases List.mem_cons.mp h with he | h3
              · omega
              · have := hc2rrge cur h3
                omega
      · -- allocated successor: no merge
        have hph2v : coalesceNextPhase s1 cur (some nx) = some s1 := by
          rw [coalesceNextPhase]
          simp only [Option.bind_eq_bind]
          rw [hnxM, Option.some_bind, if_neg (by omega)]
        obtain rfl : s1 = s2 := by
          have h2 := hph2v.symm.trans hph2
          injection h2
        obtain ⟨s'', hins, hhead', hflok', hhs3, htl3, hps3⟩ :=
          insertFreeBlock_spec s1 flm cur curB1 hflm hndm hcurm hlookcur
        rw [hins] at hrun3
        obtain rfl : s' = s'' := (Option.some.inj hrun3).symm
        obtain ⟨curF, hcurF, hcurFs, hcurFp⟩ :=
          lookup_ps_of_frame (hps3 cur) hlookcur
        obtain ⟨nxF, hnxF, hnxFs, hnxFp⟩ := lookup_ps_of_frame (hps3 nx) hnxM
        refine ⟨C1 ++ cur :: nx :: c2r, flm, cur, ?_, hhead'⟩
        refine WF_after_free t s' C1 (nx :: c2r) fl flm cur prvC curF
          hsegC ?_ ?_ hcurF (hcurFp.trans hcurprev) (by omega) ?_
          (hhs3.trans hhs1)
          (fun h => by cases h) (fun _ => htl3.trans htl1)
          ?_ ?_ (by rw [hhead']; exact hflok') hndm hcurm
          hflmsub hmemiffm ?_ hadjm hnoAdj2 hlastm
          ?_ hcurC1m ?_
        · refine ⟨some b, ?_⟩
          rw [show cur + sizeofBlockInfo + curF.size.natAbs
            = b + sizeofBlockInfo + bb1.size.natAbs from by omega]
          exact hseg3
        · intro o ho
          have hone : o ≠ cur := fun he => hcurC1m (he ▸ ho)
          have hob := hc1lt o (hC1sub o ho)
          exact (hps3 o).trans (hfr1 o hone (by omega))
        · have h1 := hcurdvd
          rw [hAn] at h1 ⊢
          omega
        · intro y ys h
          injection h with h1 h2
          subst h1
          subst h2
          exact ⟨nxF, nxB, hnxF, hlooknx, by rw [hnxFs, hnxMs],
            hnxFp.trans hnxMp⟩
        · intro o ho
          have hoge := hc2rge o ho
          exact (hps3 o).trans (hfr1 o (by omega) (by omega))
        · intro o ho blk hblk
          refine hsign o ?_ blk hblk
          rcases List.mem_append.mp ho with h1 | h2
          · exact List.mem_append_left _ (hC1sub o h1)
          · exact List.mem_append_right _ h2
        · intro y hy
          obtain rfl : nx = y := by simpa using hy
          rintro ⟨blk, hblk, hneg⟩
          rw [hlooknx] at hblk
          obtain rfl : nxB = blk := by injection hblk
          omega
        · intro h
          rcases List.mem_cons.mp h with he | h3
          · omega
          · have := hc2rge cur h3
            omega

/-- `mm_free` of a valid payload pointer preserves well-formedness: the
state stays tiled by a chain, the freed (possibly merged) block becomes the
free-list head, and it appears in the free list exactly once. -/
theorem mm_free_preserves {s s' : AllocState} {chain fl : List Nat} {p : Nat}
    (hwf : WF s chain fl) (hok : FreeOK s p)
    (hrun : mm_free s (some p) = some s') :
    ∃ chain' flE cur, WF s' chain' (cur :: flE) ∧
      s'.free_list_head = some cur := by
  obtain ⟨hple, hchain0, bb0, hlookb0, hbb0pos⟩ := hok
  have hKn : sizeofBlockInfo = 16 := rfl
  have hbchain : (p - sizeofBlockInfo) ∈ chain := by
    rw [← chainOf_eq hwf]
    exact hchain0
  rw [mm_free] at hrun
  rw [if_neg (by omega : ¬ p < sizeofBlockInfo)] at hrun
  simp only [Option.bind_eq_bind, hlookb0, Option.some_bind,
    setSize_eq (-bb0.size) hlookb0, Option.some_bind] at hrun
  have hbfl : (p - sizeofBlockInfo) ∉ fl := fun h => by
    have := (hwf.signIff _ hbchain bb0 hlookb0).mp h
    omega
  obtain ⟨c1, c2, hchaineq⟩ := List.append_of_mem hbchain
  subst hchaineq
  obtain ⟨mid, midPrv, hseg1, hseg2⟩ := hwf.chainOk.append_inv
  obtain ⟨hmid, bb0', hbb0', hbprev, hbnz, hbdvd, hseg3⟩ := hseg2.cons_inv
  subst hmid
  rw [hlookb0] at hbb0'
  obtain rfl : bb0 = bb0' := by injection hbb0'
  have hc1lt : ∀ x ∈ c1, x < p - sizeofBlockInfo := fun x hx => by
    have := (hseg1.mono.2 x hx).2
    omega
  have hc2ge : ∀ x ∈ c2,
      p - sizeofBlockInfo + sizeofBlockInfo + bb0.size.natAbs ≤ x :=
    fun x hx => (hseg3.mono.2 x hx).1
  have hpsR : ∀ o, o ≠ p - sizeofBlockInfo →
      lookupB (storeB s.mem (p - sizeofBlockInfo)
        { bb0 with size := -bb0.size }) o = lookupB s.mem o :=
    fun o ho => lookupB_storeB_ne _ _ (Ne.symm ho)
  have hpsmapR : ∀ o, o ≠ p - sizeofBlockInfo →
      (lookupB (storeB s.mem (p - sizeofBlockInfo)
        { bb0 with size := -bb0.size }) o).map psOf
        = (lookupB s.mem o).map psOf :=
    fun o ho => by rw [hpsR o ho]
  refine coalesce_preserves
    ⟨storeB s.mem (p - sizeofBlockInfo) { bb0 with size := -bb0.size },
      s.free_list_head, s.malloc_list_tail, s.heap_size⟩
    s' c1 c2 fl (p - sizeofBlockInfo) { bb0 with size := -bb0.size } midPrv
    ?_ (lookupB_storeB_self _ _ _) hbprev
    (by show -bb0.size < 0; omega)
    (by show (ALIGNMENT : Nat) ∣ (-bb0.size).natAbs
        rw [Int.natAbs_neg]
        exact hbdvd)
    ?_ ?_ hwf.flNodup hbfl ?_ ?_ ?_ ?_ hrun
  · exact hseg1.congr fun o ho => hpsmapR o (by have := hc1lt o ho; omega)
  · -- the suffix segment, transported along the sign flip
    show ChainSeg _ (p - sizeofBlockInfo + sizeofBlockInfo
      + (-bb0.size).natAbs) _ c2 _ _
    rw [Int.natAbs_neg]
    exact hseg3.congr fun o ho => hpsmapR o (by have := hc2ge o ho; omega)
  · -- free list unchanged by the sign flip
    obtain ⟨ep, hseg⟩ := hwf.flOk
    exact ⟨ep, hseg.congr_free fun o _ => fn_store_preserved hlookb0
      (show fnOf { bb0 with size := -bb0.size } = fnOf bb0 from rfl) o⟩
  · -- free-list members lie in c1 ++ c2
    intro x hx
    rcases List.mem_append.mp (hwf.flSub x hx) with h1 | h2
    · exact List.mem_append_left _ h1
    · rcases List.mem_cons.mp h2 with rfl | h3
      · exact absurd hx hbfl
      · exact List.mem_append_right _ h3
  · -- sign characterization away from the freed block
    intro o ho blk hblk
    have hne : o ≠ p - sizeofBlockInfo := by
      rcases List.mem_append.mp ho with h1 | h2
      · have := hc1lt o h1
        omega
      · have := hc2ge o h2
        omega
    rw [hpsR o hne] at hblk
    refine hwf.signIff o ?_ blk hblk
    rcases List.mem_append.mp ho with h1 | h2
    · exact List.mem_append_left _ h1
    · exact List.mem_append_right _ (List.mem_cons_of_mem _ h2)
  · -- no adjacent free pair inside c1
    refine chain'_imp_mem ?_ (List.chain'_append.mp hwf.noAdj).1
    intro a ha b' hb' hR hxy
    refine hR ⟨?_, ?_⟩
    · exact (freeAt_iff_of_ps (hpsmapR a
        (by have := hc1lt a ha; omega))).mp hxy.1
    · exact (freeAt_iff_of_ps (hpsmapR b'
        (by have := hc1lt b' hb'; omega))).mp hxy.2
  · -- no adjacent free pair inside c2
    refine chain'_imp_mem ?_ ((List.chain'_append.mp hwf.noAdj).2.1).tail
    intro a ha b' hb' hR hxy
    refine hR ⟨?_, ?_⟩
    · exact (freeAt_iff_of_ps (hpsmapR a
        (by have := hc2ge a ha; omega))).mp hxy.1
    · exact (freeAt_iff_of_ps (hpsmapR b'
        (by have := hc2ge b' hb'; omega))).mp hxy.2

/-- Every reachable allocator state is well-formed. -/
theorem reach_wf {s : AllocState} (h : Reach s) :
    ∃ chain fl, WF s chain fl := by
  induction h with
  | start =>
      exact ⟨[], [], ChainSeg.nil 0 none, ⟨none, FreeSeg.nil none none⟩,
        List.Pairwise.nil, fun x hx => absurd hx (List.not_mem_nil x),
        fun o ho => absurd ho (List.not_mem_nil o), List.chain'_nil⟩
  | reinit s hr ih =>
      exact ⟨[], [], ChainSeg.nil 0 none, ⟨none, FreeSeg.nil none none⟩,
        List.Pairwise.nil, fun x hx => absurd hx (List.not_mem_nil x),
        fun o ho => absurd ho (List.not_mem_nil o), List.chain'_nil⟩
  | alloc s s' n r hr hrun ih =>
      obtain ⟨chain, fl, hwf⟩ := ih
      obtain ⟨c', f', hwf', _⟩ := mm_malloc_preserves hwf hrun
      exact ⟨c', f', hwf'⟩
  | dealloc s s' p hr hok hrun ih =>
      obtain ⟨chain, fl, hwf⟩ := ih
      obtain ⟨c', fE, cur, hwf', _⟩ := mm_free_preserves hwf hok hrun
      exact ⟨c', cur :: fE, hwf'⟩

/-- C1: in every reachable state, after any `free` call returns, no two
address-adjacent blocks of the block chain are both free (coalescing merges
the freshly freed block with its free predecessor and/or free successor,
covering the predecessor-only, successor-only, both, and zero-neighbor
cases), and the final merged block is inserted into the free list exactly
once, as its head — no double insertion or double membership. -/
theorem free_coalesces_maximally {s s' : AllocState} {p : Nat}
    (hs : Reach s) (hok : FreeOK s p)
    (hrun : mm_free s (some p) = some s') :
    ∃ chain' flE cur,
      ChainSeg s'.mem 0 none chain' s'.heap_size s'.malloc_list_tail ∧
      chain'.Chain' (fun a b => ¬ (freeAt s'.mem a ∧ freeAt s'.mem b)) ∧
      s'.free_list_head = some cur ∧
      FreeChain s'.mem s'.free_list_head none (cur :: flE) ∧
      (cur :: flE).count cur = 1 := by
  obtain ⟨chain, fl, hwf⟩ := reach_wf hs
  obtain ⟨chain', flE, cur, hwf', hhead⟩ := mm_free_preserves hwf hok hrun
  refine ⟨chain', flE, cur, hwf'.chainOk, hwf'.noAdj, hhead, hwf'.flOk, ?_⟩
  have hne : cur ∉ flE := (List.nodup_cons.mp hwf'.flNodup).1
  rw [List.count_cons_self, List.count_eq_zero.mpr hne]

/-- C1 witness: freeing the only allocated block of a one-block arena (the
zero-neighbor case) leaves a chain with no adjacent free pair and the freed
block at offset 0 as the sole free-list entry. -/
theorem free_coalesces_maximally_witness :
    FreeOK (⟨[(0, ⟨64, none, none, none⟩)], none, some 0, 80⟩ : AllocState)
      16 ∧
    ∃ chain' flE cur,
      ChainSeg [(0, (⟨-64, none, none, none⟩ : Block)),
        (0, ⟨-64, none, none, none⟩), (0, ⟨-64, none, none, none⟩),
        (0, ⟨64, none, none, none⟩)] 0 none chain' 80 (some 0) ∧
      chain'.Chain' (fun a b =>
        ¬ (freeAt [(0, (⟨-64, none, none, none⟩ : Block)),
            (0, ⟨-64, none, none, none⟩), (0, ⟨-64, none, none, none⟩),
            (0, ⟨64, none, none, none⟩)] a ∧
          freeAt [(0, (⟨-64, none, none, none⟩ : Block)),
            (0, ⟨-64, none, none, none⟩), (0, ⟨-64, none, none, none⟩),
            (0, ⟨64, none, none, none⟩)] b)) ∧
      (some 0 : Option Nat) = some cur ∧
      FreeChain [(0, (⟨-64, none, none, none⟩ : Block)),
        (0, ⟨-64, none, none, none⟩), (0, ⟨-64, none, none, none⟩),
        (0, ⟨64, none, none, none⟩)] (some 0) none (cur :: flE) ∧
      (cur :: flE).count cur = 1 := by
  have hok : FreeOK
      (⟨[(0, ⟨64, none, none, none⟩)], none, some 0, 80⟩ : AllocState) 16 :=
    ⟨by decide, by decide, ⟨⟨64, none, none, none⟩, rfl, by decide⟩⟩
  exact ⟨hok, @free_coalesces_maximally
    ⟨[(0, ⟨64, none, none, none⟩)], none, some 0, 80⟩
    ⟨[(0, ⟨-64, none, none, none⟩), (0, ⟨-64, none, none, none⟩),
      (0, ⟨-64, none, none, none⟩), (0, ⟨64, none, none, none⟩)],
      some 0, some 0, 80⟩ 16
    (Reach.alloc initState
      ⟨[(0, ⟨64, none, none, none⟩)], none, some 0, 80⟩ 64 (some 16)
      Reach.start (by decide))
    hok (by decide)⟩

/-- C3: in every reachable state, a chain block is a member of the free
list iff its stored size is negative; in particular allocated blocks
(positive stored size) are never linked into the free list. -/
theorem free_list_membership_iff_negative {s : AllocState} (hs : Reach s) :
    ∃ chain fl,
      ChainSeg s.mem 0 none chain s.heap_size s.malloc_list_tail ∧
      FreeChain s.mem s.free_list_head none fl ∧
      ∀ o ∈ chain, ∀ blk, lookupB s.mem o = some blk →
        (o ∈ fl ↔ blk.size < 0) := by
  obtain ⟨chain, fl, hwf⟩ := reach_wf hs
  exact ⟨chain, fl, hwf.chainOk, hwf.flOk, hwf.signIff⟩

/-- C3 witness: a reachable two-block state (`alloc 64; alloc 64; free` of
the first) in which block 0 is free (size `-64`, on the free list) and
block 80 is allocated (size `64`, not on the free list). -/
theorem free_list_membership_iff_negative_witness :
    ∃ chain fl,
      ChainSeg [(0, (⟨-64, none, none, none⟩ : Block)),
        (0, ⟨-64, none, none, none⟩), (0, ⟨-64, none, none, none⟩),
        (80, ⟨64, some 0, none, none⟩), (0, ⟨64, none, none, none⟩)]
        0 none chain 160 (some 80) ∧
      FreeChain [(0, (⟨-64, none, none, none⟩ : Block)),
        (0, ⟨-64, none, none, none⟩), (0, ⟨-64, none, none, none⟩),
        (80, ⟨64, some 0, none, none⟩), (0, ⟨64, none, none, none⟩)]
        (some 0) none fl ∧
      ∀ o ∈ chain, ∀ blk,
        lookupB [(0, (⟨-64, none, none, none⟩ : Block)),
          (0, ⟨-64, none, none, none⟩), (0, ⟨-64, none, none, none⟩),
          (80, ⟨64, some 0, none, none⟩), (0, ⟨64, none, none, none⟩)] o
          = some blk →
        (o ∈ fl ↔ blk.size < 0) := by
  have hok : FreeOK
      (⟨[(80, ⟨64, some 0, none, none⟩), (0, ⟨64, none, none, none⟩)],
        none, some 80, 160⟩ : AllocState) 16 :=
    ⟨by decide, by decide, ⟨⟨64, none, none, none⟩, rfl, by decide⟩⟩
  exact free_list_membership_iff_negative
    (Reach.dealloc
      ⟨[(80, ⟨64, some 0, none, none⟩), (0, ⟨64, none, none, none⟩)],
        none, some 80, 160⟩
      ⟨[(0, ⟨-64, none, none, none⟩), (0, ⟨-64, none, none, none⟩),
        (0, ⟨-64, none, none, none⟩), (80, ⟨64, some 0, none, none⟩),
        (0, ⟨64, none, none, none⟩)], some 0, some 80, 160⟩
      16
      (Reach.alloc
        ⟨[(0, ⟨64, none, none, none⟩)], none, some 0, 80⟩
        ⟨[(80, ⟨64, some 0, none, none⟩), (0, ⟨64, none, none, none⟩)],
          none, some 80, 160⟩
        64 (some 96)
        (Reach.alloc initState
          ⟨[(0, ⟨64, none, none, none⟩)], none, some 0, 80⟩ 64 (some 16)
          Reach.start (by decide))
        (by decide))
      hok (by decide))

/-- C5: for every successful `alloc(n)` with `n > 0` in a reachable state,
the request is rounded up to a multiple of the alignment unit — which is
the size of the free-list linkage structure, `sizeof(BlockInfo)` — before
any block is sized, and the returned payload address is 0 modulo that
unit. -/
theorem alloc_rounds_and_aligns {s s' : AllocState} {n : Nat}
    {r : Option Nat} (hs : Reach s) (h0 : 0 < n)
    (hrun : mm_malloc s n = some (s', r)) :
    ((ALIGNMENT : Nat) = sizeofBlockInfo ∧
      (ALIGNMENT : Nat) ∣ roundUpALIGN n ∧ n ≤ roundUpALIGN n) ∧
    (∀ p, r = some p → p % ALIGNMENT = 0) := by
  obtain ⟨chain, fl, hwf⟩ := reach_wf hs
  obtain ⟨c', f', _, halign⟩ := mm_malloc_preserves hwf hrun
  obtain ⟨h1, h2, h3⟩ := roundUpALIGN_spec h0
  refine ⟨⟨rfl, h2, h3⟩, fun p hp => ?_⟩
  have h := halign p hp
  have hAn : (ALIGNMENT : Nat) = 16 := rfl
  rw [hAn] at h ⊢
  omega

/-- C5 witness: `alloc(64)` on a fresh arena rounds 64 to itself (a
multiple of 16) and returns payload pointer 16, which is 0 mod 16. -/
theorem alloc_rounds_and_aligns_witness :
    0 < 64 ∧
    (((ALIGNMENT : Nat) = sizeofBlockInfo ∧
      (ALIGNMENT : Nat) ∣ roundUpALIGN 64 ∧ 64 ≤ roundUpALIGN 64) ∧
    (∀ p, (some 16 : Option Nat) = some p → p % ALIGNMENT = 0)) :=
  ⟨by decide, @alloc_rounds_and_aligns initState
    ⟨[(0, ⟨64, none, none, none⟩)], none, some 0, 80⟩ 64 (some 16)
    Reach.start (by decide) (by decide)⟩

/-- C4 witness: allocating 16 bytes from a one-block heap whose free block
at offset 0 has capacity 64 splits it; the fragment carved at offset 32
holds the remainder (`-64 + 16 + 16 = -32`) and points back at block 0. -/
theorem mm_malloc_split_spec_witness :
    ∃ blk,
      lookupB [(32, (⟨-32, some 0, none, none⟩ : Block)),
        (32, ⟨-32, some 0, none, none⟩), (32, ⟨-32, some 0, none, none⟩),
        (0, ⟨16, none, none, none⟩), (32, ⟨-32, none, none, none⟩),
        (0, ⟨-64, none, none, none⟩)] 32 = some blk ∧
      blk.size = -64 + (roundUpALIGN 16 : Int) + (sizeofBlockInfo : Int) ∧
      blk.prev = some 0 :=
  (mm_malloc_split_spec
    ⟨[(0, ⟨-64, none, none, none⟩)], some 0, some 0, 80⟩
    ⟨[(32, ⟨-32, some 0, none, none⟩), (32, ⟨-32, some 0, none, none⟩),
      (32, ⟨-32, some 0, none, none⟩), (0, ⟨16, none, none, none⟩),
      (32, ⟨-32, none, none, none⟩), (0, ⟨-64, none, none, none⟩)],
      some 32, some 32, 80⟩
    16 0 ⟨-64, none, none, none⟩ [0] (some 16)
    (by decide) (by decide) rfl (by decide)
    ⟨some 0, FreeSeg.cons 0 none ⟨-64, none, none, none⟩ [] none (some 0)
      rfl rfl (FreeSeg.nil none (some 0))⟩
    (by decide) (by decide) (by decide) (by decide)).2.2.1

/-- Scenario B of the spec, run concretely:
`init(); a = alloc(64); b = alloc(64); free(a); free(b)`.
Returns the resulting state together with the two payload pointers. -/
def scenarioB : Option (AllocState × Option Nat × Option Nat) := do
  let (sa, a) ← mm_malloc initState 64
  let (sb, b) ← mm_malloc sa 64
  let s1 ← mm_free sb a
  let s2 ← mm_free s1 b
  some (s2, a, b)

/-- C2, counterexample: after `init; a = alloc(64); b = alloc(64); free(a);
free(b)`, the coalesced block has capacity 64 + 64 + 16 = 144 (one header is
recovered), and `alloc(136)` rounds up to exactly 144, so — contrary to the
claim — it SUCCEEDS in reusing the coalesced region: it returns the same
payload pointer `a` did (offset 16) and the arena is not grown (the heap size
stays 160 bytes). -/
theorem scenarioB_alloc136_reuses :
    (do
      let (s2, a, _) ← scenarioB
      let (s3, r) ← mm_malloc s2 136
      some (a, r, s2.heap_size, s3.heap_size))
    = some (some 16, some 16, 160, 160) := by decide

/-- C2, amended: after `init(); a = alloc(64); b = alloc(64); free(a);
free(b)`, a subsequent `alloc(145)` (which rounds up to 160, exceeding the
coalesced capacity 144 = 128 + one header) fails to reuse the coalesced
region and grows the arena (heap size 160 → 336, fresh payload at offset
176), while `alloc(128)` succeeds by reusing the coalesced region without
growing the arena (it returns `a`'s old payload pointer 16 and the heap size
stays 160). -/
theorem scenarioB_amended :
    (do
      let (s2, a, _) ← scenarioB
      let (s3, r) ← mm_malloc s2 145
      let (s4, r2) ← mm_malloc s2 128
      some (a, r, s3.heap_size, r2, s4.heap_size, s2.heap_size))
    = some (some 16, some 176, 336, some 16, 160, 160) := by decide

/-- C8: `mm_malloc` with requested size 0 returns no allocation and leaves
the state completely unchanged (mm.c:160-161), and `mm_free` of a `NULL`
pointer returns with the state completely unchanged (mm.c:242-243); both are
defined no-ops. -/
theorem malloc_zero_free_null_noop (s : AllocState) :
    mm_malloc s 0 = some (s, none) ∧ mm_free s none = some s :=
  ⟨rfl, rfl⟩

/-- C9: `coalesce` invoked on a `NULL` reference, or on a block whose stored
size is non-negative (not marked free), returns immediately with every
component of the allocator state (memory, free-list head, chain tail, heap
size) unchanged (mm.c:205-206). -/
theorem coalesce_nonfree_noop (s : AllocState) (b : Nat) (bb : Block) :
    coalesce s none = some s ∧
      (lookupB s.mem b = some bb → 0 ≤ bb.size → coalesce s (some b) = some s) := by
  refine ⟨rfl, fun h h2 => ?_⟩
  simp [coalesce, h, h2]

/-- C9 witness: `coalesce` on a concrete allocated block (stored size 16) of
a one-block heap is a no-op. -/
theorem coalesce_nonfree_noop_witness :
    coalesce ⟨[(0, ⟨16, none, none, none⟩)], none, some 0, 32⟩ (some 0)
      = some ⟨[(0, ⟨16, none, none, none⟩)], none, some 0, 32⟩ :=
  (coalesce_nonfree_noop ⟨[(0, ⟨16, none, none, none⟩)], none, some 0, 32⟩ 0
    ⟨16, none, none, none⟩).2 rfl (by decide)

/-- C10: `mm_init` never fails: from every prior allocator state it returns
0, and afterwards the free-list head is `NULL`, the chain tail is `NULL`,
and the recorded heap size is 0 (mm.c:292-298); consequently two consecutive
`mm_init` calls produce exactly the same state as one. -/
theorem mm_init_resets_and_idempotent (s : AllocState) :
    (mm_init s).2 = 0 ∧ (mm_init s).1.free_list_head = none ∧
      (mm_init s).1.malloc_list_tail = none ∧ (mm_init s).1.heap_size = 0 ∧
      mm_init (mm_init s).1 = mm_init s :=
  ⟨rfl, rfl, rfl, rfl, rfl⟩

end MM
